import Mathlib

/-!
# Verification of binmerge against its specification

Shallow embedding of the core of the `binmerge` binary merge tool:
the three differ strategies (`src/diff_iter/bytes.rs`, `src/diff_iter/memchr.rs`,
`src/diff_iter/threaded.rs`), the range tree (`src/range_tree.rs`), the diff-view
classification keymap (`src/diff_view.rs`), the popup (`src/popup.rs`), the
position navigation of the app (`src/main.rs`) and the apply stage (`src/apply.rs`).

Files are modelled as `List Nat` (each element one byte), byte offsets as `Nat`
(the Rust code uses `u64`; all operations proved here stay within bounds that
fit `u64`, and the one place where `u64` subtraction can underflow — a panic in
a debug build — is modelled by an explicit `Option`).  Rust iterators are
modelled as functions producing the whole list of yielded items; Rust panics
(`assert!`, `unwrap`, `todo!`, failed arithmetic) are modelled as `Option.none`.
-/

namespace Binmerge


/-- A half-open byte range `start..end`, as the pair `(start, end)`. -/
abbrev ByteRange := Nat × Nat

/-- `o` lies inside the half-open range `r`. -/

abbrev inRange (r : ByteRange) (o : Nat) : Prop := r.1 ≤ o ∧ o < r.2

/-- `o` lies inside some range of the list `rs`. -/

abbrev inRanges (rs : List ByteRange) (o : Nat) : Prop := ∃ r ∈ rs, inRange r o

/-! ## Byte-at-a-time differ, from `src/diff_iter/bytes.rs`

`BytesDiffIter` zips the two buffered readers byte by byte and keeps a two-state
machine.  `bytesDiffGo` is the whole iteration (repeated `next()` calls until
`None`), driven over the zipped list of byte pairs. -/

/-- The `State` enum of `src/diff_iter/bytes.rs` (fields: start, length). -/

inductive DiffState where
  | Equal (start len : Nat)
  | Different (start len : Nat)
deriving Repr, DecidableEq

/-- One pass of `BytesDiffIter::next` repeated to exhaustion, translated from the
`match (a == b, self.state)` in `src/diff_iter/bytes.rs` lines 33-57: on
`(true, Different)` the pending range is emitted, at end of input a pending
`Different` range is emitted. -/

def bytesDiffGo : List (Nat × Nat) → DiffState → List ByteRange
  | [], .Equal _ _ => []
  | [], .Different s l => [(s, s + l)]
  | (a, b) :: rest, .Equal s l =>
    if a = b then bytesDiffGo rest (.Equal s (l + 1))
    else bytesDiffGo rest (.Different (s + l) 1)
  | (a, b) :: rest, .Different s l =>
    if a = b then (s, s + l) :: bytesDiffGo rest (.Equal (s + l) 1)
    else bytesDiffGo rest (.Different s (l + 1))

/-- All ranges yielded by `BytesDiffIter` on inputs `a`, `b`
(initial state `State::Equal(0, 0)` as in `BytesDiffIter::new`). -/

def bytesDiff (a b : List Nat) : List ByteRange :=
  bytesDiffGo (a.zip b) (.Equal 0 0)

/-! ## Canonical runs of a mismatch mask (proof device)

`runsAux m p acc` lists the maximal runs of `true` in the mask `m`, whose first
element sits at absolute position `p`; `acc = some s` records a run that started
at absolute position `s` and is still open. -/

def runsAux : List Bool → Nat → Option Nat → List ByteRange
  | [], _, none => []
  | [], p, some s => [(s, p)]
  | b :: m, p, none =>
    if b then runsAux m (p + 1) (some p) else runsAux m (p + 1) none
  | b :: m, p, some s =>
    if b then runsAux m (p + 1) (some s) else (s, p) :: runsAux m (p + 1) none

/-- The mismatch mask of a list of byte pairs. -/

def neMask (l : List (Nat × Nat)) : List Bool :=
  l.map fun ab => decide (ab.1 ≠ ab.2)

@[simp] theorem neMask_nil : neMask [] = [] := rfl

@[simp] theorem neMask_cons (ab : Nat × Nat) (l : List (Nat × Nat)) :
    neMask (ab :: l) = decide (ab.1 ≠ ab.2) :: neMask l := rfl

/-- Current absolute position of the state machine. -/

def DiffState.pos : DiffState → Nat
  | .Equal s l => s + l
  | .Different s l => s + l

/-- The pending open run of the state machine. -/

def DiffState.pending : DiffState → Option Nat
  | .Equal _ _ => none
  | .Different s _ => some s

@[simp] theorem runsAux_cons_true_none (m : List Bool) (p : Nat) :
    runsAux (true :: m) p none = runsAux m (p + 1) (some p) := rfl

@[simp] theorem runsAux_cons_false_none (m : List Bool) (p : Nat) :
    runsAux (false :: m) p none = runsAux m (p + 1) none := rfl

@[simp] theorem runsAux_cons_true_some (m : List Bool) (p s : Nat) :
    runsAux (true :: m) p (some s) = runsAux m (p + 1) (some s) := rfl

@[simp] theorem runsAux_cons_false_some (m : List Bool) (p s : Nat) :
    runsAux (false :: m) p (some s) = (s, p) :: runsAux m (p + 1) none := rfl

@[simp] theorem runsAux_nil_none (p : Nat) : runsAux [] p none = [] := rfl

@[simp] theorem runsAux_nil_some (p s : Nat) : runsAux [] p (some s) = [(s, p)] := rfl

/-- The byte-at-a-time differ computes exactly the runs of the mismatch mask. -/

def pendingSet (acc : Option Nat) (p o : Nat) : Prop :=
  match acc with
  | none => False
  | some s => s ≤ o ∧ o < p

@[simp] theorem pendingSet_none (p o : Nat) : pendingSet none p o ↔ False := Iff.rfl

@[simp] theorem pendingSet_some (s p o : Nat) :
    pendingSet (some s) p o ↔ s ≤ o ∧ o < p := Iff.rfl

/-- Membership in the union of the runs: the pending part plus the `true`
positions of the mask. -/

def ChainLB : Nat → List ByteRange → Prop
  | _, [] => True
  | lb, r :: rs => lb ≤ r.1 ∧ r.1 < r.2 ∧ ChainLB (r.2 + 1) rs

def DiffOutputOK (a b : List Nat) (rs : List ByteRange) : Prop :=
  (∀ r ∈ rs, ∀ o, inRange r o → a.getD o 0 ≠ b.getD o 0) ∧
  (∀ o, o < a.length → o < b.length → ¬ inRanges rs o → a.getD o 0 = b.getD o 0) ∧
  rs.Pairwise (fun r1 r2 => r1.2 ≤ r2.1 ∧ r1.1 < r2.1)

def maskAt (A B : List Nat) (p : Nat) : List Bool :=
  neMask ((A.drop p).zip (B.drop p))

def listPosition (pred : Nat × Nat → Bool) : List (Nat × Nat) → Option Nat
  | [] => none
  | x :: l => if pred x then some 0 else (listPosition pred l).map (· + 1)

structure BufRdr where
  buf : List Nat
  rest : List Nat
deriving Repr, DecidableEq

/-- `BufReader::fill_buf` with capacity `c`: refill from the file only when the
buffer is empty, and return the buffer contents. -/

def BufRdr.fillBuf (c : Nat) (r : BufRdr) : BufRdr :=
  if r.buf.isEmpty then { buf := r.rest.take c, rest := r.rest.drop c } else r

/-- `BufReader::consume`. -/

def BufRdr.consume (r : BufRdr) (n : Nat) : BufRdr :=
  { r with buf := r.buf.drop n }

/-- The `MemchrDiffIter` state: two buffered readers plus the current position. -/

structure MemchrDiffIter where
  a : BufRdr
  b : BufRdr
  pos : Nat
deriving Repr, DecidableEq

/-- The first loop of `MemchrDiffIter::next` (`src/diff_iter/memchr.rs` lines
24-48): skip equal bytes until a mismatch is found (`some` of the state at the
mismatch) or EOF (`none`).  `fuel` only bounds the number of loop iterations. -/

def memchrSkipEqual (c : Nat) : Nat → MemchrDiffIter → Option MemchrDiffIter
  | 0, _ => none
  | fuel + 1, it =>
    let ra := it.a.fillBuf c
    let rb := it.b.fillBuf c
    let len := min ra.buf.length rb.buf.length
    if len = 0 then none
    else
      match listPosition (fun p => decide (p.1 ≠ p.2)) (ra.buf.zip rb.buf) with
      | some i => some { a := ra.consume i, b := rb.consume i, pos := it.pos + i }
      | none =>
        memchrSkipEqual c fuel
          { a := ra.consume len, b := rb.consume len, pos := it.pos + len }

/-- The second loop of `MemchrDiffIter::next` (`src/diff_iter/memchr.rs` lines
50-76): scan the current mismatch run until an equal byte or EOF, and yield
`start..pos`. -/

def memchrScanDiff (c : Nat) (start : Nat) :
    Nat → MemchrDiffIter → Option (ByteRange × MemchrDiffIter)
  | 0, _ => none
  | fuel + 1, it =>
    let ra := it.a.fillBuf c
    let rb := it.b.fillBuf c
    let len := min ra.buf.length rb.buf.length
    if len = 0 then some ((start, it.pos), { a := ra, b := rb, pos := it.pos })
    else
      match listPosition (fun p => decide (p.1 = p.2)) (ra.buf.zip rb.buf) with
      | some i =>
        some ((start, it.pos + i), { a := ra.consume i, b := rb.consume i, pos := it.pos + i })
      | none =>
        memchrScanDiff c start fuel
          { a := ra.consume len, b := rb.consume len, pos := it.pos + len }

/-- One call of `MemchrDiffIter::next`. -/

def memchrNext (c fuel : Nat) (it : MemchrDiffIter) :
    Option (ByteRange × MemchrDiffIter) :=
  match memchrSkipEqual c fuel it with
  | none => none
  | some it' => memchrScanDiff c it'.pos fuel it'

/-- Repeated calls of `MemchrDiffIter::next` until `None`. -/

def memchrAll (c : Nat) : Nat → MemchrDiffIter → List ByteRange
  | 0, _ => []
  | fuel + 1, it =>
    match memchrNext c (fuel + 1) it with
    | none => []
    | some (r, it') => r :: memchrAll c fuel it'

/-- All ranges yielded by `MemchrDiffIter` on files `a`, `b` with reader
capacity `c` (the Rust code fixes `c = 8*1024*1024`). -/

def memchrDiff (c : Nat) (a b : List Nat) : List ByteRange :=
  memchrAll c (a.length + 1)
    { a := { buf := [], rest := a }, b := { buf := [], rest := b }, pos := 0 }

/-- Invariant tying a `MemchrDiffIter` state to the two files: the unread data
of each side is the tail of its file from `pos`, and the two sides' buffers and
rests have equal lengths (which holds throughout because the files have equal
length and the readers share one capacity). -/

def MemchrInv (A B : List Nat) (it : MemchrDiffIter) : Prop :=
  it.a.buf ++ it.a.rest = A.drop it.pos ∧
  it.b.buf ++ it.b.rest = B.drop it.pos ∧
  it.a.buf.length = it.b.buf.length ∧
  it.a.rest.length = it.b.rest.length ∧
  it.pos ≤ A.length ∧ A.length = B.length

def chunksOfGo (c : Nat) : Nat → List Nat → List (List Nat)
  | _, [] => []
  | 0, _ :: _ => []
  | fuel + 1, x :: l => (x :: l).take c :: chunksOfGo c fuel ((x :: l).drop c)

def chunksOf (c : Nat) (l : List Nat) : List (List Nat) := chunksOfGo c l.length l

structure ThreadedDiffIter where
  arx : List (List Nat)
  brx : List (List Nat)
  a : List Nat
  b : List Nat
  pos : Nat
deriving Repr, DecidableEq

/-- `ThreadedDiffIter::fill_buffs`: refill each empty `VecDeque` from its
channel; `none` when a needed channel is closed and drained.  (The Rust code
may leave side `a` refilled when side `b` then fails; that partial state is
unobservable, because a failed side stays failed and `next` never reads the
buffers after a failure.) -/

def threadedFillBuffs (it : ThreadedDiffIter) : Option ThreadedDiffIter :=
  if it.a.isEmpty then
    match it.arx with
    | [] => none
    | ch :: rest =>
      if it.b.isEmpty then
        match it.brx with
        | [] => none
        | ch2 :: rest2 =>
          some { it with a := ch, arx := rest, b := ch2, brx := rest2 }
      else some { it with a := ch, arx := rest }
  else
    if it.b.isEmpty then
      match it.brx with
      | [] => none
      | ch2 :: rest2 => some { it with b := ch2, brx := rest2 }
    else some it

/-- `ThreadedDiffIter::consume`. -/

def threadedConsume (it : ThreadedDiffIter) (amount : Nat) : ThreadedDiffIter :=
  { it with a := it.a.drop amount, b := it.b.drop amount, pos := it.pos + amount }

/-- The equal-skipping loops of `ThreadedDiffIter::next`
(`src/diff_iter/threaded.rs` lines 60-79, the interplay of `'outer` and
`'equal`). -/

def threadedSkipEqual : Nat → ThreadedDiffIter → Option ThreadedDiffIter
  | 0, _ => none
  | fuel + 1, it =>
    match threadedFillBuffs it with
    | none => none
    | some it' =>
      match listPosition (fun p => decide (p.1 ≠ p.2)) (it'.a.zip it'.b) with
      | some i => some (threadedConsume it' i)
      | none => threadedSkipEqual fuel (threadedConsume it' it'.a.length)

/-- The mismatch-scanning loop of `ThreadedDiffIter::next`
(`src/diff_iter/threaded.rs` lines 81-102). -/

def threadedScanDiff (start : Nat) :
    Nat → ThreadedDiffIter → Option (ByteRange × ThreadedDiffIter)
  | 0, _ => none
  | fuel + 1, it =>
    match threadedFillBuffs it with
    | none => some ((start, it.pos), it)
    | some it' =>
      match listPosition (fun p => decide (p.1 = p.2)) (it'.a.zip it'.b) with
      | some i => some ((start, it'.pos + i), threadedConsume it' i)
      | none => threadedScanDiff start fuel (threadedConsume it' it'.a.length)

/-- One call of `ThreadedDiffIter::next`. -/

def threadedNext (fuel : Nat) (it : ThreadedDiffIter) :
    Option (ByteRange × ThreadedDiffIter) :=
  match threadedSkipEqual fuel it with
  | none => none
  | some it' => threadedScanDiff it'.pos fuel it'

/-- Repeated calls of `ThreadedDiffIter::next` until `None`. -/

def threadedAll : Nat → ThreadedDiffIter → List ByteRange
  | 0, _ => []
  | fuel + 1, it =>
    match threadedNext (fuel + 1) it with
    | none => []
    | some (r, it') => r :: threadedAll fuel it'

/-- All ranges yielded by `ThreadedDiffIter` on files `a`, `b` with chunk size
`c` (the Rust code fixes `c = 8*1024*1024`). -/

def threadedDiff (c : Nat) (a b : List Nat) : List ByteRange :=
  threadedAll (a.length + 1)
    { arx := chunksOf c a, brx := chunksOf c b, a := [], b := [], pos := 0 }

/-- Invariant tying a `ThreadedDiffIter` state to the two files: each side's
buffer plus its channel backlog is the tail of its file, the two sides stay in
lockstep (equal buffer lengths, chunk-length-aligned channels), and no channel
chunk is empty. -/

def ThreadedInv (A B : List Nat) (it : ThreadedDiffIter) : Prop :=
  it.a ++ it.arx.flatten = A.drop it.pos ∧
  it.b ++ it.brx.flatten = B.drop it.pos ∧
  it.a.length = it.b.length ∧
  it.arx.map List.length = it.brx.map List.length ∧
  (∀ ch ∈ it.arx, ch ≠ []) ∧
  it.pos ≤ A.length ∧ A.length = B.length

structure RangeTree where
  ranges : List ByteRange
deriving Repr, DecidableEq

namespace RangeTree

/-- `RangeTree::new`. -/
def new : RangeTree := ⟨[]⟩

/-- `RangeTree::len`. -/
def len (t : RangeTree) : Nat := t.ranges.length

/-- `RangeTree::get`. -/
def get (t : RangeTree) (index : Nat) : Option ByteRange := t.ranges[index]?

/-- The comparator of `RangeTree::lookup_index` (`src/range_tree.rs` lines
81-91): `Less` when `r.end <= element`; otherwise `Greater` (the code returns
`Greater` both when `r.contains(&element)` and when `element < r.start`, and
its final `unreachable!()` arm is dead for every `r` and `element`, because
`¬(r.end ≤ e)` and `¬(e < r.start)` force `r.start ≤ e < r.end`, the
`contains` case). -/
def lookupCmp (r : ByteRange) (element : Nat) : Ordering :=
  if r.2 ≤ element then .lt else .gt

/-- `slice::binary_search_by` with a comparator that never returns `Equal`:
the returned index is the `Err` insertion point.  `fuel` only bounds the
number of loop iterations of the Rust `while`; since the interval halves each
iteration, `ranges.length + 1` always suffices. -/
def binarySearchGo (ranges : List ByteRange) (element : Nat) :
    Nat → Nat → Nat → Nat
  | 0, left, _right => left
  | fuel + 1, left, right =>
    if left < right then
      match lookupCmp (ranges.getD (left + (right - left) / 2) (0, 0)) element with
      | .lt => binarySearchGo ranges element fuel (left + (right - left) / 2 + 1) right
      | _ => binarySearchGo ranges element fuel left (left + (right - left) / 2)
    else left

/-- `RangeTree::lookup_index`. -/
def lookup_index (t : RangeTree) (element : Nat) : Nat :=
  binarySearchGo t.ranges element (t.ranges.length + 1) 0 t.ranges.length

/-- `RangeTree::append` (`src/range_tree.rs` lines 31-39); `none` models the
panicking asserts. -/
def append (t : RangeTree) (range : ByteRange) : Option RangeTree :=
  let lastVal := match t.ranges.getLast? with
    | some r => r.2
    | none => 0
  if range.1 ≤ range.2 ∧ lastVal ≤ range.1 then
    some ⟨t.ranges ++ [range]⟩
  else none

/-- `RangeTree::insert` (`src/range_tree.rs` lines 44-51); `none` models the
panicking asserts.  The `unwrap_or(T::max_value())` of the second assert is the
`none => insert` branch: `range.end ≤ u64::MAX` always holds. -/
def insert (t : RangeTree) (range : ByteRange) : Option RangeTree :=
  let index := t.lookup_index range.1
  if index ≠ 0 ∧ ¬ (t.ranges.getD (index - 1) (0, 0)).2 ≤ range.1 then none
  else
    match t.ranges[index]? with
    | some r =>
      if range.2 ≤ r.1 then some ⟨t.ranges.insertIdx index range⟩ else none
    | none => some ⟨t.ranges.insertIdx index range⟩

/-- `RangeTree::contains` (`src/range_tree.rs` lines 107-112). -/
def contains (t : RangeTree) (element : Nat) : Bool :=
  match t.ranges[t.lookup_index element]? with
  | some range => decide (range.1 ≤ element ∧ element < range.2)
  | none => false

/-- `RangeTree::remove_range_exact` (`src/range_tree.rs` lines 153-163):
returns the updated tree and whether an exact match was removed; `none` models
the panicking assert. -/
def remove_range_exact (t : RangeTree) (range : ByteRange) :
    Option (RangeTree × Bool) :=
  if range.1 ≤ range.2 then
    let index := t.lookup_index range.1
    match t.ranges[index]? with
    | some r =>
      if r.1 = range.1 ∧ r.2 = range.2 then some (⟨t.ranges.eraseIdx index⟩, true)
      else some (t, false)
    | none => some (t, false)
  else none

/-- `Vec::is_empty` on the backing vector (used by the diff view's `q`
handler). -/
def isEmpty (t : RangeTree) : Bool := t.ranges.isEmpty

end RangeTree


/-- The range-tree invariant: ranges are well-formed (`start ≤ end`), sorted by
`start`, and non-overlapping (`prev.end ≤ next.start`), with all starts at or
above the lower bound. -/
def TreeChain : Nat → List ByteRange → Prop
  | _, [] => True
  | lb, r :: rs => lb ≤ r.1 ∧ r.1 ≤ r.2 ∧ TreeChain r.2 rs

/-- The stored ranges of the tree are sorted and non-overlapping. -/

def RangeTree.Inv (t : RangeTree) : Prop := TreeChain 0 t.ranges

instance instDecidableTreeChain :
    ∀ (lb : Nat) (l : List ByteRange), Decidable (TreeChain lb l)
  | _, [] => .isTrue trivial
  | lb, r :: rs =>
    have : Decidable (TreeChain r.2 rs) := instDecidableTreeChain r.2 rs
    inferInstanceAs (Decidable (lb ≤ r.1 ∧ r.1 ≤ r.2 ∧ TreeChain r.2 rs))

instance (t : RangeTree) : Decidable t.Inv :=
  inferInstanceAs (Decidable (TreeChain 0 t.ranges))

inductive TreeOp where
  | append (r : ByteRange)
  | insert (r : ByteRange)
  | remove (r : ByteRange)
deriving Repr, DecidableEq

/-- The range argument of an operation. -/

def TreeOp.range : TreeOp → ByteRange
  | .append r => r
  | .insert r => r
  | .remove r => r

/-- Apply one operation (`none` models a panic). -/

def applyOp (t : RangeTree) : TreeOp → Option RangeTree
  | .append r => t.append r
  | .insert r => t.insert r
  | .remove r => (t.remove_range_exact r).map Prod.fst

/-- Apply a sequence of operations, stopping at the first panic. -/

def applyOps : RangeTree → List TreeOp → Option RangeTree
  | t, [] => some t
  | t, op :: ops => (applyOp t op).bind fun t2 => applyOps t2 ops

structure AppCtx where
  diffs : RangeTree
  current_diff_index : Option Nat
  merges_1_into_2 : RangeTree
  merges_2_into_1 : RangeTree
  leave_unmerged : RangeTree
  exit : Bool
deriving Repr, DecidableEq

inductive DVKey where
  | q
  | gt
  | lt
  | eq
  | bang
  | other
deriving Repr, DecidableEq

/-- `DiffView::handle_key_event` (`src/diff_view.rs` lines 24-62) for the
quit and classification keys. -/

def DiffView.handleKeyEvent (ctx : AppCtx) (key : DVKey) :
    Option (AppCtx × Bool) :=
  match key with
  | .q =>
    if ctx.merges_1_into_2.isEmpty && ctx.merges_2_into_1.isEmpty then
      some ({ ctx with exit := true }, false)
    else some (ctx, true)
  | .gt =>
    match ctx.current_diff_index with
    | some index =>
      match ctx.diffs.get index with
      | some r =>
        (ctx.merges_1_into_2.insert r).bind fun m12 =>
        (ctx.merges_2_into_1.remove_range_exact r).bind fun m21 =>
        (ctx.leave_unmerged.remove_range_exact r).map fun (lu : RangeTree × Bool) =>
        (({ ctx with
            merges_1_into_2 := m12
            merges_2_into_1 := m21.1
            leave_unmerged := lu.1 } : AppCtx), false)
      | none => none
    | none => some (ctx, false)
  | .lt =>
    match ctx.current_diff_index with
    | some index =>
      match ctx.diffs.get index with
      | some r =>
        (ctx.merges_1_into_2.remove_range_exact r).bind fun m12 =>
        (ctx.merges_2_into_1.insert r).bind fun m21 =>
        (ctx.leave_unmerged.remove_range_exact r).map fun (lu : RangeTree × Bool) =>
        (({ ctx with
            merges_1_into_2 := m12.1
            merges_2_into_1 := m21
            leave_unmerged := lu.1 } : AppCtx), false)
      | none => none
    | none => some (ctx, false)
  | .eq =>
    match ctx.current_diff_index with
    | some index =>
      match ctx.diffs.get index with
      | some r =>
        (ctx.merges_1_into_2.remove_range_exact r).bind fun m12 =>
        (ctx.merges_2_into_1.remove_range_exact r).bind fun m21 =>
        (ctx.leave_unmerged.insert r).map fun (lu : RangeTree) =>
        (({ ctx with
            merges_1_into_2 := m12.1
            merges_2_into_1 := m21.1
            leave_unmerged := lu } : AppCtx), false)
      | none => none
    | none => some (ctx, false)
  | .bang =>
    match ctx.current_diff_index with
    | some index =>
      match ctx.diffs.get index with
      | some r =>
        (ctx.merges_1_into_2.remove_range_exact r).bind fun m12 =>
        (ctx.merges_2_into_1.remove_range_exact r).bind fun m21 =>
        (ctx.leave_unmerged.remove_range_exact r).map fun (lu : RangeTree × Bool) =>
        (({ ctx with
            merges_1_into_2 := m12.1
            merges_2_into_1 := m21.1
            leave_unmerged := lu.1 } : AppCtx), false)
      | none => none
    | none => some (ctx, false)
  | .other => some (ctx, false)

/-- Each stored classification appears in at most one of the three trees. -/

def TreesDisjoint (m12 m21 lu : RangeTree) : Prop :=
  (∀ r ∈ m12.ranges, r ∉ m21.ranges ∧ r ∉ lu.ranges) ∧
  (∀ r ∈ m21.ranges, r ∉ lu.ranges)

/-- The reachable-state facts the classification claims rely on: the three
trees satisfy the range-tree invariant and the diff tree stores only nonempty
ranges. -/

def CtxInv (ctx : AppCtx) : Prop :=
  ctx.merges_1_into_2.Inv ∧ ctx.merges_2_into_1.Inv ∧ ctx.leave_unmerged.Inv ∧
  (∀ r ∈ ctx.diffs.ranges, r.1 < r.2)

instance (m12 m21 lu : RangeTree) : Decidable (TreesDisjoint m12 m21 lu) :=
  inferInstanceAs (Decidable (_ ∧ _))

instance (ctx : AppCtx) : Decidable (CtxInv ctx) :=
  inferInstanceAs (Decidable (_ ∧ _ ∧ _ ∧ _))

/-- `remove_range_exact` never panics on a well-formed range. -/

structure PopupYesNo where
  yes_selected : Bool
deriving Repr, DecidableEq

/-- The key codes the popup handler distinguishes. -/

inductive PopupKey where
  | left
  | right
  | esc
  | q
  | enter
  | other
deriving Repr, DecidableEq

/-- `Layer::handle_key_event` for `PopupYesNo` (`src/popup.rs` lines 28-38):
returns the updated popup state and whether the layer was popped; the
`todo!()` reached by Enter with YES selected is a panic, modeled as `none`. -/

def PopupYesNo.handle_key_event (p : PopupYesNo) (key : PopupKey) :
    Option (PopupYesNo × Bool) :=
  match key with
  | .left => some ({ yes_selected := !p.yes_selected }, false)
  | .right => some ({ yes_selected := !p.yes_selected }, false)
  | .esc => some (p, true)
  | .q => some (p, true)
  | .enter => if !p.yes_selected then some (p, true) else none
  | .other => some (p, false)

/-- `App::decrease_pos` (`src/main.rs` lines 167-170): `pos` is decreased by
`amount` with `u64::saturating_sub` (Nat subtraction), then
`assert_eq!(pos % 16, 0)`; a failed assertion is a panic, modeled `none`. -/

def App.decrease_pos (pos amount : Nat) : Option Nat :=
  let pos := pos - amount
  if pos % 16 = 0 then some pos else none

/-- `App::increase_pos` (`src/main.rs` lines 171-178): `pos` grows by
`amount` and is clamped to `max_pos`, computed from `len - bytes_shown`
(u64 subtraction: underflow panics, modeled `none`), rounded down to 16 and
increased by 16; then `assert_eq!(pos % 16, 0)`. -/

def App.increase_pos (len shown_data_height pos amount : Nat) : Option Nat :=
  let pos := pos + amount
  let bytes_shown := shown_data_height * 16
  if len < bytes_shown then none
  else
    let max_pos := len - bytes_shown
    let max_pos := max_pos - max_pos % 16 + 16
    let pos := min pos max_pos
    if pos % 16 = 0 then some pos else none

/-- `App::center_diff` (`src/main.rs` lines 194-210): recenters `pos` on the
current diff.  `range.end - range.start` and `bytes_shown - 48` are u64
subtractions whose underflow panics (`none`); the two `saturating_sub`s are
Nat subtraction; finally `pos -= pos % 16`. -/

def App.center_diff (diffs : RangeTree) (current_diff_index : Option Nat)
    (shown_data_height pos : Nat) : Option Nat :=
  match current_diff_index.bind fun i => diffs.get i with
  | none => some pos
  | some range =>
    if range.2 < range.1 then none
    else
      let rlen := range.2 - range.1
      let bytes_shown := shown_data_height * 16
      if bytes_shown < 48 then none
      else
        let p := if rlen > bytes_shown - 48 then range.1 - 32
          else range.1 - (bytes_shown - rlen) / 2
        some (p - p % 16)

/-- The file length rounded up to a 16-byte boundary, as the claim words it. -/

def roundUp16 (n : Nat) : Nat := n + (16 - n % 16) % 16

/-- C7 (amended): with `pos` and the step amount multiples of 16 (every key
uses 16 or `shown_data_height * 16`), each non-panicking action leaves `pos`
a multiple of 16; `decrease_pos` never increases `pos`, and `increase_pos`
clamps `pos` to `(len - bytes_shown) - (len - bytes_shown) % 16 + 16` — a
bound that can exceed `len` rounded up to 16 by one 16-byte row, so the
claimed bound `pos + shown_data_height * 16 ≤ roundUp16 len` does not hold
in general. -/

def readAt (file : List Nat) (pos size : Nat) : List Nat :=
  (file.drop pos).take size

/-- `WriteAt::write_all_at` on an in-memory file (`src/apply.rs` line 35):
overwrite `data.length` bytes at offset `pos`. -/

def writeAllAt (file : List Nat) (pos : Nat) (data : List Nat) : List Nat :=
  file.take pos ++ data ++ file.drop (pos + data.length)

/-- The `while pos < range.end` loop of `copy` (`src/apply.rs` lines 31-37),
with fuel: each pass reads at most `8*1024*1024` bytes of `src` at `pos`,
writes them into `dst`, and advances `pos` by the number of bytes read. -/

def copyGo (src : List Nat) : Nat → List Nat → Nat → Nat → List Nat
  | 0, dst, _, _ => dst
  | fuel + 1, dst, pos, endPos =>
    if pos < endPos then
      let data := readAt src pos (min (8 * 1024 * 1024) (endPos - pos))
      copyGo src fuel (writeAllAt dst pos data) (pos + data.length) endPos
    else dst

/-- `copy` (`src/apply.rs` lines 28-38).  Fuel `range.end - range.start`
suffices: every pass reads at least one byte while the source covers the
range. -/

def copy (src dst : List Nat) (r : ByteRange) : List Nat :=
  copyGo src (r.2 - r.1) dst r.1 r.2

/-- `apply_changes` (`src/apply.rs` lines 6-26): first every
`merges_2_into_1` range is copied from file2 into file1, then every
`merges_1_into_2` range is copied from the already-updated file1 into file2;
`leave_unmerged` is never written. -/

def apply_changes (file1 file2 : List Nat) (m21 m12 : RangeTree) :
    List Nat × List Nat :=
  let file1' := m21.ranges.foldl (fun f r => copy file2 f r) file1
  let file2' := m12.ranges.foldl (fun f r => copy file1' f r) file2
  (file1', file2')

def runsMask : List ByteRange → Nat → Nat → List Bool
  | [], _, L => List.replicate L false
  | (s, e) :: rs, p, L =>
    List.replicate (s - p) false ++
      (List.replicate (e - s) true ++ runsMask rs e (L - (e - p)))

theorem bytesDiffGo_eq_runsAux :
    ∀ (l : List (Nat × Nat)) (st : DiffState),
      bytesDiffGo l st = runsAux (neMask l) st.pos st.pending := by
  intro l
  induction l with
  | nil =>
    intro st
    cases st <;> simp [bytesDiffGo, DiffState.pos, DiffState.pending]
  | cons ab rest ih =>
    intro st
    obtain ⟨a, b⟩ := ab
    cases st with
    | Equal s len =>
      by_cases hab : a = b
      · have hmask : (decide (((a, b) : Nat × Nat).1 ≠ (a, b).2)) = false := by simp [hab]
        have h1 : bytesDiffGo ((a, b) :: rest) (.Equal s len)
            = bytesDiffGo rest (.Equal s (len + 1)) := by simp [bytesDiffGo, hab]
        rw [h1, ih, neMask_cons, hmask]
        simp only [DiffState.pos, DiffState.pending]
        rw [runsAux_cons_false_none]
        show runsAux (neMask rest) (s + (len + 1)) none = runsAux (neMask rest) (s + len + 1) none
        rw [Nat.add_assoc]
      · have hmask : (decide (((a, b) : Nat × Nat).1 ≠ (a, b).2)) = true := by simp [hab]
        have h1 : bytesDiffGo ((a, b) :: rest) (.Equal s len)
            = bytesDiffGo rest (.Different (s + len) 1) := by simp [bytesDiffGo, hab]
        rw [h1, ih, neMask_cons, hmask]
        simp only [DiffState.pos, DiffState.pending]
        rw [runsAux_cons_true_none]
    | Different s len =>
      by_cases hab : a = b
      · have hmask : (decide (((a, b) : Nat × Nat).1 ≠ (a, b).2)) = false := by simp [hab]
        have h1 : bytesDiffGo ((a, b) :: rest) (.Different s len)
            = (s, s + len) :: bytesDiffGo rest (.Equal (s + len) 1) := by simp [bytesDiffGo, hab]
        rw [h1, ih, neMask_cons, hmask]
        simp only [DiffState.pos, DiffState.pending]
        rw [runsAux_cons_false_some]
      · have hmask : (decide (((a, b) : Nat × Nat).1 ≠ (a, b).2)) = true := by simp [hab]
        have h1 : bytesDiffGo ((a, b) :: rest) (.Different s len)
            = bytesDiffGo rest (.Different s (len + 1)) := by simp [bytesDiffGo, hab]
        rw [h1, ih, neMask_cons, hmask]
        simp only [DiffState.pos, DiffState.pending]
        rw [runsAux_cons_true_some]
        show runsAux (neMask rest) (s + (len + 1)) (some s)
            = runsAux (neMask rest) (s + len + 1) (some s)
        rw [Nat.add_assoc]

theorem bytesDiff_eq_runsAux (a b : List Nat) :
    bytesDiff a b = runsAux (neMask (a.zip b)) 0 none :=
  bytesDiffGo_eq_runsAux (a.zip b) (.Equal 0 0)

@[simp] theorem inRanges_nil (o : Nat) : inRanges ([] : List ByteRange) o ↔ False := by
  simp [inRanges]

@[simp] theorem inRanges_cons (r : ByteRange) (rs : List ByteRange) (o : Nat) :
    inRanges (r :: rs) o ↔ inRange r o ∨ inRanges rs o := by
  constructor
  · rintro ⟨x, hx, h⟩
    rcases List.mem_cons.mp hx with h' | h'
    · exact Or.inl (h' ▸ h)
    · exact Or.inr ⟨x, h', h⟩
  · rintro (h | ⟨x, hx, h⟩)
    · exact ⟨r, List.mem_cons_self r rs, h⟩
    · exact ⟨x, List.mem_cons_of_mem r hx, h⟩

/-- The set of offsets covered by the still-open run of `runsAux`. -/

theorem mem_runsAux (m : List Bool) : ∀ (p : Nat) (acc : Option Nat) (o : Nat),
    (∀ s, acc = some s → s ≤ p) →
    (inRanges (runsAux m p acc) o ↔
      pendingSet acc p o ∨ ∃ i, i < m.length ∧ o = p + i ∧ m.getD i false = true) := by
  induction m with
  | nil =>
    intro p acc o hacc
    cases acc with
    | none => simp
    | some s =>
      rw [runsAux_nil_some]
      simp only [pendingSet_some, List.length_nil]
      constructor
      · rintro ⟨r, hr, h⟩
        rcases List.mem_singleton.mp hr with rfl
        exact Or.inl h
      · rintro (h | ⟨i, hi, -, -⟩)
        · exact ⟨(s, p), List.mem_singleton_self _, h⟩
        · omega
  | cons b m ih =>
    intro p acc o hacc
    have hidx : (∃ i, i < (b :: m).length ∧ o = p + i ∧ (b :: m).getD i false = true) ↔
        ((b = true ∧ o = p) ∨ ∃ i, i < m.length ∧ o = (p + 1) + i ∧ m.getD i false = true) := by
      constructor
      · rintro ⟨i, hi, ho, hb⟩
        cases i with
        | zero => exact Or.inl ⟨by simpa using hb, by simpa using ho⟩
        | succ j =>
          refine Or.inr ⟨j, by simpa using hi, by omega, by simpa using hb⟩
      · rintro (⟨hb, ho⟩ | ⟨j, hj, ho, hb⟩)
        · exact ⟨0, by simp, by simpa using ho, by simpa using hb⟩
        · exact ⟨j + 1, by simpa using hj, by omega, by simpa using hb⟩
    cases b with
    | true =>
      cases acc with
      | none =>
        rw [runsAux_cons_true_none,
          ih (p + 1) (some p) o (by intro s hs; injection hs with h; omega), hidx]
        simp only [pendingSet_some, pendingSet_none]
        constructor
        · rintro (⟨h1, h2⟩ | h)
          · exact Or.inr (Or.inl ⟨by simp, by omega⟩)
          · exact Or.inr (Or.inr h)
        · rintro (h | (⟨-, ho⟩ | h))
          · exact h.elim
          · exact Or.inl ⟨by omega, by omega⟩
          · exact Or.inr h
      | some s =>
        have hs : s ≤ p := hacc s rfl
        rw [runsAux_cons_true_some,
          ih (p + 1) (some s) o (by intro u hu; injection hu with h; omega), hidx]
        simp only [pendingSet_some]
        constructor
        · rintro (⟨h1, h2⟩ | h)
          · by_cases ho : o < p
            · exact Or.inl ⟨h1, ho⟩
            · exact Or.inr (Or.inl ⟨by simp, by omega⟩)
          · exact Or.inr (Or.inr h)
        · rintro (⟨h1, h2⟩ | (⟨-, ho⟩ | h))
          · exact Or.inl ⟨h1, by omega⟩
          · exact Or.inl ⟨by omega, by omega⟩
          · exact Or.inr h
    | false =>
      cases acc with
      | none =>
        rw [runsAux_cons_false_none, ih (p + 1) none o (by intro s hs; cases hs), hidx]
        simp
      | some s =>
        rw [runsAux_cons_false_some, inRanges_cons,
          ih (p + 1) none o (by intro s hs; cases hs), hidx]
        simp only [pendingSet_some, pendingSet_none]
        constructor
        · rintro (⟨h1, h2⟩ | (h | h))
          · exact Or.inl ⟨h1, h2⟩
          · exact h.elim
          · exact Or.inr (Or.inr h)
        · rintro (⟨h1, h2⟩ | (⟨hb, -⟩ | h))
          · exact Or.inl ⟨h1, h2⟩
          · exact absurd hb (by simp)
          · exact Or.inr (Or.inr h)

/-- The shape invariant of a run list: every range is nonempty, starts at or
after the lower bound, and each following range starts strictly after the
previous one ends. -/

theorem ChainLB.mono {lb lb' : Nat} {rs : List ByteRange} (h : lb' ≤ lb)
    (hc : ChainLB lb rs) : ChainLB lb' rs := by
  cases rs with
  | nil => trivial
  | cons r rs => exact ⟨le_trans h hc.1, hc.2.1, hc.2.2⟩

theorem chainLB_runsAux (m : List Bool) : ∀ (p : Nat) (acc : Option Nat),
    (∀ s, acc = some s → s < p) →
    ChainLB (acc.getD p) (runsAux m p acc) := by
  induction m with
  | nil =>
    intro p acc hacc
    cases acc with
    | none => trivial
    | some s => exact ⟨le_refl s, hacc s rfl, trivial⟩
  | cons b m ih =>
    intro p acc hacc
    cases b with
    | true =>
      cases acc with
      | none =>
        rw [runsAux_cons_true_none]
        exact ih (p + 1) (some p) (by intro s hs; injection hs with h; omega)
      | some s =>
        have := hacc s rfl
        rw [runsAux_cons_true_some]
        exact ih (p + 1) (some s) (by intro u hu; injection hu with h; omega)
    | false =>
      cases acc with
      | none =>
        rw [runsAux_cons_false_none]
        have h1 := ih (p + 1) none (by intro s hs; cases hs)
        have h2 : (none : Option Nat).getD (p + 1) = p + 1 := rfl
        have h3 : (none : Option Nat).getD p = p := rfl
        rw [h2] at h1
        rw [h3]
        exact h1.mono (by omega)
      | some s =>
        rw [runsAux_cons_false_some]
        have h1 := ih (p + 1) none (by intro u hu; cases hu)
        have h2 : (none : Option Nat).getD (p + 1) = p + 1 := rfl
        rw [h2] at h1
        exact ⟨le_refl s, hacc s rfl, h1⟩

/-- Every range of a chain is nonempty and starts at or after the lower bound. -/

theorem ChainLB.mem_bound {lb : Nat} {rs : List ByteRange} (h : ChainLB lb rs) :
    ∀ r ∈ rs, lb ≤ r.1 ∧ r.1 < r.2 := by
  induction rs generalizing lb with
  | nil => intro r hr; cases hr
  | cons x rs ih =>
    intro r hr
    obtain ⟨h1, h2, h3⟩ := h
    rcases List.mem_cons.mp hr with h' | h'
    · subst h'; exact ⟨h1, h2⟩
    · have := ih h3 r h'
      exact ⟨by omega, this.2⟩

theorem ChainLB.pairwise {lb : Nat} {rs : List ByteRange} (h : ChainLB lb rs) :
    rs.Pairwise (fun r1 r2 => r1.2 ≤ r2.1 ∧ r1.1 < r2.1) := by
  induction rs generalizing lb with
  | nil => exact List.Pairwise.nil
  | cons r rs ih =>
    obtain ⟨h1, h2, h3⟩ := h
    refine List.Pairwise.cons ?_ (ih h3)
    intro r' hr'
    have := ChainLB.mem_bound h3 r' hr'
    exact ⟨by omega, by omega⟩

theorem neMask_length (l : List (Nat × Nat)) : (neMask l).length = l.length :=
  List.length_map _ _

theorem neMask_getD (l : List (Nat × Nat)) (i : Nat) (hi : i < l.length) :
    (neMask l).getD i false
      = decide ((l.getD i (0, 0)).1 ≠ (l.getD i (0, 0)).2) := by
  induction l generalizing i with
  | nil => cases hi
  | cons ab l ih =>
    cases i with
    | zero => simp
    | succ j =>
      have hj : j < l.length := by simpa using hi
      simpa using ih j hj

theorem zip_getD (a : List Nat) : ∀ (b : List Nat) (i : Nat),
    i < a.length → i < b.length →
    (a.zip b).getD i (0, 0) = (a.getD i 0, b.getD i 0) := by
  induction a with
  | nil => intro b i hi _; cases hi
  | cons x a ih =>
    intro b i hia hib
    cases b with
    | nil => cases hib
    | cons y b =>
      cases i with
      | zero => simp
      | succ j =>
        have hja : j < a.length := by simpa using hia
        have hjb : j < b.length := by simpa using hib
        simpa using ih b j hja hjb

/-- The differ contract of the spec: every yielded offset is a mismatch, every
offset not yielded is a match, and the yielded ranges are pairwise
non-overlapping with strictly increasing starts. -/

theorem runsAux_diffOutputOK (a b : List Nat) :
    DiffOutputOK a b (runsAux (neMask (a.zip b)) 0 none) := by
  have hacc : ∀ s, (none : Option Nat) = some s → s ≤ 0 := by intro s hs; cases hs
  have hmem := fun o => mem_runsAux (neMask (a.zip b)) 0 none o hacc
  refine ⟨?_, ?_, ?_⟩
  · intro r hr o ho
    have : inRanges (runsAux (neMask (a.zip b)) 0 none) o := ⟨r, hr, ho⟩
    rw [hmem o] at this
    rcases this with h | ⟨i, hi, hoi, hb⟩
    · simp at h
    · rw [neMask_length, List.length_zip] at hi
      have hia : i < a.length := lt_of_lt_of_le hi (min_le_left _ _)
      have hib : i < b.length := lt_of_lt_of_le hi (min_le_right _ _)
      rw [neMask_getD _ i (by rw [List.length_zip]; omega), zip_getD a b i hia hib] at hb
      have : o = i := by omega
      subst this
      simpa using hb
  · intro o hoa hob hno
    by_contra hne
    apply hno
    rw [hmem o]
    refine Or.inr ⟨o, ?_, by omega, ?_⟩
    · rw [neMask_length, List.length_zip]; omega
    · rw [neMask_getD _ o (by rw [List.length_zip]; omega), zip_getD a b o hoa hob]
      simpa using hne
  · have h := chainLB_runsAux (neMask (a.zip b)) 0 none
      (by intro s hs; cases hs)
    exact h.pairwise

/-! ## runsAux splitting toolkit -/

/-- Skipping a known-false prefix of the mask. -/

theorem runsAux_drop_false : ∀ (k : Nat) (m : List Bool) (p : Nat),
    k ≤ m.length → (∀ i, i < k → m.getD i false = false) →
    runsAux m p none = runsAux (m.drop k) (p + k) none := by
  intro k
  induction k with
  | zero => intro m p _ _; simp
  | succ j ih =>
    intro m p hk hfalse
    cases m with
    | nil => simp at hk
    | cons b m =>
      have hb : b = false := by simpa using hfalse 0 (by omega)
      subst hb
      rw [runsAux_cons_false_none]
      have := ih m (p + 1) (by simpa using hk)
        (fun i hi => by simpa using hfalse (i + 1) (by omega))
      rw [this, List.drop_succ_cons]
      congr 1
      omega

/-- Skipping a known-true prefix of the mask with an open run. -/

theorem runsAux_drop_true : ∀ (d : Nat) (m : List Bool) (p s : Nat),
    d ≤ m.length → (∀ i, i < d → m.getD i false = true) →
    runsAux m p (some s) = runsAux (m.drop d) (p + d) (some s) := by
  intro d
  induction d with
  | zero => intro m p s _ _; simp
  | succ j ih =>
    intro m p s hd htrue
    cases m with
    | nil => simp at hd
    | cons b m =>
      have hb : b = true := by simpa using htrue 0 (by omega)
      subst hb
      rw [runsAux_cons_true_some]
      have := ih m (p + 1) s (by simpa using hd)
        (fun i hi => by simpa using htrue (i + 1) (by omega))
      rw [this, List.drop_succ_cons]
      congr 1
      omega

/-- A mask that is false everywhere yields no runs. -/

theorem runsAux_all_false (m : List Bool) (p : Nat)
    (h : ∀ i, i < m.length → m.getD i false = false) :
    runsAux m p none = [] := by
  rw [runsAux_drop_false m.length m p (le_refl _) h]
  simp

/-- The mismatch mask of the tails of `A` and `B` from absolute position `p`. -/

theorem maskAt_length (A B : List Nat) (p : Nat) :
    (maskAt A B p).length = min (A.length - p) (B.length - p) := by
  simp [maskAt, neMask_length]

theorem zip_drop (a : List Nat) : ∀ (b : List Nat) (n : Nat),
    (a.zip b).drop n = (a.drop n).zip (b.drop n) := by
  induction a with
  | nil => intro b n; simp
  | cons x a ih =>
    intro b n
    cases b with
    | nil => simp
    | cons y b =>
      cases n with
      | zero => simp
      | succ m => simpa using ih b m

theorem maskAt_drop (A B : List Nat) (p k : Nat) :
    (maskAt A B p).drop k = maskAt A B (p + k) := by
  unfold maskAt neMask
  rw [← List.map_drop, zip_drop, List.drop_drop, List.drop_drop]

theorem getD_drop (A : List Nat) (p i : Nat) (_h : p + i < A.length) :
    (A.drop p).getD i 0 = A.getD (p + i) 0 := by
  simp [List.getD, List.getElem?_drop]

theorem maskAt_getD (A B : List Nat) (p i : Nat)
    (ha : p + i < A.length) (hb : p + i < B.length) :
    (maskAt A B p).getD i false
      = decide (A.getD (p + i) 0 ≠ B.getD (p + i) 0) := by
  have hia : i < (A.drop p).length := by simp; omega
  have hib : i < (B.drop p).length := by simp; omega
  rw [maskAt, neMask_getD _ i (by rw [List.length_zip]; omega),
    zip_getD _ _ i hia hib, getD_drop A p i ha, getD_drop B p i hb]

/-- Peeling one maximal mismatch run `[q, e)` off the front of the remaining
mask: everything in `[p, q)` is equal, everything in `[q, e)` differs, and `e`
is either the end of input or an equal position. -/

theorem runsAux_maskAt_split (A B : List Nat) (hlen : A.length = B.length)
    (p q e : Nat) (hpq : p ≤ q) (hqe : q < e) (he : e ≤ A.length)
    (heq : ∀ o, p ≤ o → o < q → A.getD o 0 = B.getD o 0)
    (hne : ∀ o, q ≤ o → o < e → A.getD o 0 ≠ B.getD o 0)
    (hend : e < A.length → A.getD e 0 = B.getD e 0) :
    runsAux (maskAt A B p) p none = (q, e) :: runsAux (maskAt A B e) e none := by
  have hmlen : (maskAt A B p).length = A.length - p := by
    rw [maskAt_length, hlen]; omega
  -- skip the equal prefix [p, q)
  have h1 : runsAux (maskAt A B p) p none = runsAux (maskAt A B q) q none := by
    have hfls : ∀ i, i < q - p → (maskAt A B p).getD i false = false := by
      intro i hi
      rw [maskAt_getD A B p i (by omega) (by omega)]
      exact decide_eq_false (fun h => h (heq (p + i) (by omega) (by omega)))
    have hq' : p + (q - p) = q := by omega
    rw [runsAux_drop_false (q - p) (maskAt A B p) p (by rw [hmlen]; omega) hfls,
      maskAt_drop, hq']
  -- the mask at q starts with a true bit
  have hq1 : q + 1 ≤ A.length := by omega
  have hmq : maskAt A B q = true :: maskAt A B (q + 1) := by
    have hlen' : (maskAt A B q).length = A.length - q := by
      rw [maskAt_length, hlen]; omega
    have hne0 : (maskAt A B q).getD 0 false = true := by
      rw [maskAt_getD A B q 0 (by omega) (by omega)]
      exact decide_eq_true (hne q (le_refl q) (by omega))
    cases hm : maskAt A B q with
    | nil => rw [hm] at hlen'; simp at hlen'; omega
    | cons x m =>
      have hx : x = true := by
        have := hne0
        rw [hm] at this
        simpa using this
      have hm' : m = maskAt A B (q + 1) := by
        have := maskAt_drop A B q 1
        rw [hm] at this
        simpa using this
      rw [hx, hm']
  have h2 : runsAux (maskAt A B q) q none
      = runsAux (maskAt A B (q + 1)) (q + 1) (some q) := by
    rw [hmq, runsAux_cons_true_none]
  -- skip the rest of the mismatch run [q+1, e)
  have h3 : runsAux (maskAt A B (q + 1)) (q + 1) (some q)
      = runsAux (maskAt A B e) e (some q) := by
    have htrs : ∀ i, i < e - (q + 1) → (maskAt A B (q + 1)).getD i false = true := by
      intro i hi
      rw [maskAt_getD A B (q + 1) i (by omega) (by omega)]
      exact decide_eq_true (hne (q + 1 + i) (by omega) (by omega))
    have he' : q + 1 + (e - (q + 1)) = e := by omega
    rw [runsAux_drop_true (e - (q + 1)) (maskAt A B (q + 1)) (q + 1) q
      (by rw [maskAt_length, hlen]; omega) htrs, maskAt_drop, he']
  -- close the run at e
  have h4 : runsAux (maskAt A B e) e (some q)
      = (q, e) :: runsAux (maskAt A B e) e none := by
    by_cases hEOF : e = A.length
    · have : maskAt A B e = [] := by
        have := maskAt_length A B e
        rw [hlen] at this
        cases hm : maskAt A B e with
        | nil => rfl
        | cons x m => rw [hm] at this; simp at this; omega
      rw [this]
      simp
    · have heA : e < A.length := by omega
      have : maskAt A B e = false :: maskAt A B (e + 1) := by
        have hlen' : (maskAt A B e).length = A.length - e := by
          rw [maskAt_length, hlen]; omega
        have hfalse0 : (maskAt A B e).getD 0 false = false := by
          rw [maskAt_getD A B e 0 (by omega) (by omega)]
          exact decide_eq_false (fun h => h (hend heA))
        cases hm : maskAt A B e with
        | nil => rw [hm] at hlen'; simp at hlen'; omega
        | cons x m =>
          have hx : x = false := by
            have := hfalse0
            rw [hm] at this
            simpa using this
          have hm' : m = maskAt A B (e + 1) := by
            have := maskAt_drop A B e 1
            rw [hm] at this
            simpa using this
          rw [hx, hm']
      rw [this, runsAux_cons_false_some, runsAux_cons_false_none]
  rw [h1, h2, h3, h4]

/-- If everything from `p` on is equal, there are no runs. -/

theorem runsAux_maskAt_allEq (A B : List Nat) (hlen : A.length = B.length)
    (p : Nat) (heq : ∀ o, p ≤ o → o < A.length → A.getD o 0 = B.getD o 0) :
    runsAux (maskAt A B p) p none = [] := by
  apply runsAux_all_false
  intro i hi
  rw [maskAt_length, hlen] at hi
  rw [maskAt_getD A B p i (by omega) (by omega)]
  exact decide_eq_false (fun h => h (heq (p + i) (by omega) (by omega)))

theorem maskAt_zero (A B : List Nat) : maskAt A B 0 = neMask (A.zip B) := by
  simp [maskAt]

theorem bytesDiff_eq_runsAux_maskAt (a b : List Nat) :
    bytesDiff a b = runsAux (maskAt a b 0) 0 none := by
  rw [bytesDiff_eq_runsAux, maskAt_zero]

/-! ## Buffered-scan differ, from `src/diff_iter/memchr.rs`

A `BufReader` with capacity `c` is a pair (current buffer, rest of the file):
`fill_buf` refills the buffer from the file only when it is empty, `consume`
drops bytes from the front of the buffer.  `Iterator::position` is embedded as
`listPosition`. -/

/-- `Iterator::position(pred)`: index of the first element satisfying `pred`. -/

theorem listPosition_eq_none (pred : Nat × Nat → Bool) :
    ∀ (l : List (Nat × Nat)), listPosition pred l = none ↔
      ∀ i, i < l.length → pred (l.getD i (0, 0)) = false := by
  intro l
  induction l with
  | nil => simp [listPosition]
  | cons x l ih =>
    by_cases hx : pred x
    · simp only [listPosition, hx, if_true]
      constructor
      · intro h; cases h
      · intro h
        have := h 0 (by simp)
        simp [hx] at this
    · simp only [listPosition, hx, if_false]
      constructor
      · intro h i hi
        cases i with
        | zero => simpa using Bool.of_not_eq_true hx
        | succ j =>
          have hnone : listPosition pred l = none := by
            cases hp : listPosition pred l with
            | none => rfl
            | some k => rw [hp] at h; simp at h
          exact (ih.mp hnone) j (by simp only [List.length_cons] at hi; omega)
      · intro h
        have hnone : listPosition pred l = none :=
          ih.mpr (fun i hi => by
            simpa using h (i + 1) (by simp only [List.length_cons]; omega))
        rw [hnone]
        rfl

theorem listPosition_eq_some (pred : Nat × Nat → Bool) :
    ∀ (l : List (Nat × Nat)) (i : Nat), listPosition pred l = some i →
      i < l.length ∧ pred (l.getD i (0, 0)) = true ∧
        ∀ j, j < i → pred (l.getD j (0, 0)) = false := by
  intro l
  induction l with
  | nil => intro i h; cases h
  | cons x l ih =>
    intro i h
    by_cases hx : pred x
    · simp only [listPosition, hx, if_true] at h
      injection h with h
      subst h
      exact ⟨by simp, by simpa using hx, fun j hj => by omega⟩
    · simp only [listPosition, hx, if_false] at h
      cases hp : listPosition pred l with
      | none => rw [hp] at h; cases h
      | some k =>
        rw [hp] at h
        have hki : some (k + 1) = some i := h
        injection hki with hki
        subst hki
        obtain ⟨h1, h2, h3⟩ := ih k hp
        refine ⟨by simp only [List.length_cons]; omega, by simpa using h2, ?_⟩
        intro j hj
        cases j with
        | zero => simpa using Bool.of_not_eq_true hx
        | succ j' => simpa using h3 j' (by omega)

/-- A `BufReader<File>`: the unread current buffer plus the unread rest of the
file. -/

theorem BufRdr.fillBuf_concat (c : Nat) (r : BufRdr) :
    (r.fillBuf c).buf ++ (r.fillBuf c).rest = r.buf ++ r.rest := by
  unfold BufRdr.fillBuf
  by_cases h : r.buf.isEmpty
  · have hb : r.buf = [] := List.isEmpty_iff.mp h
    simp [h, hb, List.take_append_drop]
  · simp [h]

/-- With a positive capacity, an empty buffer after `fill_buf` means the reader
was fully exhausted. -/

theorem BufRdr.fillBuf_buf_empty (c : Nat) (hc : 1 ≤ c) (r : BufRdr)
    (h : (r.fillBuf c).buf = []) : r.buf = [] ∧ r.rest = [] := by
  unfold BufRdr.fillBuf at h
  by_cases he : r.buf.isEmpty
  · rw [if_pos he] at h
    have hbuf : r.buf = [] := List.isEmpty_iff.mp he
    have : r.rest.take c = [] := h
    rcases List.take_eq_nil_iff.mp this with h' | h'
    · omega
    · exact ⟨hbuf, h'⟩
  · rw [if_neg he] at h
    exact absurd (List.isEmpty_iff.mpr h) he

theorem concat_drop_getD (A : List Nat) (pos : Nat) (buf rest : List Nat)
    (hconcat : buf ++ rest = A.drop pos) (j : Nat) (hj : j < buf.length) :
    pos + j < A.length ∧ buf.getD j 0 = A.getD (pos + j) 0 := by
  have hlen : buf.length + rest.length = A.length - pos := by
    have := congrArg List.length hconcat
    simpa using this
  have hbound : pos + j < A.length := by omega
  refine ⟨hbound, ?_⟩
  have h1 : buf.getD j 0 = (buf ++ rest).getD j 0 := by
    rw [List.getD_append _ _ _ _ hj]
  rw [h1, hconcat, getD_drop A pos j hbound]

/-- After `fill_buf` on both sides, the invariant still holds, the two buffers
still have equal lengths, an empty buffer means end of input, and buffer bytes
agree with the files. -/

theorem fill_step (A B : List Nat) (c : Nat) (hc : 1 ≤ c) (it : MemchrDiffIter)
    (hInv : MemchrInv A B it) :
    (it.a.fillBuf c).buf ++ (it.a.fillBuf c).rest = A.drop it.pos ∧
    (it.b.fillBuf c).buf ++ (it.b.fillBuf c).rest = B.drop it.pos ∧
    (it.a.fillBuf c).buf.length = (it.b.fillBuf c).buf.length ∧
    (it.a.fillBuf c).rest.length = (it.b.fillBuf c).rest.length ∧
    ((it.a.fillBuf c).buf.length = 0 → it.pos = A.length) ∧
    (∀ j, j < (it.a.fillBuf c).buf.length →
      it.pos + j < A.length ∧
      (it.a.fillBuf c).buf.getD j 0 = A.getD (it.pos + j) 0 ∧
      (it.b.fillBuf c).buf.getD j 0 = B.getD (it.pos + j) 0) := by
  obtain ⟨ha, hb, hbuf, hrest, hpos, hAB⟩ := hInv
  have hca : (it.a.fillBuf c).buf ++ (it.a.fillBuf c).rest = A.drop it.pos := by
    rw [BufRdr.fillBuf_concat, ha]
  have hcb : (it.b.fillBuf c).buf ++ (it.b.fillBuf c).rest = B.drop it.pos := by
    rw [BufRdr.fillBuf_concat, hb]
  have hsync : (it.a.fillBuf c).buf.length = (it.b.fillBuf c).buf.length ∧
      (it.a.fillBuf c).rest.length = (it.b.fillBuf c).rest.length := by
    unfold BufRdr.fillBuf
    by_cases hea : it.a.buf.isEmpty
    · have heb : it.b.buf.isEmpty := by
        rw [List.isEmpty_iff] at hea ⊢
        rw [hea] at hbuf
        exact List.length_eq_zero.mp (by simpa using hbuf.symm)
      simp [hea, heb, hrest]
    · have heb : ¬ it.b.buf.isEmpty := by
        rw [List.isEmpty_iff] at hea ⊢
        intro hbb
        rw [hbb] at hbuf
        exact hea (List.length_eq_zero.mp (by simpa using hbuf))
      simp [hea, heb, hbuf, hrest]
  have hempty : (it.a.fillBuf c).buf.length = 0 → it.pos = A.length := by
    intro h0
    obtain ⟨hb1, hb2⟩ :=
      BufRdr.fillBuf_buf_empty c hc it.a (List.length_eq_zero.mp h0)
    have hdrop : A.drop it.pos = [] := by rw [← ha, hb1, hb2]; rfl
    have := congrArg List.length hdrop
    simp at this
    omega
  refine ⟨hca, hcb, hsync.1, hsync.2, hempty, ?_⟩
  intro j hj
  have h1 := concat_drop_getD A it.pos _ _ hca j hj
  have hjb : j < (it.b.fillBuf c).buf.length := by rw [← hsync.1]; exact hj
  have h2 := concat_drop_getD B it.pos _ _ hcb j hjb
  exact ⟨h1.1, h1.2, h2.2⟩

/-- Consuming `n ≤ buffer length` bytes from both filled sides preserves the
invariant at position `pos + n`. -/

theorem consume_step (A B : List Nat) (c : Nat) (it : MemchrDiffIter)
    (hca : (it.a.fillBuf c).buf ++ (it.a.fillBuf c).rest = A.drop it.pos)
    (hcb : (it.b.fillBuf c).buf ++ (it.b.fillBuf c).rest = B.drop it.pos)
    (hbuf : (it.a.fillBuf c).buf.length = (it.b.fillBuf c).buf.length)
    (hrest : (it.a.fillBuf c).rest.length = (it.b.fillBuf c).rest.length)
    (hpos : it.pos ≤ A.length) (hAB : A.length = B.length)
    (n : Nat) (hn : n ≤ (it.a.fillBuf c).buf.length) :
    MemchrInv A B
      { a := (it.a.fillBuf c).consume n, b := (it.b.fillBuf c).consume n,
        pos := it.pos + n } := by
  have hlen : (it.a.fillBuf c).buf.length + (it.a.fillBuf c).rest.length
      = A.length - it.pos := by
    have := congrArg List.length hca
    simpa using this
  have g1 : (it.a.fillBuf c).buf.drop n ++ (it.a.fillBuf c).rest
      = A.drop (it.pos + n) := by
    rw [← List.drop_append_of_le_length hn, hca, List.drop_drop]
  have g2 : (it.b.fillBuf c).buf.drop n ++ (it.b.fillBuf c).rest
      = B.drop (it.pos + n) := by
    rw [← List.drop_append_of_le_length (hbuf ▸ hn), hcb, List.drop_drop]
  have g3 : ((it.a.fillBuf c).buf.drop n).length
      = ((it.b.fillBuf c).buf.drop n).length := by simp [hbuf]
  have g5 : it.pos + n ≤ A.length := by omega
  exact ⟨g1, g2, g3, hrest, g5, hAB⟩

/-- Unfolding lemma for `memchrSkipEqual` at positive fuel. -/

theorem memchrSkipEqual_succ (c fuel : Nat) (it : MemchrDiffIter) :
    memchrSkipEqual c (fuel + 1) it =
      (if min (it.a.fillBuf c).buf.length (it.b.fillBuf c).buf.length = 0 then none
       else
        match listPosition (fun p => decide (p.1 ≠ p.2))
            ((it.a.fillBuf c).buf.zip (it.b.fillBuf c).buf) with
        | some i =>
          some { a := (it.a.fillBuf c).consume i, b := (it.b.fillBuf c).consume i,
                 pos := it.pos + i }
        | none =>
          memchrSkipEqual c fuel
            { a := (it.a.fillBuf c).consume
                (min (it.a.fillBuf c).buf.length (it.b.fillBuf c).buf.length),
              b := (it.b.fillBuf c).consume
                (min (it.a.fillBuf c).buf.length (it.b.fillBuf c).buf.length),
              pos := it.pos
                + min (it.a.fillBuf c).buf.length (it.b.fillBuf c).buf.length }) := rfl

/-- Unfolding lemma for `memchrScanDiff` at positive fuel. -/

theorem memchrScanDiff_succ (c start fuel : Nat) (it : MemchrDiffIter) :
    memchrScanDiff c start (fuel + 1) it =
      (if min (it.a.fillBuf c).buf.length (it.b.fillBuf c).buf.length = 0 then
        some ((start, it.pos), { a := it.a.fillBuf c, b := it.b.fillBuf c, pos := it.pos })
       else
        match listPosition (fun p => decide (p.1 = p.2))
            ((it.a.fillBuf c).buf.zip (it.b.fillBuf c).buf) with
        | some i =>
          some ((start, it.pos + i),
            { a := (it.a.fillBuf c).consume i, b := (it.b.fillBuf c).consume i,
              pos := it.pos + i })
        | none =>
          memchrScanDiff c start fuel
            { a := (it.a.fillBuf c).consume
                (min (it.a.fillBuf c).buf.length (it.b.fillBuf c).buf.length),
              b := (it.b.fillBuf c).consume
                (min (it.a.fillBuf c).buf.length (it.b.fillBuf c).buf.length),
              pos := it.pos
                + min (it.a.fillBuf c).buf.length (it.b.fillBuf c).buf.length }) := rfl

/-- What the equal-skipping loop of `MemchrDiffIter::next` computes: either all
remaining bytes are equal and it reports EOF, or it stops exactly at the first
remaining mismatch. -/

theorem memchrSkipEqual_spec (A B : List Nat) (c : Nat) (hc : 1 ≤ c) :
    ∀ (fuel : Nat) (it : MemchrDiffIter), MemchrInv A B it →
      A.length - it.pos < fuel →
      (memchrSkipEqual c fuel it = none ∧
        ∀ o, it.pos ≤ o → o < A.length → A.getD o 0 = B.getD o 0) ∨
      (∃ it', memchrSkipEqual c fuel it = some it' ∧ MemchrInv A B it' ∧
        it.pos ≤ it'.pos ∧ it'.pos < A.length ∧
        (∀ o, it.pos ≤ o → o < it'.pos → A.getD o 0 = B.getD o 0) ∧
        A.getD it'.pos 0 ≠ B.getD it'.pos 0) := by
  intro fuel
  induction fuel with
  | zero => intro it _ h; omega
  | succ fuel ih =>
    intro it hInv hfuel
    obtain ⟨hf1, hf2, hf3, hf4, hf5, hf6⟩ := fill_step A B c hc it hInv
    obtain ⟨-, -, -, -, hpos, hAB⟩ := hInv
    have hmin : min (it.a.fillBuf c).buf.length (it.b.fillBuf c).buf.length
        = (it.a.fillBuf c).buf.length := by rw [hf3, min_self]
    have hziplen : ((it.a.fillBuf c).buf.zip (it.b.fillBuf c).buf).length
        = (it.a.fillBuf c).buf.length := by rw [List.length_zip, hmin]
    have hlenA : (it.a.fillBuf c).buf.length + (it.a.fillBuf c).rest.length
        = A.length - it.pos := by
      have := congrArg List.length hf1
      simpa using this
    rw [memchrSkipEqual_succ]
    by_cases hlen0 : min (it.a.fillBuf c).buf.length (it.b.fillBuf c).buf.length = 0
    · rw [if_pos hlen0]
      left
      refine ⟨rfl, ?_⟩
      have hend := hf5 (by omega)
      intro o ho1 ho2
      omega
    · rw [if_neg hlen0]
      cases hp : listPosition (fun p => decide (p.1 ≠ p.2))
          ((it.a.fillBuf c).buf.zip (it.b.fillBuf c).buf) with
      | some i =>
        obtain ⟨hi, hpi, hpj⟩ := listPosition_eq_some _ _ i hp
        rw [hziplen] at hi
        have hib : i < (it.b.fillBuf c).buf.length := by omega
        rw [zip_getD _ _ i hi hib] at hpi
        have hne : (it.a.fillBuf c).buf.getD i 0 ≠ (it.b.fillBuf c).buf.getD i 0 :=
          of_decide_eq_true hpi
        obtain ⟨hbnd, hga, hgb⟩ := hf6 i hi
        right
        refine ⟨_, rfl, consume_step A B c it hf1 hf2 hf3 hf4 hpos hAB i (by omega),
          by simp, by simpa using hbnd, ?_, ?_⟩
        · intro o ho1 ho2
          simp only at ho2
          have hj : o - it.pos < i := by omega
          have := hpj (o - it.pos) hj
          have hja : o - it.pos < (it.a.fillBuf c).buf.length := by omega
          have hjb : o - it.pos < (it.b.fillBuf c).buf.length := by omega
          rw [zip_getD _ _ _ hja hjb] at this
          have heqj : (it.a.fillBuf c).buf.getD (o - it.pos) 0
              = (it.b.fillBuf c).buf.getD (o - it.pos) 0 :=
            not_not.mp (decide_eq_false_iff_not.mp this)
          obtain ⟨-, hga2, hgb2⟩ := hf6 (o - it.pos) hja
          have ho : it.pos + (o - it.pos) = o := by omega
          rw [ho] at hga2 hgb2
          rw [← hga2, ← hgb2, heqj]
        · show A.getD (it.pos + i) 0 ≠ B.getD (it.pos + i) 0
          rw [← hga, ← hgb]
          exact hne
      | none =>
        have hall := (listPosition_eq_none _ _).mp hp
        have heqpre : ∀ j, j < (it.a.fillBuf c).buf.length →
            A.getD (it.pos + j) 0 = B.getD (it.pos + j) 0 := by
          intro j hj
          have hjb : j < (it.b.fillBuf c).buf.length := by omega
          have := hall j (by omega)
          rw [zip_getD _ _ _ hj hjb] at this
          have heqj : (it.a.fillBuf c).buf.getD j 0 = (it.b.fillBuf c).buf.getD j 0 :=
            not_not.mp (decide_eq_false_iff_not.mp this)
          obtain ⟨-, hga2, hgb2⟩ := hf6 j hj
          rw [← hga2, ← hgb2, heqj]
        have hInv2 := consume_step A B c it hf1 hf2 hf3 hf4 hpos hAB
          (min (it.a.fillBuf c).buf.length (it.b.fillBuf c).buf.length) (by omega)
        have hlt : A.length
            - (it.pos + min (it.a.fillBuf c).buf.length (it.b.fillBuf c).buf.length)
            < fuel := by omega
        rcases ih _ hInv2 hlt with ⟨hnone, hrest⟩ | ⟨it', heq, hInv', h1, h2, h3, h4⟩
        · left
          refine ⟨hnone, ?_⟩
          intro o ho1 ho2
          by_cases hcase : o
              < it.pos + min (it.a.fillBuf c).buf.length (it.b.fillBuf c).buf.length
          · have := heqpre (o - it.pos) (by omega)
            have ho : it.pos + (o - it.pos) = o := by omega
            rw [ho] at this
            exact this
          · exact hrest o (by simp only; omega) ho2
        · right
          refine ⟨it', heq, hInv', ?_, h2, ?_, h4⟩
          · simp only at h1
            omega
          · intro o ho1 ho2
            by_cases hcase : o
                < it.pos + min (it.a.fillBuf c).buf.length (it.b.fillBuf c).buf.length
            · have := heqpre (o - it.pos) (by omega)
              have ho : it.pos + (o - it.pos) = o := by omega
              rw [ho] at this
              exact this
            · exact h3 o (by simp only at h1 ⊢; omega) ho2

/-- What the mismatch-scanning loop of `MemchrDiffIter::next` computes: it
always yields `start..e`, where `e` is the first remaining equal position (or
EOF), and leaves the iterator at `e`. -/

theorem memchrScanDiff_spec (A B : List Nat) (c : Nat) (hc : 1 ≤ c) :
    ∀ (fuel : Nat) (it : MemchrDiffIter) (start : Nat), MemchrInv A B it →
      A.length - it.pos < fuel →
      ∃ e it', memchrScanDiff c start fuel it = some ((start, e), it') ∧
        MemchrInv A B it' ∧ it'.pos = e ∧ it.pos ≤ e ∧ e ≤ A.length ∧
        (∀ o, it.pos ≤ o → o < e → A.getD o 0 ≠ B.getD o 0) ∧
        (e < A.length → A.getD e 0 = B.getD e 0) := by
  intro fuel
  induction fuel with
  | zero => intro it start _ h; omega
  | succ fuel ih =>
    intro it start hInv hfuel
    obtain ⟨hf1, hf2, hf3, hf4, hf5, hf6⟩ := fill_step A B c hc it hInv
    obtain ⟨-, -, -, -, hpos, hAB⟩ := hInv
    have hmin : min (it.a.fillBuf c).buf.length (it.b.fillBuf c).buf.length
        = (it.a.fillBuf c).buf.length := by rw [hf3, min_self]
    have hziplen : ((it.a.fillBuf c).buf.zip (it.b.fillBuf c).buf).length
        = (it.a.fillBuf c).buf.length := by rw [List.length_zip, hmin]
    have hlenA : (it.a.fillBuf c).buf.length + (it.a.fillBuf c).rest.length
        = A.length - it.pos := by
      have := congrArg List.length hf1
      simpa using this
    rw [memchrScanDiff_succ]
    by_cases hlen0 : min (it.a.fillBuf c).buf.length (it.b.fillBuf c).buf.length = 0
    · rw [if_pos hlen0]
      have hend := hf5 (by omega)
      refine ⟨it.pos, _, rfl, ?_, rfl, le_refl _, by omega, ?_, ?_⟩
      · exact ⟨hf1, hf2, hf3, hf4, hpos, hAB⟩
      · intro o ho1 ho2; omega
      · intro h; omega
    · rw [if_neg hlen0]
      cases hp : listPosition (fun p => decide (p.1 = p.2))
          ((it.a.fillBuf c).buf.zip (it.b.fillBuf c).buf) with
      | some i =>
        obtain ⟨hi, hpi, hpj⟩ := listPosition_eq_some _ _ i hp
        rw [hziplen] at hi
        have hib : i < (it.b.fillBuf c).buf.length := by omega
        rw [zip_getD _ _ i hi hib] at hpi
        have heqi : (it.a.fillBuf c).buf.getD i 0 = (it.b.fillBuf c).buf.getD i 0 :=
          of_decide_eq_true hpi
        obtain ⟨hbnd, hga, hgb⟩ := hf6 i hi
        refine ⟨it.pos + i, _, rfl,
          consume_step A B c it hf1 hf2 hf3 hf4 hpos hAB i (by omega),
          rfl, by omega, by omega, ?_, ?_⟩
        · intro o ho1 ho2
          have hj : o - it.pos < i := by omega
          have := hpj (o - it.pos) hj
          have hja : o - it.pos < (it.a.fillBuf c).buf.length := by omega
          have hjb : o - it.pos < (it.b.fillBuf c).buf.length := by omega
          rw [zip_getD _ _ _ hja hjb] at this
          have hnej : (it.a.fillBuf c).buf.getD (o - it.pos) 0
              ≠ (it.b.fillBuf c).buf.getD (o - it.pos) 0 := by
            intro hcontra
            rw [decide_eq_false_iff_not] at this
            exact this hcontra
          obtain ⟨-, hga2, hgb2⟩ := hf6 (o - it.pos) hja
          have ho : it.pos + (o - it.pos) = o := by omega
          rw [ho] at hga2 hgb2
          rw [← hga2, ← hgb2]
          exact hnej
        · intro _
          rw [← hga, ← hgb]
          exact heqi
      | none =>
        have hall := (listPosition_eq_none _ _).mp hp
        have hnepre : ∀ j, j < (it.a.fillBuf c).buf.length →
            A.getD (it.pos + j) 0 ≠ B.getD (it.pos + j) 0 := by
          intro j hj
          have hjb : j < (it.b.fillBuf c).buf.length := by omega
          have := hall j (by omega)
          rw [zip_getD _ _ _ hj hjb] at this
          have hnej : (it.a.fillBuf c).buf.getD j 0
              ≠ (it.b.fillBuf c).buf.getD j 0 := by
            intro hcontra
            rw [decide_eq_false_iff_not] at this
            exact this hcontra
          obtain ⟨-, hga2, hgb2⟩ := hf6 j hj
          rw [← hga2, ← hgb2]
          exact hnej
        have hInv2 := consume_step A B c it hf1 hf2 hf3 hf4 hpos hAB
          (min (it.a.fillBuf c).buf.length (it.b.fillBuf c).buf.length) (by omega)
        have hlt : A.length
            - (it.pos + min (it.a.fillBuf c).buf.length (it.b.fillBuf c).buf.length)
            < fuel := by omega
        obtain ⟨e, it', heq, hInv', hpe, h1, h2, h3, h4⟩ := ih _ start hInv2 hlt
        refine ⟨e, it', heq, hInv', hpe, ?_, h2, ?_, h4⟩
        · simp only at h1
          omega
        · intro o ho1 ho2
          by_cases hcase : o
              < it.pos + min (it.a.fillBuf c).buf.length (it.b.fillBuf c).buf.length
          · have := hnepre (o - it.pos) (by omega)
            have ho : it.pos + (o - it.pos) = o := by omega
            rw [ho] at this
            exact this
          · exact h3 o (by simp only at h1 ⊢; omega) ho2

theorem memchrAll_succ (c fuel : Nat) (it : MemchrDiffIter) :
    memchrAll c (fuel + 1) it =
      (match memchrNext c (fuel + 1) it with
       | none => []
       | some (r, it') => r :: memchrAll c fuel it') := rfl

/-- The buffered-scan differ computes exactly the runs of the mismatch mask of
the remaining input. -/

theorem memchrAll_eq (A B : List Nat) (c : Nat) (hc : 1 ≤ c) :
    ∀ (fuel : Nat) (it : MemchrDiffIter), MemchrInv A B it →
      A.length - it.pos < fuel →
      memchrAll c fuel it = runsAux (maskAt A B it.pos) it.pos none := by
  intro fuel
  induction fuel with
  | zero => intro it _ h; omega
  | succ fuel ih =>
    intro it hInv hfuel
    have hAB : A.length = B.length := hInv.2.2.2.2.2
    rcases memchrSkipEqual_spec A B c hc (fuel + 1) it hInv hfuel with
      ⟨hnone, hall⟩ | ⟨it1, hsome, hInv1, hp1, hp2, heqpre, hne0⟩
    · have hnext : memchrNext c (fuel + 1) it = none := by
        unfold memchrNext
        rw [hnone]
      rw [memchrAll_succ, hnext]
      exact (runsAux_maskAt_allEq A B hAB it.pos hall).symm
    · have hnext : memchrNext c (fuel + 1) it
          = memchrScanDiff c it1.pos (fuel + 1) it1 := by
        unfold memchrNext
        rw [hsome]
      obtain ⟨e, it2, hscan, hInv2, hpe, h1, h2, h3, h4⟩ :=
        memchrScanDiff_spec A B c hc (fuel + 1) it1 it1.pos hInv1 (by omega)
      rw [memchrAll_succ, hnext, hscan]
      have hlt : it1.pos < e := by
        rcases lt_or_eq_of_le h1 with h | h
        · exact h
        · exfalso
          apply hne0
          rw [h]
          exact h4 (by omega)
      have hsplit := runsAux_maskAt_split A B hAB it.pos it1.pos e hp1 hlt h2
        heqpre h3 h4
      rw [hsplit]
      show (it1.pos, e) :: memchrAll c fuel it2
          = (it1.pos, e) :: runsAux (maskAt A B e) e none
      congr 1
      have := ih it2 hInv2 (by omega)
      rw [hpe] at this
      exact this

/-- The buffered-scan differ and the byte-at-a-time differ yield identical range
sequences on equal-length inputs, for every positive reader capacity. -/

theorem memchrDiff_eq_bytesDiff (c : Nat) (hc : 1 ≤ c) (A B : List Nat)
    (hlen : A.length = B.length) : memchrDiff c A B = bytesDiff A B := by
  rw [bytesDiff_eq_runsAux_maskAt, memchrDiff]
  have hInv : MemchrInv A B
      { a := { buf := [], rest := A }, b := { buf := [], rest := B }, pos := 0 } :=
    ⟨by simp, by simp, rfl, by simpa using hlen, by simp, hlen⟩
  have h := memchrAll_eq A B c hc (A.length + 1) _ hInv (by simp)
  exact h

/-! ## Threaded differ, from `src/diff_iter/threaded.rs`

Each reader worker splits its file into chunks of at most `c = 8*1024*1024`
bytes and sends them over a bounded channel; the channel is modelled as the
list of chunks still to be received.  The consumer keeps a `VecDeque` per side
and refills it from the channel when empty. -/

/-- The chunks a reader worker posts on its channel: repeated
`file.take(c).read_to_end(&mut buf)` until a zero-size read. -/

theorem chunksOfGo_join (c : Nat) (hc : 1 ≤ c) :
    ∀ (fuel : Nat) (l : List Nat), l.length ≤ fuel → (chunksOfGo c fuel l).flatten = l := by
  intro fuel
  induction fuel with
  | zero =>
    intro l hl
    cases l with
    | nil => rfl
    | cons x l => simp at hl
  | succ fuel ih =>
    intro l hl
    cases l with
    | nil => rfl
    | cons x l =>
      show ((x :: l).take c).append (chunksOfGo c fuel ((x :: l).drop c)).flatten = x :: l
      have hdrop : ((x :: l).drop c).length ≤ fuel := by
        simp only [List.length_drop, List.length_cons]
        simp only [List.length_cons] at hl
        omega
      rw [List.append_eq, ih _ hdrop, List.take_append_drop]

theorem chunksOfGo_nonempty (c : Nat) (hc : 1 ≤ c) :
    ∀ (fuel : Nat) (l : List Nat) (ch : List Nat),
      ch ∈ chunksOfGo c fuel l → ch ≠ [] := by
  intro fuel
  induction fuel with
  | zero =>
    intro l ch h
    cases l with
    | nil => cases h
    | cons x l => cases h
  | succ fuel ih =>
    intro l ch h
    cases l with
    | nil => cases h
    | cons x l =>
      rcases List.mem_cons.mp h with h' | h'
      · subst h'
        intro hnil
        have := congrArg List.length hnil
        simp only [List.length_take, List.length_cons, List.length_nil] at this
        omega
      · exact ih _ ch h'

theorem chunksOfGo_map_length (c : Nat) :
    ∀ (fuel : Nat) (lA lB : List Nat), lA.length = lB.length →
      (chunksOfGo c fuel lA).map List.length
        = (chunksOfGo c fuel lB).map List.length := by
  intro fuel
  induction fuel with
  | zero =>
    intro lA lB h
    cases lA with
    | nil =>
      cases lB with
      | nil => rfl
      | cons y m => simp at h
    | cons x l =>
      cases lB with
      | nil => simp at h
      | cons y m => rfl
  | succ fuel ih =>
    intro lA lB h
    cases lA with
    | nil =>
      cases lB with
      | nil => rfl
      | cons y m => simp at h
    | cons x l =>
      cases lB with
      | nil => simp at h
      | cons y m =>
        show ((x :: l).take c).length :: _ = ((y :: m).take c).length :: _
        have hdrop : ((x :: l).drop c).length = ((y :: m).drop c).length := by
          simp only [List.length_drop]
          omega
        rw [ih _ _ hdrop]
        congr 1
        simp only [List.length_take]
        omega

/-- The `ThreadedDiffIter` state: the chunks still in each channel, the two
`VecDeque` buffers, and the current position. -/

theorem threadedFill_spec (A B : List Nat) (it : ThreadedDiffIter)
    (hInv : ThreadedInv A B it) :
    (threadedFillBuffs it = none ∧ it.pos = A.length) ∨
    (∃ it2, threadedFillBuffs it = some it2 ∧ ThreadedInv A B it2 ∧
      it2.pos = it.pos ∧ 1 ≤ it2.a.length ∧ it2.a.length = it2.b.length ∧
      (∀ j, j < it2.a.length → it.pos + j < A.length ∧
        it2.a.getD j 0 = A.getD (it.pos + j) 0 ∧
        it2.b.getD j 0 = B.getD (it.pos + j) 0)) := by
  obtain ⟨arx, brx, a, b, pos⟩ := it
  obtain ⟨ha, hb, hlen, hmap, hne, hpos, hAB⟩ := hInv
  simp only at ha hb hlen hmap hne hpos ⊢
  cases a with
  | nil =>
    have hbnil : b = [] := by
      cases b with
      | nil => rfl
      | cons y m => simp at hlen
    subst hbnil
    cases arx with
    | nil =>
      left
      have hdrop : A.drop pos = [] := by rw [← ha]; rfl
      have := congrArg List.length hdrop
      simp at this
      exact ⟨rfl, by omega⟩
    | cons ch rest =>
      cases brx with
      | nil => simp at hmap
      | cons ch2 rest2 =>
        right
        have hch : ch ≠ [] := hne ch (List.mem_cons_self _ _)
        have hchlen : ch.length = ch2.length ∧
            rest.map List.length = rest2.map List.length := by
          simp only [List.map_cons, List.cons.injEq] at hmap
          exact hmap
        refine ⟨⟨rest, rest2, ch, ch2, pos⟩, rfl, ?_, rfl, ?_, hchlen.1, ?_⟩
        · refine ⟨?_, ?_, hchlen.1, hchlen.2, ?_, hpos, hAB⟩
          · simpa using ha
          · simpa using hb
          · exact fun c hc => hne c (List.mem_cons_of_mem _ hc)
        · cases hch' : ch with
          | nil => exact absurd hch' hch
          | cons z zs => simp [hch']
        · intro j hj
          have hj' : j < ch.length := hj
          have hca : ch ++ rest.flatten = A.drop pos := by simpa using ha
          have hcb : ch2 ++ rest2.flatten = B.drop pos := by simpa using hb
          have h1 := concat_drop_getD A pos _ _ hca j hj'
          have h2 := concat_drop_getD B pos _ _ hcb j (by omega)
          exact ⟨h1.1, h1.2, h2.2⟩
  | cons x xs =>
    have hbne : b ≠ [] := by
      intro hb0
      rw [hb0] at hlen
      simp at hlen
    cases b with
    | nil => exact absurd rfl hbne
    | cons y ys =>
      right
      refine ⟨⟨arx, brx, x :: xs, y :: ys, pos⟩, rfl, ?_, rfl, by simp, hlen, ?_⟩
      · exact ⟨ha, hb, hlen, hmap, hne, hpos, hAB⟩
      · intro j hj
        have hj' : j < (x :: xs).length := hj
        have h1 := concat_drop_getD A pos _ _ ha j hj'
        have h2 := concat_drop_getD B pos _ _ hb j (by omega)
        exact ⟨h1.1, h1.2, h2.2⟩

theorem threadedConsume_inv (A B : List Nat) (it : ThreadedDiffIter)
    (hInv : ThreadedInv A B it) (n : Nat) (hn : n ≤ it.a.length) :
    ThreadedInv A B (threadedConsume it n) := by
  obtain ⟨ha, hb, hlen, hmap, hne, hpos, hAB⟩ := hInv
  have hlenA : it.a.length + it.arx.flatten.length = A.length - it.pos := by
    have := congrArg List.length ha
    simpa using this
  refine ⟨?_, ?_, ?_, hmap, hne, ?_, hAB⟩
  · show it.a.drop n ++ it.arx.flatten = A.drop (it.pos + n)
    rw [← List.drop_append_of_le_length hn, ha, List.drop_drop]
  · show it.b.drop n ++ it.brx.flatten = B.drop (it.pos + n)
    rw [← List.drop_append_of_le_length (hlen ▸ hn), hb, List.drop_drop]
  · show (it.a.drop n).length = (it.b.drop n).length
    simp [hlen]
  · show it.pos + n ≤ A.length
    omega

theorem threadedSkipEqual_succ (fuel : Nat) (it : ThreadedDiffIter) :
    threadedSkipEqual (fuel + 1) it =
      (match threadedFillBuffs it with
       | none => none
       | some it' =>
         match listPosition (fun p => decide (p.1 ≠ p.2)) (it'.a.zip it'.b) with
         | some i => some (threadedConsume it' i)
         | none => threadedSkipEqual fuel (threadedConsume it' it'.a.length)) := rfl

theorem threadedScanDiff_succ (start fuel : Nat) (it : ThreadedDiffIter) :
    threadedScanDiff start (fuel + 1) it =
      (match threadedFillBuffs it with
       | none => some ((start, it.pos), it)
       | some it' =>
         match listPosition (fun p => decide (p.1 = p.2)) (it'.a.zip it'.b) with
         | some i => some ((start, it'.pos + i), threadedConsume it' i)
         | none => threadedScanDiff start fuel (threadedConsume it' it'.a.length)) := rfl

/-- What the equal-skipping loops of `ThreadedDiffIter::next` compute. -/

theorem threadedSkipEqual_spec (A B : List Nat) :
    ∀ (fuel : Nat) (it : ThreadedDiffIter), ThreadedInv A B it →
      A.length - it.pos < fuel →
      (threadedSkipEqual fuel it = none ∧
        ∀ o, it.pos ≤ o → o < A.length → A.getD o 0 = B.getD o 0) ∨
      (∃ it', threadedSkipEqual fuel it = some it' ∧ ThreadedInv A B it' ∧
        it.pos ≤ it'.pos ∧ it'.pos < A.length ∧
        (∀ o, it.pos ≤ o → o < it'.pos → A.getD o 0 = B.getD o 0) ∧
        A.getD it'.pos 0 ≠ B.getD it'.pos 0) := by
  intro fuel
  induction fuel with
  | zero => intro it _ h; omega
  | succ fuel ih =>
    intro it hInv hfuel
    rcases threadedFill_spec A B it hInv with ⟨hfnone, hposlen⟩ |
      ⟨it2, hfsome, hInv2, hpos2, hlen1, hab2, hbytes⟩
    · have hstep : threadedSkipEqual (fuel + 1) it = none := by
        rw [threadedSkipEqual_succ, hfnone]
      left
      exact ⟨hstep, fun o ho1 ho2 => by omega⟩
    · obtain ⟨ha2, hb2, hab2', hmap2, hne2, hpos2le, hAB⟩ := hInv2
      have hlenA : it2.a.length + it2.arx.flatten.length
          = A.length - it2.pos := by
        have := congrArg List.length ha2
        simpa using this
      have hziplen : (it2.a.zip it2.b).length = it2.a.length := by
        rw [List.length_zip, hab2, min_self]
      cases hp : listPosition (fun p => decide (p.1 ≠ p.2)) (it2.a.zip it2.b) with
      | some i =>
        have hstep : threadedSkipEqual (fuel + 1) it = some (threadedConsume it2 i) := by
          rw [threadedSkipEqual_succ, hfsome]
          show (match listPosition (fun p => decide (p.1 ≠ p.2)) (it2.a.zip it2.b) with
            | some i => some (threadedConsume it2 i)
            | none => threadedSkipEqual fuel (threadedConsume it2 it2.a.length)) = _
          rw [hp]
        obtain ⟨hi, hpi, hpj⟩ := listPosition_eq_some _ _ i hp
        rw [hziplen] at hi
        have hib : i < it2.b.length := by omega
        rw [zip_getD _ _ i hi hib] at hpi
        have hne : it2.a.getD i 0 ≠ it2.b.getD i 0 := of_decide_eq_true hpi
        obtain ⟨hbnd, hga, hgb⟩ := hbytes i hi
        right
        refine ⟨threadedConsume it2 i, hstep,
          threadedConsume_inv A B it2
            ⟨ha2, hb2, hab2, hmap2, hne2, hpos2le, hAB⟩ i (by omega),
          ?_, ?_, ?_, ?_⟩
        · show it.pos ≤ it2.pos + i
          omega
        · show it2.pos + i < A.length
          omega
        · intro o ho1 ho2
          have ho2' : o < it2.pos + i := ho2
          have hj : o - it.pos < i := by omega
          have := hpj (o - it.pos) hj
          have hja : o - it.pos < it2.a.length := by omega
          have hjb : o - it.pos < it2.b.length := by omega
          rw [zip_getD _ _ _ hja hjb] at this
          have heqj : it2.a.getD (o - it.pos) 0 = it2.b.getD (o - it.pos) 0 :=
            not_not.mp (decide_eq_false_iff_not.mp this)
          obtain ⟨-, hga2, hgb2⟩ := hbytes (o - it.pos) hja
          have ho : it.pos + (o - it.pos) = o := by omega
          rw [ho] at hga2 hgb2
          rw [← hga2, ← hgb2, heqj]
        · show A.getD (threadedConsume it2 i).pos 0 ≠ B.getD (threadedConsume it2 i).pos 0
          show A.getD (it2.pos + i) 0 ≠ B.getD (it2.pos + i) 0
          rw [hpos2, ← hga, ← hgb]
          exact hne
      | none =>
        have hstep : threadedSkipEqual (fuel + 1) it
            = threadedSkipEqual fuel (threadedConsume it2 it2.a.length) := by
          rw [threadedSkipEqual_succ, hfsome]
          show (match listPosition (fun p => decide (p.1 ≠ p.2)) (it2.a.zip it2.b) with
            | some i => some (threadedConsume it2 i)
            | none => threadedSkipEqual fuel (threadedConsume it2 it2.a.length)) = _
          rw [hp]
        have hall := (listPosition_eq_none _ _).mp hp
        have heqpre : ∀ j, j < it2.a.length →
            A.getD (it.pos + j) 0 = B.getD (it.pos + j) 0 := by
          intro j hj
          have hjb : j < it2.b.length := by omega
          have := hall j (by omega)
          rw [zip_getD _ _ _ hj hjb] at this
          have heqj : it2.a.getD j 0 = it2.b.getD j 0 :=
            not_not.mp (decide_eq_false_iff_not.mp this)
          obtain ⟨-, hga2, hgb2⟩ := hbytes j hj
          rw [← hga2, ← hgb2, heqj]
        have hInv3 := threadedConsume_inv A B it2
          ⟨ha2, hb2, hab2, hmap2, hne2, hpos2le, hAB⟩
          it2.a.length (le_refl _)
        have hlt : A.length - (threadedConsume it2 it2.a.length).pos < fuel := by
          show A.length - (it2.pos + it2.a.length) < fuel
          omega
        rcases ih _ hInv3 hlt with ⟨hnone, hrest⟩ | ⟨it', heq, hInv', h1, h2, h3, h4⟩
        · left
          refine ⟨hstep.trans hnone, ?_⟩
          intro o ho1 ho2
          by_cases hcase : o < it2.pos + it2.a.length
          · have := heqpre (o - it.pos) (by omega)
            have ho : it.pos + (o - it.pos) = o := by omega
            rw [ho] at this
            exact this
          · exact hrest o (by show it2.pos + it2.a.length ≤ o; omega) ho2
        · right
          have h1' : it2.pos + it2.a.length ≤ it'.pos := h1
          refine ⟨it', hstep.trans heq, hInv', by omega, h2, ?_, h4⟩
          intro o ho1 ho2
          by_cases hcase : o < it2.pos + it2.a.length
          · have := heqpre (o - it.pos) (by omega)
            have ho : it.pos + (o - it.pos) = o := by omega
            rw [ho] at this
            exact this
          · exact h3 o (by show it2.pos + it2.a.length ≤ o; omega) ho2

/-- What the mismatch-scanning loop of `ThreadedDiffIter::next` computes. -/

theorem threadedScanDiff_spec (A B : List Nat) :
    ∀ (fuel : Nat) (it : ThreadedDiffIter) (start : Nat), ThreadedInv A B it →
      A.length - it.pos < fuel →
      ∃ e it', threadedScanDiff start fuel it = some ((start, e), it') ∧
        ThreadedInv A B it' ∧ it'.pos = e ∧ it.pos ≤ e ∧ e ≤ A.length ∧
        (∀ o, it.pos ≤ o → o < e → A.getD o 0 ≠ B.getD o 0) ∧
        (e < A.length → A.getD e 0 = B.getD e 0) := by
  intro fuel
  induction fuel with
  | zero => intro it start _ h; omega
  | succ fuel ih =>
    intro it start hInv hfuel
    have hposle := hInv.2.2.2.2.2.1
    rcases threadedFill_spec A B it hInv with ⟨hfnone, hposlen⟩ |
      ⟨it2, hfsome, hInv2, hpos2, hlen1, hab2, hbytes⟩
    · have hstep : threadedScanDiff start (fuel + 1) it = some ((start, it.pos), it) := by
        rw [threadedScanDiff_succ, hfnone]
      refine ⟨it.pos, it, hstep, hInv, rfl, le_refl _, hposle, ?_, ?_⟩
      · intro o ho1 ho2; omega
      · intro h; omega
    · obtain ⟨ha2, hb2, hab2', hmap2, hne2, hpos2le, hAB⟩ := hInv2
      have hlenA : it2.a.length + it2.arx.flatten.length
          = A.length - it2.pos := by
        have := congrArg List.length ha2
        simpa using this
      have hziplen : (it2.a.zip it2.b).length = it2.a.length := by
        rw [List.length_zip, hab2, min_self]
      cases hp : listPosition (fun p => decide (p.1 = p.2)) (it2.a.zip it2.b) with
      | some i =>
        have hstep : threadedScanDiff start (fuel + 1) it
            = some ((start, it2.pos + i), threadedConsume it2 i) := by
          rw [threadedScanDiff_succ, hfsome]
          show (match listPosition (fun p => decide (p.1 = p.2)) (it2.a.zip it2.b) with
            | some i => some ((start, it2.pos + i), threadedConsume it2 i)
            | none => threadedScanDiff start fuel (threadedConsume it2 it2.a.length)) = _
          rw [hp]
        obtain ⟨hi, hpi, hpj⟩ := listPosition_eq_some _ _ i hp
        rw [hziplen] at hi
        have hib : i < it2.b.length := by omega
        rw [zip_getD _ _ i hi hib] at hpi
        have heqi : it2.a.getD i 0 = it2.b.getD i 0 := of_decide_eq_true hpi
        obtain ⟨hbnd, hga, hgb⟩ := hbytes i hi
        refine ⟨it2.pos + i, threadedConsume it2 i, hstep, ?_, rfl, ?_, ?_, ?_, ?_⟩
        · exact threadedConsume_inv A B it2
            ⟨ha2, hb2, hab2, hmap2, hne2, hpos2le, hAB⟩ i (by omega)
        · omega
        · omega
        · intro o ho1 ho2
          have hj : o - it.pos < i := by omega
          have := hpj (o - it.pos) hj
          have hja : o - it.pos < it2.a.length := by omega
          have hjb : o - it.pos < it2.b.length := by omega
          rw [zip_getD _ _ _ hja hjb] at this
          have hnej : it2.a.getD (o - it.pos) 0 ≠ it2.b.getD (o - it.pos) 0 := by
            intro hcontra
            rw [decide_eq_false_iff_not] at this
            exact this hcontra
          obtain ⟨-, hga2, hgb2⟩ := hbytes (o - it.pos) hja
          have ho : it.pos + (o - it.pos) = o := by omega
          rw [ho] at hga2 hgb2
          rw [← hga2, ← hgb2]
          exact hnej
        · intro _
          have hpi' : it.pos + i = it2.pos + i := by omega
          rw [← hpi', ← hga, ← hgb]
          exact heqi
      | none =>
        have hstep : threadedScanDiff start (fuel + 1) it
            = threadedScanDiff start fuel (threadedConsume it2 it2.a.length) := by
          rw [threadedScanDiff_succ, hfsome]
          show (match listPosition (fun p => decide (p.1 = p.2)) (it2.a.zip it2.b) with
            | some i => some ((start, it2.pos + i), threadedConsume it2 i)
            | none => threadedScanDiff start fuel (threadedConsume it2 it2.a.length)) = _
          rw [hp]
        have hall := (listPosition_eq_none _ _).mp hp
        have hnepre : ∀ j, j < it2.a.length →
            A.getD (it.pos + j) 0 ≠ B.getD (it.pos + j) 0 := by
          intro j hj
          have hjb : j < it2.b.length := by omega
          have := hall j (by omega)
          rw [zip_getD _ _ _ hj hjb] at this
          have hnej : it2.a.getD j 0 ≠ it2.b.getD j 0 := by
            intro hcontra
            rw [decide_eq_false_iff_not] at this
            exact this hcontra
          obtain ⟨-, hga2, hgb2⟩ := hbytes j hj
          rw [← hga2, ← hgb2]
          exact hnej
        have hInv3 := threadedConsume_inv A B it2
          ⟨ha2, hb2, hab2, hmap2, hne2, hpos2le, hAB⟩
          it2.a.length (le_refl _)
        have hlt : A.length - (threadedConsume it2 it2.a.length).pos < fuel := by
          show A.length - (it2.pos + it2.a.length) < fuel
          omega
        obtain ⟨e, it', heq, hInv', hpe, h1, h2, h3, h4⟩ := ih _ start hInv3 hlt
        have h1' : it2.pos + it2.a.length ≤ e := h1
        refine ⟨e, it', hstep.trans heq, hInv', hpe, by omega, h2, ?_, h4⟩
        intro o ho1 ho2
        by_cases hcase : o < it2.pos + it2.a.length
        · have := hnepre (o - it.pos) (by omega)
          have ho : it.pos + (o - it.pos) = o := by omega
          rw [ho] at this
          exact this
        · exact h3 o (by show it2.pos + it2.a.length ≤ o; omega) ho2

theorem threadedAll_succ (fuel : Nat) (it : ThreadedDiffIter) :
    threadedAll (fuel + 1) it =
      (match threadedNext (fuel + 1) it with
       | none => []
       | some (r, it') => r :: threadedAll fuel it') := rfl

/-- The threaded differ computes exactly the runs of the mismatch mask of the
remaining input. -/

theorem threadedAll_eq (A B : List Nat) :
    ∀ (fuel : Nat) (it : ThreadedDiffIter), ThreadedInv A B it →
      A.length - it.pos < fuel →
      threadedAll fuel it = runsAux (maskAt A B it.pos) it.pos none := by
  intro fuel
  induction fuel with
  | zero => intro it _ h; omega
  | succ fuel ih =>
    intro it hInv hfuel
    have hAB : A.length = B.length := hInv.2.2.2.2.2.2
    rcases threadedSkipEqual_spec A B (fuel + 1) it hInv hfuel with
      ⟨hnone, hall⟩ | ⟨it1, hsome, hInv1, hp1, hp2, heqpre, hne0⟩
    · have hnext : threadedNext (fuel + 1) it = none := by
        unfold threadedNext
        rw [hnone]
      rw [threadedAll_succ, hnext]
      exact (runsAux_maskAt_allEq A B hAB it.pos hall).symm
    · have hnext : threadedNext (fuel + 1) it
          = threadedScanDiff it1.pos (fuel + 1) it1 := by
        unfold threadedNext
        rw [hsome]
      obtain ⟨e, it2, hscan, hInv2, hpe, h1, h2, h3, h4⟩ :=
        threadedScanDiff_spec A B (fuel + 1) it1 it1.pos hInv1 (by omega)
      rw [threadedAll_succ, hnext, hscan]
      have hlt : it1.pos < e := by
        rcases lt_or_eq_of_le h1 with h | h
        · exact h
        · exfalso
          apply hne0
          rw [h]
          exact h4 (by omega)
      have hsplit := runsAux_maskAt_split A B hAB it.pos it1.pos e hp1 hlt h2
        heqpre h3 h4
      rw [hsplit]
      show (it1.pos, e) :: threadedAll fuel it2
          = (it1.pos, e) :: runsAux (maskAt A B e) e none
      congr 1
      have := ih it2 hInv2 (by omega)
      rw [hpe] at this
      exact this

/-- The threaded differ and the byte-at-a-time differ yield identical range
sequences on equal-length inputs, for every positive chunk size. -/

theorem threadedDiff_eq_bytesDiff (c : Nat) (hc : 1 ≤ c) (A B : List Nat)
    (hlen : A.length = B.length) : threadedDiff c A B = bytesDiff A B := by
  rw [bytesDiff_eq_runsAux_maskAt, threadedDiff]
  have hInv : ThreadedInv A B
      { arx := chunksOf c A, brx := chunksOf c B, a := [], b := [], pos := 0 } := by
    refine ⟨?_, ?_, rfl, ?_, ?_, by simp, hlen⟩
    · show [] ++ (chunksOf c A).flatten = A.drop 0
      rw [chunksOf, chunksOfGo_join c hc A.length A (le_refl _)]
      simp
    · show [] ++ (chunksOf c B).flatten = B.drop 0
      rw [chunksOf, chunksOfGo_join c hc B.length B (le_refl _)]
      simp
    · show (chunksOf c A).map List.length = (chunksOf c B).map List.length
      rw [chunksOf, chunksOf, hlen]
      exact chunksOfGo_map_length c B.length A B hlen
    · exact fun ch hch => chunksOfGo_nonempty c hc A.length A ch hch
  have h := threadedAll_eq A B (A.length + 1) _ hInv (by simp)
  exact h

/-! ## Claim theorems for the differ -/

/-- Every range produced by `runsAux` ends within the mask. -/

theorem runsAux_ends_le (m : List Bool) (p : Nat) :
    ∀ r ∈ runsAux m p none, r.2 ≤ p + m.length := by
  intro r hr
  have hchain := chainLB_runsAux m p none (by intro s hs; cases hs)
  have hbound := ChainLB.mem_bound hchain r hr
  have hmem : inRanges (runsAux m p none) (r.2 - 1) :=
    ⟨r, hr, by omega, by omega⟩
  rw [mem_runsAux m p none (r.2 - 1) (by intro s hs; cases hs)] at hmem
  rcases hmem with h | ⟨i, hi, hoi, -⟩
  · simp at h
  · omega

/-- If some offset `o` is covered and every range ends by `o + 1`, the last
range of the chain ends exactly at `o + 1`. -/

theorem chainLB_last_end : ∀ (rs : List ByteRange) (lb o : Nat),
    ChainLB lb rs → inRanges rs o → (∀ r ∈ rs, r.2 ≤ o + 1) →
    ∃ r, rs.getLast? = some r ∧ r.2 = o + 1 := by
  intro rs
  induction rs with
  | nil => intro lb o _ ho _; simp at ho
  | cons r rs ih =>
    intro lb o hchain ho hmax
    obtain ⟨hlb, hne, hrest⟩ := hchain
    cases rs with
    | nil =>
      rcases (inRanges_cons r [] o).mp ho with h | h
      · refine ⟨r, rfl, ?_⟩
        have := hmax r (List.mem_cons_self _ _)
        obtain ⟨h1, h2⟩ := h
        omega
      · simp at h
    | cons x rs' =>
      have hxend : x.2 ≤ o + 1 := hmax x (by simp)
      have hx := ChainLB.mem_bound hrest x (List.mem_cons_self _ _)
      rcases (inRanges_cons r (x :: rs') o).mp ho with h | h
      · -- o inside the head range, but a later nonempty range would overflow o+1
        obtain ⟨h1, h2⟩ := h
        have hrend : r.2 ≤ o + 1 := hmax r (List.mem_cons_self _ _)
        omega
      · have := ih (r.2 + 1) o hrest h (fun r' hr' => hmax r' (List.mem_cons_of_mem _ hr'))
        obtain ⟨rl, hrl, hrl2⟩ := this
        refine ⟨rl, ?_, hrl2⟩
        rw [List.getLast?_cons_cons]
        exact hrl

/-- If the final byte differs, the final emitted range of the byte differ ends
exactly at the input length. -/

theorem bytesDiff_last_end (a b : List Nat) (hlen : a.length = b.length)
    (hne : a ≠ []) (hd : a.getD (a.length - 1) 0 ≠ b.getD (a.length - 1) 0) :
    ∃ r, (bytesDiff a b).getLast? = some r ∧ r.2 = a.length := by
  have hn1 : 1 ≤ a.length := by
    cases a with
    | nil => exact absurd rfl hne
    | cons x l => simp
  rw [bytesDiff_eq_runsAux]
  have hmlen : (neMask (a.zip b)).length = a.length := by
    rw [neMask_length, List.length_zip]
    omega
  have hmem : inRanges (runsAux (neMask (a.zip b)) 0 none) (a.length - 1) := by
    rw [mem_runsAux _ 0 none _ (by intro s hs; cases hs)]
    refine Or.inr ⟨a.length - 1, by omega, by omega, ?_⟩
    rw [neMask_getD _ _ (by rw [List.length_zip]; omega),
      zip_getD a b _ (by omega) (by omega)]
    exact decide_eq_true hd
  have hends := runsAux_ends_le (neMask (a.zip b)) 0
  have hchain := chainLB_runsAux (neMask (a.zip b)) 0 none (by intro s hs; cases hs)
  have := chainLB_last_end (runsAux (neMask (a.zip b)) 0 none) 0 (a.length - 1)
    hchain hmem (fun r hr => by have := hends r hr; omega)
  obtain ⟨r, h1, h2⟩ := this
  exact ⟨r, h1, by omega⟩

/-- C1: for every pair of equal-length byte sequences `a` and `b`, each differ
strategy (byte-at-a-time, buffered scan, threaded — the latter two for every
positive buffer/chunk capacity) yields ranges such that every offset inside a
yielded range is a mismatch, every offset outside all yielded ranges is a
match, and the yielded ranges are pairwise non-overlapping with strictly
increasing starts. -/

theorem C1_differ_contract (a b : List Nat) (c1 c2 : Nat)
    (hlen : a.length = b.length) (hc1 : 1 ≤ c1) (hc2 : 1 ≤ c2) :
    DiffOutputOK a b (bytesDiff a b) ∧
    DiffOutputOK a b (memchrDiff c1 a b) ∧
    DiffOutputOK a b (threadedDiff c2 a b) := by
  have hbytes : DiffOutputOK a b (bytesDiff a b) := by
    rw [bytesDiff_eq_runsAux]
    exact runsAux_diffOutputOK a b
  refine ⟨hbytes, ?_, ?_⟩
  · rw [memchrDiff_eq_bytesDiff c1 hc1 a b hlen]
    exact hbytes
  · rw [threadedDiff_eq_bytesDiff c2 hc2 a b hlen]
    exact hbytes

theorem C1_differ_contract_witness :
    DiffOutputOK [1, 2, 3, 4] [1, 9, 9, 4] (bytesDiff [1, 2, 3, 4] [1, 9, 9, 4]) ∧
    DiffOutputOK [1, 2, 3, 4] [1, 9, 9, 4] (memchrDiff 2 [1, 2, 3, 4] [1, 9, 9, 4]) ∧
    DiffOutputOK [1, 2, 3, 4] [1, 9, 9, 4] (threadedDiff 3 [1, 2, 3, 4] [1, 9, 9, 4]) :=
  C1_differ_contract [1, 2, 3, 4] [1, 9, 9, 4] 2 3 rfl (by decide) (by decide)

/-- C2: on every pair of equal-length byte sequences, the three differ
strategies emit exactly the same sequence of ranges (for every positive
capacity/chunk size), and if the inputs differ at the final byte, the final
emitted range ends exactly at the input length. -/

theorem C2_differ_equivalence (a b : List Nat) (c1 c2 : Nat)
    (hlen : a.length = b.length) (hc1 : 1 ≤ c1) (hc2 : 1 ≤ c2) :
    memchrDiff c1 a b = bytesDiff a b ∧
    threadedDiff c2 a b = bytesDiff a b ∧
    (a ≠ [] → a.getD (a.length - 1) 0 ≠ b.getD (a.length - 1) 0 →
      ∃ r, (bytesDiff a b).getLast? = some r ∧ r.2 = a.length) := by
  refine ⟨memchrDiff_eq_bytesDiff c1 hc1 a b hlen,
    threadedDiff_eq_bytesDiff c2 hc2 a b hlen, ?_⟩
  intro hne hd
  exact bytesDiff_last_end a b hlen hne hd

theorem C2_differ_equivalence_witness :
    (memchrDiff 2 [1, 2, 3] [1, 2, 7] = bytesDiff [1, 2, 3] [1, 2, 7] ∧
     threadedDiff 2 [1, 2, 3] [1, 2, 7] = bytesDiff [1, 2, 3] [1, 2, 7] ∧
     (([1, 2, 3] : List Nat) ≠ [] →
      ([1, 2, 3] : List Nat).getD (([1, 2, 3] : List Nat).length - 1) 0
        ≠ ([1, 2, 7] : List Nat).getD (([1, 2, 3] : List Nat).length - 1) 0 →
      ∃ r, (bytesDiff [1, 2, 3] [1, 2, 7]).getLast? = some r
        ∧ r.2 = ([1, 2, 3] : List Nat).length)) ∧
    (∃ r, (bytesDiff [1, 2, 3] [1, 2, 7]).getLast? = some r
      ∧ r.2 = ([1, 2, 3] : List Nat).length) :=
  ⟨C2_differ_equivalence [1, 2, 3] [1, 2, 7] 2 2 rfl (by decide) (by decide),
   (C2_differ_equivalence [1, 2, 3] [1, 2, 7] 2 2 rfl (by decide) (by decide)).2.2
     (by decide) (by decide)⟩

/-! ## Range tree, from `src/range_tree.rs`

Offsets are `Nat` (the Rust code instantiates `T = u64`; `T::min_value() = 0`,
and the `unwrap_or(T::max_value())` bound in `insert` is always satisfied for
`u64`, so it is modelled by the `none => -` branch succeeding).  Panicking
`assert!`s are modelled by returning `none`. -/

theorem TreeChain.mono' {lb lb' : Nat} {l : List ByteRange} (h : lb' ≤ lb)
    (hc : TreeChain lb l) : TreeChain lb' l := by
  cases l with
  | nil => trivial
  | cons r rs => exact ⟨le_trans h hc.1, hc.2.1, hc.2.2⟩

/-- Indexed facts from the chain invariant: lower bound, well-formedness, and
non-overlap with every later range. -/

theorem TreeChain.getD_facts : ∀ (l : List ByteRange) (lb : Nat), TreeChain lb l →
    ∀ i, i < l.length →
      lb ≤ (l.getD i (0, 0)).1 ∧ (l.getD i (0, 0)).1 ≤ (l.getD i (0, 0)).2 ∧
      (∀ j, i < j → j < l.length → (l.getD i (0, 0)).2 ≤ (l.getD j (0, 0)).1) := by
  intro l
  induction l with
  | nil => intro lb _ i hi; simp at hi
  | cons r rs ih =>
    intro lb hc i hi
    obtain ⟨h1, h2, h3⟩ := hc
    cases i with
    | zero =>
      refine ⟨by simpa using h1, by simpa using h2, ?_⟩
      intro j hj hjlen
      cases j with
      | zero => omega
      | succ j' =>
        have hj' : j' < rs.length := by simpa using hjlen
        have := ih r.2 h3 j' hj'
        simpa using this.1
    | succ i' =>
      have hi' : i' < rs.length := by simpa using hi
      have hfacts := ih r.2 h3 i' hi'
      refine ⟨?_, by simpa using hfacts.2.1, ?_⟩
      · have : lb ≤ r.2 := by omega
        have h4 := hfacts.1
        simp only [List.getD_cons_succ]
        omega
      · intro j hj hjlen
        cases j with
        | zero => omega
        | succ j' =>
          have hj' : j' < rs.length := by simpa using hjlen
          have := hfacts.2.2 j' (by omega) hj'
          simpa using this

/-- Under the invariant the range ends are monotone in the index. -/

theorem TreeChain.ends_mono {l : List ByteRange} (hc : TreeChain 0 l) :
    ∀ i j, i ≤ j → j < l.length →
      (l.getD i (0, 0)).2 ≤ (l.getD j (0, 0)).2 := by
  intro i j hij hj
  rcases Nat.eq_or_lt_of_le hij with h | h
  · rw [h]
  · have hi := TreeChain.getD_facts l 0 hc i (by omega)
    have hjf := TreeChain.getD_facts l 0 hc j hj
    have := hi.2.2 j h hj
    omega

theorem RangeTree.binarySearchGo_step (ranges : List ByteRange)
    (e fuel left right : Nat) (h : left < right) :
    RangeTree.binarySearchGo ranges e (fuel + 1) left right =
      (if (ranges.getD (left + (right - left) / 2) (0, 0)).2 ≤ e
       then RangeTree.binarySearchGo ranges e fuel (left + (right - left) / 2 + 1) right
       else RangeTree.binarySearchGo ranges e fuel left (left + (right - left) / 2)) := by
  show (if left < right then
      match RangeTree.lookupCmp
          (ranges.getD (left + (right - left) / 2) (0, 0)) e with
      | Ordering.lt =>
        RangeTree.binarySearchGo ranges e fuel (left + (right - left) / 2 + 1) right
      | _ => RangeTree.binarySearchGo ranges e fuel left (left + (right - left) / 2)
    else left) = _
  rw [if_pos h]
  by_cases hc : (ranges.getD (left + (right - left) / 2) (0, 0)).2 ≤ e
  · rw [if_pos hc]
    have hcmp : RangeTree.lookupCmp (ranges.getD (left + (right - left) / 2) (0, 0)) e
        = .lt := by unfold RangeTree.lookupCmp; rw [if_pos hc]
    rw [hcmp]
  · rw [if_neg hc]
    have hcmp : RangeTree.lookupCmp (ranges.getD (left + (right - left) / 2) (0, 0)) e
        = .gt := by unfold RangeTree.lookupCmp; rw [if_neg hc]
    rw [hcmp]

theorem RangeTree.binarySearchGo_base (ranges : List ByteRange)
    (e fuel left right : Nat) (h : ¬ left < right) :
    RangeTree.binarySearchGo ranges e (fuel + 1) left right = left := by
  show (if left < right then
      match RangeTree.lookupCmp
          (ranges.getD (left + (right - left) / 2) (0, 0)) e with
      | Ordering.lt =>
        RangeTree.binarySearchGo ranges e fuel (left + (right - left) / 2 + 1) right
      | _ => RangeTree.binarySearchGo ranges e fuel left (left + (right - left) / 2)
    else left) = _
  rw [if_neg h]

/-- The binary search computes the partition point of `r.end ≤ e` when the ends
are sorted. -/

theorem RangeTree.binarySearchGo_spec (ranges : List ByteRange) (e : Nat)
    (hsorted : ∀ i j, i ≤ j → j < ranges.length →
      (ranges.getD i (0, 0)).2 ≤ (ranges.getD j (0, 0)).2) :
    ∀ (n left right : Nat), right - left ≤ n → right ≤ ranges.length →
      left ≤ right →
      (∀ i, i < left → (ranges.getD i (0, 0)).2 ≤ e) →
      (∀ i, right ≤ i → i < ranges.length → e < (ranges.getD i (0, 0)).2) →
      left ≤ RangeTree.binarySearchGo ranges e n left right ∧
      RangeTree.binarySearchGo ranges e n left right ≤ right ∧
      (∀ i, i < RangeTree.binarySearchGo ranges e n left right →
        (ranges.getD i (0, 0)).2 ≤ e) ∧
      (∀ i, RangeTree.binarySearchGo ranges e n left right ≤ i →
        i < ranges.length → e < (ranges.getD i (0, 0)).2) := by
  intro n
  induction n with
  | zero =>
    intro left right hn hrlen hlr hlt hgt
    have hbase : RangeTree.binarySearchGo ranges e 0 left right = left := rfl
    rw [hbase]
    exact ⟨le_refl _, by omega, hlt, fun i hi hilen => hgt i (by omega) hilen⟩
  | succ n ih =>
    intro left right hn hrlen hlr hlt hgt
    by_cases h : left < right
    · rw [RangeTree.binarySearchGo_step ranges e n left right h]
      by_cases hc : (ranges.getD (left + (right - left) / 2) (0, 0)).2 ≤ e
      · rw [if_pos hc]
        have hmidlt : left + (right - left) / 2 < right := by omega
        have hlt' : ∀ i, i < left + (right - left) / 2 + 1 →
            (ranges.getD i (0, 0)).2 ≤ e := by
          intro i hi
          have := hsorted i (left + (right - left) / 2) (by omega) (by omega)
          omega
        have := ih (left + (right - left) / 2 + 1) right (by omega) hrlen
          (by omega) hlt' hgt
        exact ⟨by omega, this.2.1, this.2.2.1, this.2.2.2⟩
      · rw [if_neg hc]
        have hmidlt : left + (right - left) / 2 < right := by omega
        have hgt' : ∀ i, left + (right - left) / 2 ≤ i → i < ranges.length →
            e < (ranges.getD i (0, 0)).2 := by
          intro i hi hilen
          have := hsorted (left + (right - left) / 2) i hi hilen
          omega
        have := ih left (left + (right - left) / 2) (by omega) (by omega)
          (by omega) hlt hgt'
        exact ⟨this.1, by omega, this.2.2.1, this.2.2.2⟩
    · rw [RangeTree.binarySearchGo_base ranges e n left right h]
      exact ⟨le_refl _, by omega, hlt, fun i hi hilen => hgt i (by omega) hilen⟩

/-- Under the invariant, `lookup_index` is the partition point of
`r.end ≤ element`. -/

theorem RangeTree.lookup_index_spec (t : RangeTree) (hInv : t.Inv) (e : Nat) :
    t.lookup_index e ≤ t.ranges.length ∧
    (∀ i, i < t.lookup_index e → (t.ranges.getD i (0, 0)).2 ≤ e) ∧
    (∀ i, t.lookup_index e ≤ i → i < t.ranges.length →
      e < (t.ranges.getD i (0, 0)).2) := by
  have hsorted := TreeChain.ends_mono hInv
  have := RangeTree.binarySearchGo_spec t.ranges e hsorted (t.ranges.length + 1) 0
    t.ranges.length (by omega) (le_refl _) (by omega)
    (by intro i hi; omega) (by intro i hi hilen; omega)
  exact ⟨this.2.1, this.2.2.1, this.2.2.2⟩

theorem mem_iff_getD (l : List ByteRange) (r : ByteRange) :
    r ∈ l ↔ ∃ k, k < l.length ∧ l.getD k (0, 0) = r := by
  rw [List.mem_iff_getElem]
  constructor
  · rintro ⟨n, hn, hget⟩
    refine ⟨n, hn, ?_⟩
    rw [List.getD_eq_getElem?_getD, List.getElem?_eq_getElem hn]
    simpa using hget
  · rintro ⟨k, hk, hget⟩
    refine ⟨k, hk, ?_⟩
    rw [List.getD_eq_getElem?_getD, List.getElem?_eq_getElem hk] at hget
    simpa using hget

theorem getElemQ_some_iff (l : List ByteRange) (j : Nat) (r : ByteRange) :
    l[j]? = some r ↔ j < l.length ∧ l.getD j (0, 0) = r := by
  rw [List.getElem?_eq_some_iff]
  constructor
  · rintro ⟨h, hget⟩
    refine ⟨h, ?_⟩
    rw [List.getD_eq_getElem?_getD, List.getElem?_eq_getElem h]
    simpa using hget
  · rintro ⟨h, hget⟩
    refine ⟨h, ?_⟩
    rw [List.getD_eq_getElem?_getD, List.getElem?_eq_getElem h] at hget
    simpa using hget

/-- Under the invariant, two distinct indices cannot hold the same nonempty
range. -/

theorem TreeChain.no_dup {l : List ByteRange} (hc : TreeChain 0 l)
    {k1 k2 : Nat} (h12 : k1 < k2) (hk2 : k2 < l.length) {r : ByteRange}
    (h1 : l.getD k1 (0, 0) = r) (h2 : l.getD k2 (0, 0) = r)
    (hne : r.1 < r.2) : False := by
  have := (TreeChain.getD_facts l 0 hc k1 (by omega)).2.2 k2 h12 hk2
  rw [h1, h2] at this
  omega

/-- Under the invariant, `lookup_index e` returns exactly the index of the
stored range containing `e`, when one does. -/

theorem RangeTree.lookup_index_of_contains (t : RangeTree) (hInv : t.Inv)
    (e k : Nat) (hk : k < t.ranges.length)
    (h1 : (t.ranges.getD k (0, 0)).1 ≤ e) (h2 : e < (t.ranges.getD k (0, 0)).2) :
    t.lookup_index e = k := by
  obtain ⟨hle, hlt, hgt⟩ := RangeTree.lookup_index_spec t hInv e
  rcases Nat.lt_trichotomy (t.lookup_index e) k with h | h | h
  · exfalso
    have hend := (TreeChain.getD_facts t.ranges 0 hInv (t.lookup_index e)
      (by omega)).2.2 k h hk
    have := hgt (t.lookup_index e) (le_refl _) (by omega)
    omega
  · exact h
  · exfalso
    have := hlt k h
    omega

/-- Appending a well-formed range whose start is at or after the last end
preserves the chain. -/

theorem TreeChain_append_singleton :
    ∀ (l : List ByteRange) (lb : Nat) (range : ByteRange),
      TreeChain lb l → range.1 ≤ range.2 →
      (match l.getLast? with | some r => r.2 | none => lb) ≤ range.1 →
      TreeChain lb (l ++ [range]) := by
  intro l
  induction l with
  | nil =>
    intro lb range _ hwf hlast
    exact ⟨by simpa using hlast, hwf, trivial⟩
  | cons r rs ih =>
    intro lb range hc hwf hlast
    obtain ⟨h1, h2, h3⟩ := hc
    refine ⟨h1, h2, ?_⟩
    apply ih r.2 range h3 hwf
    cases rs with
    | nil => simpa using hlast
    | cons x rs' => simpa using hlast

/-- Inserting a well-formed range at the partition point preserves the chain. -/

theorem TreeChain_insertIdx (range : ByteRange) :
    ∀ (l : List ByteRange) (lb j : Nat), TreeChain lb l → j ≤ l.length →
      range.1 ≤ range.2 →
      (j = 0 → lb ≤ range.1) →
      (j ≠ 0 → (l.getD (j - 1) (0, 0)).2 ≤ range.1) →
      (j < l.length → range.2 ≤ (l.getD j (0, 0)).1) →
      TreeChain lb (l.insertIdx j range) := by
  intro l
  induction l with
  | nil =>
    intro lb j hc hj hwf h0 _ _
    have : j = 0 := by simpa using hj
    subst this
    exact ⟨h0 rfl, hwf, trivial⟩
  | cons r rs ih =>
    intro lb j hc hj hwf h0 hprev hnext
    obtain ⟨h1, h2, h3⟩ := hc
    cases j with
    | zero =>
      have hnext0 : range.2 ≤ r.1 := by simpa using hnext (by simp)
      exact ⟨h0 rfl, hwf, by omega, h2, h3⟩
    | succ k =>
      show TreeChain lb (r :: rs.insertIdx k range)
      refine ⟨h1, h2, ?_⟩
      apply ih r.2 k h3 (by simpa using hj) hwf
      · intro hk0
        subst hk0
        simpa using hprev (by omega)
      · intro hk0
        have := hprev (by omega)
        have hk1 : k - 1 + 1 = k := by omega
        cases k with
        | zero => omega
        | succ k' => simpa using this
      · intro hk
        have := hnext (by simpa using hk)
        simpa using this

/-- Removing any index preserves the chain. -/

theorem TreeChain_eraseIdx :
    ∀ (l : List ByteRange) (lb j : Nat), TreeChain lb l →
      TreeChain lb (l.eraseIdx j) := by
  intro l
  induction l with
  | nil => intro lb j _; simp [List.eraseIdx]; trivial
  | cons r rs ih =>
    intro lb j hc
    obtain ⟨h1, h2, h3⟩ := hc
    cases j with
    | zero =>
      show TreeChain lb rs
      exact h3.mono' (by omega)
    | succ k =>
      show TreeChain lb (r :: rs.eraseIdx k)
      exact ⟨h1, h2, ih r.2 k h3⟩

/-- A successful `append` preserves the invariant and appends the range. -/

theorem RangeTree.append_inv (t : RangeTree) (hInv : t.Inv) (range : ByteRange)
    (t' : RangeTree) (h : t.append range = some t') :
    t'.Inv ∧ t'.ranges = t.ranges ++ [range] := by
  unfold RangeTree.append at h
  by_cases hcond : range.1 ≤ range.2 ∧
      (match t.ranges.getLast? with | some r => r.2 | none => 0) ≤ range.1
  · rw [if_pos hcond] at h
    injection h with h
    subst h
    exact ⟨TreeChain_append_singleton t.ranges 0 range hInv hcond.1 hcond.2, rfl⟩
  · rw [if_neg hcond] at h
    cases h

/-- A successful `insert` preserves the invariant (for a well-formed range) and
splices the range in at the `lookup_index` position. -/

theorem RangeTree.insert_inv (t : RangeTree) (hInv : t.Inv) (range : ByteRange)
    (hwf : range.1 ≤ range.2) (t' : RangeTree) (h : t.insert range = some t') :
    t'.Inv ∧ t'.ranges = t.ranges.insertIdx (t.lookup_index range.1) range := by
  obtain ⟨hle, hlt, hgt⟩ := RangeTree.lookup_index_spec t hInv range.1
  unfold RangeTree.insert at h
  by_cases hcond : t.lookup_index range.1 ≠ 0 ∧
      ¬ (t.ranges.getD (t.lookup_index range.1 - 1) (0, 0)).2 ≤ range.1
  · rw [if_pos hcond] at h
    cases h
  · rw [if_neg hcond] at h
    have hranges : t'.ranges = t.ranges.insertIdx (t.lookup_index range.1) range ∧
        (t.lookup_index range.1 < t.ranges.length →
          range.2 ≤ (t.ranges.getD (t.lookup_index range.1) (0, 0)).1) := by
      cases hj : t.ranges[t.lookup_index range.1]? with
      | some r =>
        rw [hj] at h
        obtain ⟨hjlen, hjget⟩ := (getElemQ_some_iff _ _ _).mp hj
        have h2 : (if range.2 ≤ r.1 then
            some (⟨t.ranges.insertIdx (t.lookup_index range.1) range⟩ : RangeTree)
          else none) = some t' := h
        by_cases hr : range.2 ≤ r.1
        · rw [if_pos hr] at h2
          injection h2 with h2
          subst h2
          exact ⟨rfl, fun _ => by rw [hjget]; exact hr⟩
        · rw [if_neg hr] at h2
          cases h2
      | none =>
        rw [hj] at h
        have h2 : some (⟨t.ranges.insertIdx (t.lookup_index range.1) range⟩ : RangeTree)
            = some t' := h
        injection h2 with h2
        subst h2
        refine ⟨rfl, fun hlen => ?_⟩
        exfalso
        have := List.getElem?_eq_none_iff.mp hj
        omega
    refine ⟨?_, hranges.1⟩
    show TreeChain 0 t'.ranges
    rw [hranges.1]
    apply TreeChain_insertIdx range t.ranges 0 (t.lookup_index range.1) hInv hle hwf
    · intro _; omega
    · intro hj0
      exact hlt (t.lookup_index range.1 - 1) (by omega)
    · exact hranges.2

/-- `remove_range_exact` never panics on a well-formed range, preserves the
invariant, and removes exactly the stored occurrence (if any). -/

theorem RangeTree.remove_range_exact_spec (t : RangeTree) (hInv : t.Inv)
    (range : ByteRange) (hwf : range.1 ≤ range.2) :
    ∃ t' b, t.remove_range_exact range = some (t', b) ∧ t'.Inv ∧
      (∀ x, x ∈ t'.ranges → x ∈ t.ranges) ∧
      (range ∉ t.ranges → t' = t ∧ b = false) ∧
      (range.1 < range.2 → range ∈ t.ranges →
        b = true ∧ range ∉ t'.ranges) := by
  cases hj : t.ranges[t.lookup_index range.1]? with
  | some r =>
    have hstep : t.remove_range_exact range =
        (if r.1 = range.1 ∧ r.2 = range.2 then
          some ((⟨t.ranges.eraseIdx (t.lookup_index range.1)⟩ : RangeTree), true)
        else some (t, false)) := by
      unfold RangeTree.remove_range_exact
      rw [if_pos hwf]
      show (match t.ranges[t.lookup_index range.1]? with
        | some r =>
          if r.1 = range.1 ∧ r.2 = range.2 then
            some ((⟨t.ranges.eraseIdx (t.lookup_index range.1)⟩ : RangeTree), true)
          else some (t, false)
        | none => some (t, false)) = _
      rw [hj]
    obtain ⟨hjlen, hjget⟩ := (getElemQ_some_iff _ _ _).mp hj
    by_cases hr : r.1 = range.1 ∧ r.2 = range.2
    · rw [hstep, if_pos hr]
      have hreq : r = range := Prod.ext hr.1 hr.2
      refine ⟨⟨t.ranges.eraseIdx (t.lookup_index range.1)⟩, true, rfl,
        TreeChain_eraseIdx t.ranges 0 _ hInv, ?_, ?_, ?_⟩
      · intro x hx
        exact (List.eraseIdx_sublist t.ranges _).mem hx
      · intro hnotmem
        exfalso
        apply hnotmem
        rw [mem_iff_getD]
        exact ⟨t.lookup_index range.1, hjlen, by rw [hjget, hreq]⟩
      · intro hne _
        refine ⟨rfl, ?_⟩
        intro hmem
        rw [mem_iff_getD] at hmem
        obtain ⟨k, hk, hkget⟩ := hmem
        have hk' : k < (t.ranges.eraseIdx (t.lookup_index range.1)).length := hk
        have hkget' : (t.ranges.eraseIdx (t.lookup_index range.1)).getD k (0, 0)
            = range := hkget
        have hklen : (t.ranges.eraseIdx (t.lookup_index range.1)).length
            = t.ranges.length - 1 := by
          rw [List.length_eraseIdx, if_pos hjlen]
        -- map the erased index back to an index of the original list
        have horig : ∃ k2, k2 < t.ranges.length ∧ k2 ≠ t.lookup_index range.1 ∧
            t.ranges.getD k2 (0, 0) = range := by
          by_cases hcase : k < t.lookup_index range.1
          · refine ⟨k, by omega, by omega, ?_⟩
            rw [← hkget', List.getD_eq_getElem?_getD, List.getD_eq_getElem?_getD,
              List.getElem?_eraseIdx_of_lt _ _ _ hcase]
          · refine ⟨k + 1, by omega, by omega, ?_⟩
            rw [← hkget', List.getD_eq_getElem?_getD, List.getD_eq_getElem?_getD,
              List.getElem?_eraseIdx_of_ge _ _ _ (by omega)]
        obtain ⟨k2, hk2, hk2ne, hk2get⟩ := horig
        have hjr : t.ranges.getD (t.lookup_index range.1) (0, 0) = range := by
          rw [hjget, hreq]
        rcases Nat.lt_or_ge k2 (t.lookup_index range.1) with hlt2 | hge2
        · exact TreeChain.no_dup hInv hlt2 hjlen hk2get hjr hne
        · exact TreeChain.no_dup hInv (by omega) hk2 hjr hk2get hne
    · rw [hstep, if_neg hr]
      refine ⟨t, false, rfl, hInv, fun x hx => hx, fun _ => ⟨rfl, rfl⟩, ?_⟩
      intro hne hmem
      exfalso
      -- range is stored, so lookup_index finds it, contradicting r ≠ range
      rw [mem_iff_getD] at hmem
      obtain ⟨k, hk, hkget⟩ := hmem
      have := RangeTree.lookup_index_of_contains t hInv range.1 k hk
        (by rw [hkget]) (by rw [hkget]; omega)
      rw [this, hkget] at hjget
      exact hr ⟨by rw [← hjget], by rw [← hjget]⟩
  | none =>
    have hstep : t.remove_range_exact range = some (t, false) := by
      unfold RangeTree.remove_range_exact
      rw [if_pos hwf]
      show (match t.ranges[t.lookup_index range.1]? with
        | some r =>
          if r.1 = range.1 ∧ r.2 = range.2 then
            some ((⟨t.ranges.eraseIdx (t.lookup_index range.1)⟩ : RangeTree), true)
          else some (t, false)
        | none => some (t, false)) = _
      rw [hj]
    rw [hstep]
    refine ⟨t, false, rfl, hInv, fun x hx => hx, fun _ => ⟨rfl, rfl⟩, ?_⟩
    intro hne hmem
    exfalso
    rw [mem_iff_getD] at hmem
    obtain ⟨k, hk, hkget⟩ := hmem
    have := RangeTree.lookup_index_of_contains t hInv range.1 k hk
      (by rw [hkget]) (by rw [hkget]; omega)
    have hnone := List.getElem?_eq_none_iff.mp hj
    omega

/-- Inserting a nonempty range that is already stored always panics: the
previous-neighbour assert passes, but the next-range assert compares the range
with its own stored copy. -/

theorem RangeTree.insert_mem_none (t : RangeTree) (hInv : t.Inv)
    (r : ByteRange) (hr : r ∈ t.ranges) (hne : r.1 < r.2) :
    t.insert r = none := by
  rw [mem_iff_getD] at hr
  obtain ⟨k, hk, hkget⟩ := hr
  have hlook : t.lookup_index r.1 = k :=
    RangeTree.lookup_index_of_contains t hInv r.1 k hk (by rw [hkget]) (by rw [hkget]; omega)
  obtain ⟨hle, hlt, hgt⟩ := RangeTree.lookup_index_spec t hInv r.1
  unfold RangeTree.insert
  by_cases hcond : t.lookup_index r.1 ≠ 0 ∧
      ¬ (t.ranges.getD (t.lookup_index r.1 - 1) (0, 0)).2 ≤ r.1
  · rw [if_pos hcond]
  · have hj : t.ranges[t.lookup_index r.1]? = some r := by
      rw [getElemQ_some_iff]
      rw [hlook]
      exact ⟨hk, hkget⟩
    rw [if_neg hcond]
    show (match t.ranges[t.lookup_index r.1]? with
      | some r2 =>
        if r.2 ≤ r2.1 then
          some (⟨t.ranges.insertIdx (t.lookup_index r.1) r⟩ : RangeTree)
        else none
      | none =>
        some (⟨t.ranges.insertIdx (t.lookup_index r.1) r⟩ : RangeTree)) = none
    rw [hj]
    show (if r.2 ≤ r.1 then
        some (⟨t.ranges.insertIdx (t.lookup_index r.1) r⟩ : RangeTree)
      else none) = none
    rw [if_neg (by omega)]

/-- `contains` is by definition the containment test on the range found by
`lookup_index`. -/

theorem RangeTree.contains_iff (t : RangeTree) (e : Nat) :
    t.contains e = true ↔
      ∃ r, t.ranges[t.lookup_index e]? = some r ∧ r.1 ≤ e ∧ e < r.2 := by
  unfold RangeTree.contains
  cases hj : t.ranges[t.lookup_index e]? with
  | some r =>
    simp only [decide_eq_true_eq]
    constructor
    · intro h; exact ⟨r, rfl, h⟩
    · rintro ⟨r', hr', h⟩
      injection hr' with hr'
      subst hr'
      exact h
  | none =>
    simp only [Bool.false_eq_true, false_iff]
    rintro ⟨r', hr', -⟩
    cases hr'

/-- An operation on the range tree, for stating sequences of mutations. -/

theorem applyOp_inv (t t2 : RangeTree) (op : TreeOp) (hInv : t.Inv)
    (hwf : op.range.1 ≤ op.range.2) (h : applyOp t op = some t2) : t2.Inv := by
  cases op with
  | append r => exact (RangeTree.append_inv t hInv r t2 h).1
  | insert r => exact (RangeTree.insert_inv t hInv r hwf t2 h).1
  | remove r =>
    obtain ⟨t', b, heq, hInv', -⟩ := RangeTree.remove_range_exact_spec t hInv r hwf
    have h2 : Option.map Prod.fst (t.remove_range_exact r) = some t2 := h
    rw [heq] at h2
    simp only [Option.map_some'] at h2
    injection h2 with h2
    subst h2
    exact hInv'

/-- C3: starting from any tree satisfying the sorted non-overlap invariant, any
sequence of `append`/`insert`/`remove_range_exact` calls on well-formed ranges
that completes without panicking (in particular, whenever the claimed
preconditions hold) leaves the stored ranges sorted and non-overlapping, and
`contains` stays consistent with `lookup_index`: `contains e` holds exactly
when the range at index `lookup_index e` exists and contains `e`. -/

theorem C3_range_tree_invariant (t t' : RangeTree) (ops : List TreeOp)
    (hInv : t.Inv) (hwf : ∀ op ∈ ops, op.range.1 ≤ op.range.2)
    (h : applyOps t ops = some t') :
    t'.Inv ∧ (∀ e, t'.contains e = true ↔
      ∃ r, t'.ranges[t'.lookup_index e]? = some r ∧ r.1 ≤ e ∧ e < r.2) := by
  suffices h2 : t'.Inv by exact ⟨h2, fun e => RangeTree.contains_iff t' e⟩
  induction ops generalizing t with
  | nil =>
    unfold applyOps at h
    injection h with h
    subst h
    exact hInv
  | cons op ops ih =>
    unfold applyOps at h
    cases happ : applyOp t op with
    | none => rw [happ] at h; cases h
    | some t2 =>
      rw [happ] at h
      simp only [Option.some_bind] at h
      have hInv2 : t2.Inv :=
        applyOp_inv t t2 op hInv (hwf op (List.mem_cons_self _ _)) happ
      exact ih t2 hInv2 (fun o ho => hwf o (List.mem_cons_of_mem _ ho)) h

theorem C3_range_tree_invariant_witness :
    (RangeTree.mk [(0, 2), (4, 6)]).Inv ∧
    (∀ e, (RangeTree.mk [(0, 2), (4, 6)]).contains e = true ↔
      ∃ r, (RangeTree.mk [(0, 2), (4, 6)]).ranges[
        (RangeTree.mk [(0, 2), (4, 6)]).lookup_index e]? = some r ∧
        r.1 ≤ e ∧ e < r.2) :=
  C3_range_tree_invariant RangeTree.new (RangeTree.mk [(0, 2), (4, 6)])
    [TreeOp.append (0, 2), TreeOp.insert (4, 6), TreeOp.insert (2, 4),
      TreeOp.remove (2, 4)]
    trivial (by decide) (by decide)

/-- C4: under the invariant, `lookup_index e` is the index of the stored range
containing `e` when one exists, and otherwise the partition point at which a
range containing `e` would be inserted (everything before it ends at or before
`e`, everything from it on ends after `e`); concretely, after
`append [3,5)` and `append [10,12)` on an empty tree, `lookup_index 7 = 1`,
`contains 10 = true` and `contains 5 = false`. -/

theorem C4_lookup_index (t : RangeTree) (hInv : t.Inv) (e : Nat) :
    ((∀ k, k < t.ranges.length → (t.ranges.getD k (0, 0)).1 ≤ e →
        e < (t.ranges.getD k (0, 0)).2 → t.lookup_index e = k) ∧
      t.lookup_index e ≤ t.ranges.length ∧
      (∀ i, i < t.lookup_index e → (t.ranges.getD i (0, 0)).2 ≤ e) ∧
      (∀ i, t.lookup_index e ≤ i → i < t.ranges.length →
        e < (t.ranges.getD i (0, 0)).2)) ∧
    (applyOps RangeTree.new [TreeOp.append (3, 5), TreeOp.append (10, 12)]
        = some (RangeTree.mk [(3, 5), (10, 12)]) ∧
      (RangeTree.mk [(3, 5), (10, 12)]).lookup_index 7 = 1 ∧
      (RangeTree.mk [(3, 5), (10, 12)]).contains 10 = true ∧
      (RangeTree.mk [(3, 5), (10, 12)]).contains 5 = false) := by
  obtain ⟨h1, h2, h3⟩ := RangeTree.lookup_index_spec t hInv e
  exact ⟨⟨fun k hk hk1 hk2 =>
    RangeTree.lookup_index_of_contains t hInv e k hk hk1 hk2, h1, h2, h3⟩,
    by decide, by decide, by decide, by decide⟩

theorem C4_lookup_index_witness :
    ((∀ k, k < (RangeTree.mk [(3, 5), (10, 12)]).ranges.length →
        ((RangeTree.mk [(3, 5), (10, 12)]).ranges.getD k (0, 0)).1 ≤ 10 →
        10 < ((RangeTree.mk [(3, 5), (10, 12)]).ranges.getD k (0, 0)).2 →
        (RangeTree.mk [(3, 5), (10, 12)]).lookup_index 10 = k) ∧
      (RangeTree.mk [(3, 5), (10, 12)]).lookup_index 10
        ≤ (RangeTree.mk [(3, 5), (10, 12)]).ranges.length ∧
      (∀ i, i < (RangeTree.mk [(3, 5), (10, 12)]).lookup_index 10 →
        ((RangeTree.mk [(3, 5), (10, 12)]).ranges.getD i (0, 0)).2 ≤ 10) ∧
      (∀ i, (RangeTree.mk [(3, 5), (10, 12)]).lookup_index 10 ≤ i →
        i < (RangeTree.mk [(3, 5), (10, 12)]).ranges.length →
        10 < ((RangeTree.mk [(3, 5), (10, 12)]).ranges.getD i (0, 0)).2)) ∧
    (applyOps RangeTree.new [TreeOp.append (3, 5), TreeOp.append (10, 12)]
        = some (RangeTree.mk [(3, 5), (10, 12)]) ∧
      (RangeTree.mk [(3, 5), (10, 12)]).lookup_index 7 = 1 ∧
      (RangeTree.mk [(3, 5), (10, 12)]).contains 10 = true ∧
      (RangeTree.mk [(3, 5), (10, 12)]).contains 5 = false) :=
  C4_lookup_index (RangeTree.mk [(3, 5), (10, 12)]) (by decide) 10

/-! ## Diff view, from `src/diff_view.rs`

Only the state the claims concern is modelled: the diff tree, the navigation
cursor, the three classification trees and the exit flag.  The keys are the
`KeyCode` variants the classification handler matches on; `DVKey.other` stands
for every other key.  The handler result is the updated context plus whether a
popup layer was pushed; `none` models a panic (a failed `assert!` inside
`RangeTree::insert`, or `.unwrap()` on a missing diff). -/

theorem RangeTree.remove_range_exact_isSome (t : RangeTree) (range : ByteRange)
    (hwf : range.1 ≤ range.2) :
    ∃ out, t.remove_range_exact range = some out := by
  cases hj : t.ranges[t.lookup_index range.1]? with
  | some r =>
    have hstep : t.remove_range_exact range =
        (if r.1 = range.1 ∧ r.2 = range.2 then
          some ((⟨t.ranges.eraseIdx (t.lookup_index range.1)⟩ : RangeTree), true)
        else some (t, false)) := by
      unfold RangeTree.remove_range_exact
      rw [if_pos hwf]
      show (match t.ranges[t.lookup_index range.1]? with
        | some r =>
          if r.1 = range.1 ∧ r.2 = range.2 then
            some ((⟨t.ranges.eraseIdx (t.lookup_index range.1)⟩ : RangeTree), true)
          else some (t, false)
        | none => some (t, false)) = _
      rw [hj]
    by_cases hr : r.1 = range.1 ∧ r.2 = range.2
    · exact ⟨_, by rw [hstep, if_pos hr]⟩
    · exact ⟨_, by rw [hstep, if_neg hr]⟩
  | none =>
    refine ⟨(t, false), ?_⟩
    unfold RangeTree.remove_range_exact
    rw [if_pos hwf]
    show (match t.ranges[t.lookup_index range.1]? with
      | some r =>
        if r.1 = range.1 ∧ r.2 = range.2 then
          some ((⟨t.ranges.eraseIdx (t.lookup_index range.1)⟩ : RangeTree), true)
        else some (t, false)
      | none => some (t, false)) = _
    rw [hj]

/-- Core of a classification keystroke: insert the current diff into the
target tree, remove it from the two others. -/

theorem classify_core (target o1 o2 : RangeTree) (r : ByteRange)
    (htarget : target.Inv) (ho1 : o1.Inv) (ho2 : o2.Inv) (hne : r.1 < r.2)
    (t' : RangeTree) (hins : target.insert r = some t')
    (p1 : RangeTree × Bool) (hrem1 : o1.remove_range_exact r = some p1)
    (p2 : RangeTree × Bool) (hrem2 : o2.remove_range_exact r = some p2) :
    t'.Inv ∧ p1.1.Inv ∧ p2.1.Inv ∧
    (∀ x ∈ t'.ranges, x = r ∨ x ∈ target.ranges) ∧
    (∀ x ∈ p1.1.ranges, x ∈ o1.ranges) ∧
    (∀ x ∈ p2.1.ranges, x ∈ o2.ranges) ∧
    r ∉ p1.1.ranges ∧ r ∉ p2.1.ranges := by
  obtain ⟨hL, -, -⟩ := RangeTree.lookup_index_spec target htarget r.1
  obtain ⟨ht'Inv, ht'ranges⟩ := RangeTree.insert_inv target htarget r (by omega) t' hins
  obtain ⟨q1, b1, heq1, hInv1, hsub1, hno1, hrm1⟩ :=
    RangeTree.remove_range_exact_spec o1 ho1 r (by omega)
  obtain ⟨q2, b2, heq2, hInv2, hsub2, hno2, hrm2⟩ :=
    RangeTree.remove_range_exact_spec o2 ho2 r (by omega)
  rw [heq1] at hrem1
  injection hrem1 with hrem1
  subst hrem1
  rw [heq2] at hrem2
  injection hrem2 with hrem2
  subst hrem2
  have hrnotin1 : r ∉ q1.ranges := by
    by_cases hmem : r ∈ o1.ranges
    · exact (hrm1 hne hmem).2
    · intro hmem'
      exact hmem (hsub1 r hmem')
  have hrnotin2 : r ∉ q2.ranges := by
    by_cases hmem : r ∈ o2.ranges
    · exact (hrm2 hne hmem).2
    · intro hmem'
      exact hmem (hsub2 r hmem')
  refine ⟨ht'Inv, hInv1, hInv2, ?_, hsub1, hsub2, hrnotin1, hrnotin2⟩
  intro x hx
  rw [ht'ranges] at hx
  exact (List.mem_insertIdx hL).mp hx

theorem DiffView.handleKeyEvent_gt_none (ctx : AppCtx)
    (hidx : ctx.current_diff_index = none) :
    DiffView.handleKeyEvent ctx DVKey.gt = some (ctx, false) := by
  unfold DiffView.handleKeyEvent
  rw [hidx]

theorem DiffView.handleKeyEvent_gt_noget (ctx : AppCtx) (index : Nat)
    (hidx : ctx.current_diff_index = some index)
    (hget : ctx.diffs.get index = none) :
    DiffView.handleKeyEvent ctx DVKey.gt = none := by
  unfold DiffView.handleKeyEvent
  rw [hidx]
  simp only []
  rw [hget]

theorem DiffView.handleKeyEvent_gt_some (ctx : AppCtx) (index : Nat)
    (r : ByteRange) (hidx : ctx.current_diff_index = some index)
    (hget : ctx.diffs.get index = some r) :
    DiffView.handleKeyEvent ctx DVKey.gt =
      ((ctx.merges_1_into_2.insert r).bind fun m12 =>
        (ctx.merges_2_into_1.remove_range_exact r).bind fun m21 =>
        (ctx.leave_unmerged.remove_range_exact r).map fun (lu : RangeTree × Bool) =>
        (({ ctx with
            merges_1_into_2 := m12
            merges_2_into_1 := m21.1
            leave_unmerged := lu.1 } : AppCtx), false)) := by
  unfold DiffView.handleKeyEvent
  rw [hidx]
  simp only []
  rw [hget]

theorem DiffView.handleKeyEvent_lt_none (ctx : AppCtx)
    (hidx : ctx.current_diff_index = none) :
    DiffView.handleKeyEvent ctx DVKey.lt = some (ctx, false) := by
  unfold DiffView.handleKeyEvent
  rw [hidx]

theorem DiffView.handleKeyEvent_lt_noget (ctx : AppCtx) (index : Nat)
    (hidx : ctx.current_diff_index = some index)
    (hget : ctx.diffs.get index = none) :
    DiffView.handleKeyEvent ctx DVKey.lt = none := by
  unfold DiffView.handleKeyEvent
  rw [hidx]
  simp only []
  rw [hget]

theorem DiffView.handleKeyEvent_lt_some (ctx : AppCtx) (index : Nat)
    (r : ByteRange) (hidx : ctx.current_diff_index = some index)
    (hget : ctx.diffs.get index = some r) :
    DiffView.handleKeyEvent ctx DVKey.lt =
      ((ctx.merges_1_into_2.remove_range_exact r).bind fun m12 =>
        (ctx.merges_2_into_1.insert r).bind fun m21 =>
        (ctx.leave_unmerged.remove_range_exact r).map fun (lu : RangeTree × Bool) =>
        (({ ctx with
            merges_1_into_2 := m12.1
            merges_2_into_1 := m21
            leave_unmerged := lu.1 } : AppCtx), false)) := by
  unfold DiffView.handleKeyEvent
  rw [hidx]
  simp only []
  rw [hget]

theorem DiffView.handleKeyEvent_eq_none (ctx : AppCtx)
    (hidx : ctx.current_diff_index = none) :
    DiffView.handleKeyEvent ctx DVKey.eq = some (ctx, false) := by
  unfold DiffView.handleKeyEvent
  rw [hidx]

theorem DiffView.handleKeyEvent_eq_noget (ctx : AppCtx) (index : Nat)
    (hidx : ctx.current_diff_index = some index)
    (hget : ctx.diffs.get index = none) :
    DiffView.handleKeyEvent ctx DVKey.eq = none := by
  unfold DiffView.handleKeyEvent
  rw [hidx]
  simp only []
  rw [hget]

theorem DiffView.handleKeyEvent_eq_some (ctx : AppCtx) (index : Nat)
    (r : ByteRange) (hidx : ctx.current_diff_index = some index)
    (hget : ctx.diffs.get index = some r) :
    DiffView.handleKeyEvent ctx DVKey.eq =
      ((ctx.merges_1_into_2.remove_range_exact r).bind fun m12 =>
        (ctx.merges_2_into_1.remove_range_exact r).bind fun m21 =>
        (ctx.leave_unmerged.insert r).map fun (lu : RangeTree) =>
        (({ ctx with
            merges_1_into_2 := m12.1
            merges_2_into_1 := m21.1
            leave_unmerged := lu } : AppCtx), false)) := by
  unfold DiffView.handleKeyEvent
  rw [hidx]
  simp only []
  rw [hget]

theorem DiffView.handleKeyEvent_bang_none (ctx : AppCtx)
    (hidx : ctx.current_diff_index = none) :
    DiffView.handleKeyEvent ctx DVKey.bang = some (ctx, false) := by
  unfold DiffView.handleKeyEvent
  rw [hidx]

theorem DiffView.handleKeyEvent_bang_noget (ctx : AppCtx) (index : Nat)
    (hidx : ctx.current_diff_index = some index)
    (hget : ctx.diffs.get index = none) :
    DiffView.handleKeyEvent ctx DVKey.bang = none := by
  unfold DiffView.handleKeyEvent
  rw [hidx]
  simp only []
  rw [hget]

theorem DiffView.handleKeyEvent_bang_some (ctx : AppCtx) (index : Nat)
    (r : ByteRange) (hidx : ctx.current_diff_index = some index)
    (hget : ctx.diffs.get index = some r) :
    DiffView.handleKeyEvent ctx DVKey.bang =
      ((ctx.merges_1_into_2.remove_range_exact r).bind fun m12 =>
        (ctx.merges_2_into_1.remove_range_exact r).bind fun m21 =>
        (ctx.leave_unmerged.remove_range_exact r).map fun (lu : RangeTree × Bool) =>
        (({ ctx with
            merges_1_into_2 := m12.1
            merges_2_into_1 := m21.1
            leave_unmerged := lu.1 } : AppCtx), false)) := by
  unfold DiffView.handleKeyEvent
  rw [hidx]
  simp only []
  rw [hget]

theorem C5_classification_disjoint (ctx : AppCtx) (key : DVKey)
    (ctx' : AppCtx) (pushed : Bool) (hInv : CtxInv ctx)
    (hdisj : TreesDisjoint ctx.merges_1_into_2 ctx.merges_2_into_1
      ctx.leave_unmerged)
    (h : DiffView.handleKeyEvent ctx key = some (ctx', pushed)) :
    TreesDisjoint ctx'.merges_1_into_2 ctx'.merges_2_into_1
      ctx'.leave_unmerged ∧ CtxInv ctx' ∧ ctx'.diffs = ctx.diffs := by
  obtain ⟨hm12, hm21, hlu, hdiffs⟩ := hInv
  obtain ⟨hd1, hd2⟩ := hdisj
  have hsame : ctx' = ctx →
      TreesDisjoint ctx'.merges_1_into_2 ctx'.merges_2_into_1
        ctx'.leave_unmerged ∧ CtxInv ctx' ∧ ctx'.diffs = ctx.diffs := by
    rintro rfl
    exact ⟨⟨hd1, hd2⟩, ⟨hm12, hm21, hlu, hdiffs⟩, rfl⟩
  cases key with
  | q =>
    by_cases hcond : (ctx.merges_1_into_2.isEmpty && ctx.merges_2_into_1.isEmpty)
        = true
    · have hstep : DiffView.handleKeyEvent ctx DVKey.q
          = some ({ ctx with exit := true }, false) := by
        show (if ctx.merges_1_into_2.isEmpty && ctx.merges_2_into_1.isEmpty then
          some (({ ctx with exit := true } : AppCtx), false)
        else some (ctx, true)) = _
        rw [if_pos hcond]
      rw [hstep] at h
      injection h with h
      injection h with h1 h2
      subst h1
      exact ⟨⟨hd1, hd2⟩, ⟨hm12, hm21, hlu, hdiffs⟩, rfl⟩
    · have hstep : DiffView.handleKeyEvent ctx DVKey.q = some (ctx, true) := by
        show (if ctx.merges_1_into_2.isEmpty && ctx.merges_2_into_1.isEmpty then
          some (({ ctx with exit := true } : AppCtx), false)
        else some (ctx, true)) = _
        rw [if_neg hcond]
      rw [hstep] at h
      injection h with h
      injection h with h1 h2
      subst h1
      exact ⟨⟨hd1, hd2⟩, ⟨hm12, hm21, hlu, hdiffs⟩, rfl⟩
  | other =>
    have hstep : DiffView.handleKeyEvent ctx DVKey.other = some (ctx, false) := rfl
    rw [hstep] at h
    injection h with h
    injection h with h1 h2
    exact hsame h1.symm
  | gt =>
    cases hidx : ctx.current_diff_index with
    | none =>
      rw [DiffView.handleKeyEvent_gt_none ctx hidx] at h
      injection h with h
      injection h with h1 h2
      exact hsame h1.symm
    | some index =>
      cases hget : ctx.diffs.get index with
      | none => rw [DiffView.handleKeyEvent_gt_noget ctx index hidx hget] at h; cases h
      | some r =>
        rw [DiffView.handleKeyEvent_gt_some ctx index r hidx hget] at h
        have hrmem : r ∈ ctx.diffs.ranges := by
          rw [mem_iff_getD]
          obtain ⟨hlen, hgd⟩ := (getElemQ_some_iff _ _ _).mp hget
          exact ⟨index, hlen, hgd⟩
        have hrne : r.1 < r.2 := hdiffs r hrmem
        cases hins : ctx.merges_1_into_2.insert r with
        | none => rw [hins] at h; cases h
        | some m12' =>
          rw [hins] at h
          obtain ⟨p1, hrem1⟩ := RangeTree.remove_range_exact_isSome
            ctx.merges_2_into_1 r (by omega)
          obtain ⟨p2, hrem2⟩ := RangeTree.remove_range_exact_isSome
            ctx.leave_unmerged r (by omega)
          rw [hrem1, hrem2] at h
          simp only [Option.some_bind, Option.map_some'] at h
          injection h with h
          injection h with h1 h2
          subst h1
          obtain ⟨hInvT, hInv1, hInv2, hmemT, hsub1, hsub2, hno1, hno2⟩ :=
            classify_core ctx.merges_1_into_2 ctx.merges_2_into_1
              ctx.leave_unmerged r hm12 hm21 hlu hrne m12' hins p1 hrem1 p2 hrem2
          refine ⟨⟨?_, ?_⟩, ⟨hInvT, hInv1, hInv2, hdiffs⟩, rfl⟩
          · intro x hx
            rcases hmemT x hx with hxr | hxold
            · subst hxr
              exact ⟨hno1, hno2⟩
            · obtain ⟨hn1, hn2⟩ := hd1 x hxold
              exact ⟨fun hc => hn1 (hsub1 x hc), fun hc => hn2 (hsub2 x hc)⟩
          · intro x hx
            have hxold := hsub1 x hx
            exact fun hc => hd2 x hxold (hsub2 x hc)
  | lt =>
    cases hidx : ctx.current_diff_index with
    | none =>
      rw [DiffView.handleKeyEvent_lt_none ctx hidx] at h
      injection h with h
      injection h with h1 h2
      exact hsame h1.symm
    | some index =>
      cases hget : ctx.diffs.get index with
      | none => rw [DiffView.handleKeyEvent_lt_noget ctx index hidx hget] at h; cases h
      | some r =>
        rw [DiffView.handleKeyEvent_lt_some ctx index r hidx hget] at h
        have hrmem : r ∈ ctx.diffs.ranges := by
          rw [mem_iff_getD]
          obtain ⟨hlen, hgd⟩ := (getElemQ_some_iff _ _ _).mp hget
          exact ⟨index, hlen, hgd⟩
        have hrne : r.1 < r.2 := hdiffs r hrmem
        obtain ⟨p1, hrem1⟩ := RangeTree.remove_range_exact_isSome
          ctx.merges_1_into_2 r (by omega)
        rw [hrem1] at h
        cases hins : ctx.merges_2_into_1.insert r with
        | none =>
          rw [hins] at h
          simp only [Option.some_bind, Option.none_bind] at h
          cases h
        | some m21' =>
          rw [hins] at h
          obtain ⟨p2, hrem2⟩ := RangeTree.remove_range_exact_isSome
            ctx.leave_unmerged r (by omega)
          rw [hrem2] at h
          simp only [Option.some_bind, Option.map_some'] at h
          injection h with h
          injection h with h1 h2
          subst h1
          obtain ⟨hInvT, hInv1, hInv2, hmemT, hsub1, hsub2, hno1, hno2⟩ :=
            classify_core ctx.merges_2_into_1 ctx.merges_1_into_2
              ctx.leave_unmerged r hm21 hm12 hlu hrne m21' hins p1 hrem1 p2 hrem2
          refine ⟨⟨?_, ?_⟩, ⟨hInv1, hInvT, hInv2, hdiffs⟩, rfl⟩
          · intro x hx
            have hxold := hsub1 x hx
            refine ⟨?_, ?_⟩
            · intro hc
              rcases hmemT x hc with hxr | hxold2
              · subst hxr
                exact hno1 hx
              · exact (hd1 x hxold).1 hxold2
            · intro hc
              exact (hd1 x hxold).2 (hsub2 x hc)
          · intro x hx
            rcases hmemT x hx with hxr | hxold
            · subst hxr
              exact hno2
            · exact fun hc => hd2 x hxold (hsub2 x hc)
  | eq =>
    cases hidx : ctx.current_diff_index with
    | none =>
      rw [DiffView.handleKeyEvent_eq_none ctx hidx] at h
      injection h with h
      injection h with h1 h2
      exact hsame h1.symm
    | some index =>
      cases hget : ctx.diffs.get index with
      | none => rw [DiffView.handleKeyEvent_eq_noget ctx index hidx hget] at h; cases h
      | some r =>
        rw [DiffView.handleKeyEvent_eq_some ctx index r hidx hget] at h
        have hrmem : r ∈ ctx.diffs.ranges := by
          rw [mem_iff_getD]
          obtain ⟨hlen, hgd⟩ := (getElemQ_some_iff _ _ _).mp hget
          exact ⟨index, hlen, hgd⟩
        have hrne : r.1 < r.2 := hdiffs r hrmem
        obtain ⟨p1, hrem1⟩ := RangeTree.remove_range_exact_isSome
          ctx.merges_1_into_2 r (by omega)
        obtain ⟨p2, hrem2⟩ := RangeTree.remove_range_exact_isSome
          ctx.merges_2_into_1 r (by omega)
        rw [hrem1, hrem2] at h
        cases hins : ctx.leave_unmerged.insert r with
        | none =>
          rw [hins] at h
          simp only [Option.some_bind, Option.map_none'] at h
          cases h
        | some lu' =>
          rw [hins] at h
          simp only [Option.some_bind, Option.map_some'] at h
          injection h with h
          injection h with h1 h2
          subst h1
          obtain ⟨hInvT, hInv1, hInv2, hmemT, hsub1, hsub2, hno1, hno2⟩ :=
            classify_core ctx.leave_unmerged ctx.merges_1_into_2
              ctx.merges_2_into_1 r hlu hm12 hm21 hrne lu' hins p1 hrem1 p2 hrem2
          refine ⟨⟨?_, ?_⟩, ⟨hInv1, hInv2, hInvT, hdiffs⟩, rfl⟩
          · intro x hx
            have hxold := hsub1 x hx
            refine ⟨?_, ?_⟩
            · exact fun hc => (hd1 x hxold).1 (hsub2 x hc)
            · intro hc
              rcases hmemT x hc with hxr | hxold2
              · subst hxr
                exact hno1 hx
              · exact (hd1 x hxold).2 hxold2
          · intro x hx
            have hxold := hsub2 x hx
            intro hc
            rcases hmemT x hc with hxr | hxold2
            · subst hxr
              exact hno2 hx
            · exact hd2 x hxold hxold2
  | bang =>
    cases hidx : ctx.current_diff_index with
    | none =>
      rw [DiffView.handleKeyEvent_bang_none ctx hidx] at h
      injection h with h
      injection h with h1 h2
      exact hsame h1.symm
    | some index =>
      cases hget : ctx.diffs.get index with
      | none => rw [DiffView.handleKeyEvent_bang_noget ctx index hidx hget] at h; cases h
      | some r =>
        rw [DiffView.handleKeyEvent_bang_some ctx index r hidx hget] at h
        have hrmem : r ∈ ctx.diffs.ranges := by
          rw [mem_iff_getD]
          obtain ⟨hlen, hgd⟩ := (getElemQ_some_iff _ _ _).mp hget
          exact ⟨index, hlen, hgd⟩
        have hrne : r.1 < r.2 := hdiffs r hrmem
        obtain ⟨q0, b0, heq0, hInv0, hsub0, -, -⟩ :=
          RangeTree.remove_range_exact_spec ctx.merges_1_into_2 hm12 r (by omega)
        obtain ⟨q1, b1, heq1, hInv1, hsub1, -, -⟩ :=
          RangeTree.remove_range_exact_spec ctx.merges_2_into_1 hm21 r (by omega)
        obtain ⟨q2, b2, heq2, hInv2, hsub2, -, -⟩ :=
          RangeTree.remove_range_exact_spec ctx.leave_unmerged hlu r (by omega)
        rw [heq0, heq1, heq2] at h
        simp only [Option.some_bind, Option.map_some'] at h
        injection h with h
        injection h with h1 h2
        subst h1
        refine ⟨⟨?_, ?_⟩, ⟨hInv0, hInv1, hInv2, hdiffs⟩, rfl⟩
        · intro x hx
          obtain ⟨hn1, hn2⟩ := hd1 x (hsub0 x hx)
          exact ⟨fun hc => hn1 (hsub1 x hc), fun hc => hn2 (hsub2 x hc)⟩
        · intro x hx
          exact fun hc => hd2 x (hsub1 x hx) (hsub2 x hc)

theorem C5_classification_disjoint_witness :
    TreesDisjoint
      (RangeTree.mk [(0, 1)]) RangeTree.new RangeTree.new ∧
    CtxInv
      { diffs := RangeTree.mk [(0, 1)], current_diff_index := some 0,
        merges_1_into_2 := RangeTree.mk [(0, 1)],
        merges_2_into_1 := RangeTree.new, leave_unmerged := RangeTree.new,
        exit := false } ∧
    ({ diffs := RangeTree.mk [(0, 1)], current_diff_index := some 0,
        merges_1_into_2 := RangeTree.mk [(0, 1)],
        merges_2_into_1 := RangeTree.new, leave_unmerged := RangeTree.new,
        exit := false } : AppCtx).diffs = RangeTree.mk [(0, 1)] :=
  C5_classification_disjoint
    { diffs := RangeTree.mk [(0, 1)], current_diff_index := some 0,
      merges_1_into_2 := RangeTree.new, merges_2_into_1 := RangeTree.new,
      leave_unmerged := RangeTree.new, exit := false }
    DVKey.gt
    { diffs := RangeTree.mk [(0, 1)], current_diff_index := some 0,
      merges_1_into_2 := RangeTree.mk [(0, 1)],
      merges_2_into_1 := RangeTree.new, leave_unmerged := RangeTree.new,
      exit := false }
    false
    (by decide) (by decide) (by decide)

/-- C10: for every state whose current diff range is already stored in the
decision tree targeted by a classification key, pressing that same key again
(`>` when the range is in merges_1_into_2, `<` when in merges_2_into_1, `=`
when in leave_unmerged) makes `RangeTree.insert` fail its non-overlap
assertion, so the whole key handler panics (returns `none`): the insert is
executed on the target tree with a range equal to a stored one, and nothing
removes that range from the target tree first. -/

theorem C10_repeat_classify_panics (ctx : AppCtx) (index : Nat) (r : ByteRange)
    (hidx : ctx.current_diff_index = some index)
    (hget : ctx.diffs.get index = some r)
    (hne : r.1 < r.2) :
    (r ∈ ctx.merges_1_into_2.ranges → ctx.merges_1_into_2.Inv →
      DiffView.handleKeyEvent ctx DVKey.gt = none) ∧
    (r ∈ ctx.merges_2_into_1.ranges → ctx.merges_2_into_1.Inv →
      DiffView.handleKeyEvent ctx DVKey.lt = none) ∧
    (r ∈ ctx.leave_unmerged.ranges → ctx.leave_unmerged.Inv →
      DiffView.handleKeyEvent ctx DVKey.eq = none) := by
  refine ⟨fun hmem hInv => ?_, fun hmem hInv => ?_, fun hmem hInv => ?_⟩
  · rw [DiffView.handleKeyEvent_gt_some ctx index r hidx hget,
      RangeTree.insert_mem_none _ hInv r hmem hne]
    rfl
  · rw [DiffView.handleKeyEvent_lt_some ctx index r hidx hget]
    obtain ⟨out, hout⟩ :=
      RangeTree.remove_range_exact_isSome ctx.merges_1_into_2 r (Nat.le_of_lt hne)
    rw [hout]
    show ((ctx.merges_2_into_1.insert r).bind fun m21 =>
      (ctx.leave_unmerged.remove_range_exact r).map fun (lu : RangeTree × Bool) =>
      (({ ctx with
          merges_1_into_2 := out.1
          merges_2_into_1 := m21
          leave_unmerged := lu.1 } : AppCtx), false)) = none
    rw [RangeTree.insert_mem_none _ hInv r hmem hne]
    rfl
  · rw [DiffView.handleKeyEvent_eq_some ctx index r hidx hget]
    obtain ⟨out1, hout1⟩ :=
      RangeTree.remove_range_exact_isSome ctx.merges_1_into_2 r (Nat.le_of_lt hne)
    obtain ⟨out2, hout2⟩ :=
      RangeTree.remove_range_exact_isSome ctx.merges_2_into_1 r (Nat.le_of_lt hne)
    rw [hout1]
    show ((ctx.merges_2_into_1.remove_range_exact r).bind fun m21 =>
      (ctx.leave_unmerged.insert r).map fun (lu : RangeTree) =>
      (({ ctx with
          merges_1_into_2 := out1.1
          merges_2_into_1 := m21.1
          leave_unmerged := lu } : AppCtx), false)) = none
    rw [hout2]
    show ((ctx.leave_unmerged.insert r).map fun (lu : RangeTree) =>
      (({ ctx with
          merges_1_into_2 := out1.1
          merges_2_into_1 := out2.1
          leave_unmerged := lu } : AppCtx), false)) = none
    rw [RangeTree.insert_mem_none _ hInv r hmem hne]
    rfl

/-- Witness for C10: in a concrete state whose current diff `(0, 2)` is
already stored in each decision tree, each of the three classification keys
panics. -/

theorem C10_repeat_classify_panics_witness :
    DiffView.handleKeyEvent
      { diffs := { ranges := [(0, 2)] }
        current_diff_index := some 0
        merges_1_into_2 := { ranges := [(0, 2)] }
        merges_2_into_1 := { ranges := [(0, 2)] }
        leave_unmerged := { ranges := [(0, 2)] }
        exit := false } DVKey.gt = none ∧
    DiffView.handleKeyEvent
      { diffs := { ranges := [(0, 2)] }
        current_diff_index := some 0
        merges_1_into_2 := { ranges := [(0, 2)] }
        merges_2_into_1 := { ranges := [(0, 2)] }
        leave_unmerged := { ranges := [(0, 2)] }
        exit := false } DVKey.lt = none ∧
    DiffView.handleKeyEvent
      { diffs := { ranges := [(0, 2)] }
        current_diff_index := some 0
        merges_1_into_2 := { ranges := [(0, 2)] }
        merges_2_into_1 := { ranges := [(0, 2)] }
        leave_unmerged := { ranges := [(0, 2)] }
        exit := false } DVKey.eq = none := by
  obtain ⟨h1, h2, h3⟩ := C10_repeat_classify_panics
    { diffs := { ranges := [(0, 2)] }
      current_diff_index := some 0
      merges_1_into_2 := { ranges := [(0, 2)] }
      merges_2_into_1 := { ranges := [(0, 2)] }
      leave_unmerged := { ranges := [(0, 2)] }
      exit := false } 0 (0, 2) rfl rfl (by decide)
  exact ⟨h1 (by decide) (by decide), h2 (by decide) (by decide),
    h3 (by decide) (by decide)⟩

/-- C8 (amended): pressing `q` on the diff view requests exit exactly when
`merges_1_into_2` and `merges_2_into_1` are both empty — `leave_unmerged` is
not consulted.  Otherwise the quit-confirmation popup is pushed and `exit`
stays as it was.  (`src/diff_view.rs` lines 26-32 test only the two merge
trees.) -/

theorem C8_quit_behavior (ctx : AppCtx) :
    (ctx.merges_1_into_2.ranges = [] → ctx.merges_2_into_1.ranges = [] →
      DiffView.handleKeyEvent ctx DVKey.q = some ({ ctx with exit := true }, false)) ∧
    (ctx.merges_1_into_2.ranges ≠ [] ∨ ctx.merges_2_into_1.ranges ≠ [] →
      DiffView.handleKeyEvent ctx DVKey.q = some (ctx, true)) := by
  constructor
  · intro h1 h2
    show (if ctx.merges_1_into_2.isEmpty && ctx.merges_2_into_1.isEmpty then
        some ({ ctx with exit := true }, false)
      else some (ctx, true)) = _
    rw [if_pos]
    rw [RangeTree.isEmpty, RangeTree.isEmpty, h1, h2]
    rfl
  · intro h
    show (if ctx.merges_1_into_2.isEmpty && ctx.merges_2_into_1.isEmpty then
        some ({ ctx with exit := true }, false)
      else some (ctx, true)) = _
    rw [if_neg]
    intro hcon
    obtain ⟨h1, h2⟩ := Bool.and_eq_true_iff.mp hcon
    have h1' : ctx.merges_1_into_2.ranges.isEmpty = true := h1
    have h2' : ctx.merges_2_into_1.ranges.isEmpty = true := h2
    rcases h with h | h
    · exact h (List.isEmpty_iff.mp h1')
    · exact h (List.isEmpty_iff.mp h2')

/-- Witness for C8 (amended): with both merge trees empty `q` sets `exit`;
with a range classified in `merges_1_into_2` it pushes the popup instead. -/

theorem C8_quit_behavior_witness :
    DiffView.handleKeyEvent
      { diffs := { ranges := [(0, 1)] }
        current_diff_index := some 0
        merges_1_into_2 := RangeTree.new
        merges_2_into_1 := RangeTree.new
        leave_unmerged := RangeTree.new
        exit := false } DVKey.q =
      some ({ diffs := { ranges := [(0, 1)] }
              current_diff_index := some 0
              merges_1_into_2 := RangeTree.new
              merges_2_into_1 := RangeTree.new
              leave_unmerged := RangeTree.new
              exit := true }, false) ∧
    DiffView.handleKeyEvent
      { diffs := { ranges := [(0, 1)] }
        current_diff_index := some 0
        merges_1_into_2 := { ranges := [(0, 1)] }
        merges_2_into_1 := RangeTree.new
        leave_unmerged := RangeTree.new
        exit := false } DVKey.q =
      some ({ diffs := { ranges := [(0, 1)] }
              current_diff_index := some 0
              merges_1_into_2 := { ranges := [(0, 1)] }
              merges_2_into_1 := RangeTree.new
              leave_unmerged := RangeTree.new
              exit := false }, true) :=
  ⟨(C8_quit_behavior _).1 rfl rfl, (C8_quit_behavior _).2 (Or.inl (by decide))⟩

/-- Counterexample to C8 as stated: with a range classified as
`leave_unmerged` (and the merge trees empty), pressing `q` still sets `exit`
and pushes no popup, although a classification exists in one of the three
decision trees. -/

theorem C8_quit_counterexample :
    ({ diffs := { ranges := [(0, 1)] }
       current_diff_index := some 0
       merges_1_into_2 := RangeTree.new
       merges_2_into_1 := RangeTree.new
       leave_unmerged := { ranges := [(0, 1)] }
       exit := false } : AppCtx).leave_unmerged.ranges ≠ [] ∧
    DiffView.handleKeyEvent
      { diffs := { ranges := [(0, 1)] }
        current_diff_index := some 0
        merges_1_into_2 := RangeTree.new
        merges_2_into_1 := RangeTree.new
        leave_unmerged := { ranges := [(0, 1)] }
        exit := false } DVKey.q =
      some ({ diffs := { ranges := [(0, 1)] }
              current_diff_index := some 0
              merges_1_into_2 := RangeTree.new
              merges_2_into_1 := RangeTree.new
              leave_unmerged := { ranges := [(0, 1)] }
              exit := true }, false) :=
  ⟨by decide, rfl⟩

/-- The selection state of the yes/no popup (`src/popup.rs` lines 11-15;
the struct stores no callback). -/

theorem C7_pos_invariants (len h pos amount : Nat) (hpos : pos % 16 = 0)
    (hamt : amount % 16 = 0) :
    App.decrease_pos pos amount = some (pos - amount) ∧
    (pos - amount) % 16 = 0 ∧
    (∀ p, App.increase_pos len h pos amount = some p →
      p % 16 = 0 ∧ p ≤ (len - h * 16) - (len - h * 16) % 16 + 16) ∧
    (∀ diffs cdi p, App.center_diff diffs cdi h pos = some p → p % 16 = 0) := by
  have hsub : (pos - amount) % 16 = 0 := by omega
  refine ⟨?_, hsub, ?_, ?_⟩
  · rw [App.decrease_pos]
    simp only [if_pos hsub]
  · intro p hp
    rw [App.increase_pos] at hp
    by_cases hlt : len < h * 16
    · rw [if_pos hlt] at hp
      cases hp
    · rw [if_neg hlt] at hp
      by_cases hmod : min (pos + amount) ((len - h * 16) - (len - h * 16) % 16 + 16) % 16 = 0
      · rw [if_pos hmod] at hp
        injection hp with hp
        subst hp
        exact ⟨hmod, Nat.min_le_right _ _⟩
      · rw [if_neg hmod] at hp
        cases hp
  · intro diffs cdi p hp
    rw [App.center_diff] at hp
    cases hr : cdi.bind fun i => diffs.get i with
    | none =>
      rw [hr] at hp
      simp only [] at hp
      injection hp with hp
      omega
    | some range =>
      rw [hr] at hp
      simp only [] at hp
      by_cases h1 : range.2 < range.1
      · rw [if_pos h1] at hp
        cases hp
      · rw [if_neg h1] at hp
        by_cases h2 : h * 16 < 48
        · rw [if_pos h2] at hp
          cases hp
        · rw [if_neg h2] at hp
          injection hp with hp
          omega

/-- Witness for C7 (amended): concrete navigation steps at `len = 32` with
one shown row keep `pos` a multiple of 16 and within the actual clamp. -/

theorem C7_pos_invariants_witness :
    App.decrease_pos 16 16 = some 0 ∧
    (32 % 16 = 0 ∧ 32 ≤ (32 - 1 * 16) - (32 - 1 * 16) % 16 + 16) ∧
    16 % 16 = 0 := by
  have h := C7_pos_invariants 32 1 16 16 (by decide) (by decide)
  exact ⟨h.1, h.2.2.1 32 (by decide),
    h.2.2.2 RangeTree.new none 16 (by decide)⟩

/-- Counterexample to C7 as stated: at `len = 32` with one shown row
(`shown_data_height = 1`) and `pos = 16` — a state satisfying the claimed
bound — pressing Down (`increase_pos 16`) yields `pos = 32`, and
`32 + 1 * 16 = 48` exceeds `len` rounded up to 16, which is `32`. -/

theorem C7_pos_counterexample :
    App.increase_pos 32 1 16 16 = some 32 ∧
    16 + 1 * 16 ≤ roundUp16 32 ∧
    ¬ (32 + 1 * 16 ≤ roundUp16 32) := by
  refine ⟨by decide, by decide, by decide⟩

/-- `ReadAt::read_at` on an in-memory file: up to `size` bytes from offset
`pos` (fewer at end of file), as `copy` in `src/apply.rs` line 34 uses it. -/

theorem writeAllAt_length (file data : List Nat) (pos : Nat)
    (h : pos + data.length ≤ file.length) :
    (writeAllAt file pos data).length = file.length := by
  simp [writeAllAt]
  omega

theorem writeAllAt_getD (file data : List Nat) (pos i : Nat)
    (h : pos + data.length ≤ file.length) :
    (writeAllAt file pos data).getD i 0 =
      if pos ≤ i ∧ i < pos + data.length then data.getD (i - pos) 0
      else file.getD i 0 := by
  have htk : (file.take pos).length = pos := by simp; omega
  rw [writeAllAt, List.getD_eq_getElem?_getD]
  rw [List.append_assoc, List.getElem?_append, htk]
  by_cases h1 : i < pos
  · rw [if_pos h1, List.getElem?_take, if_pos h1, if_neg (by omega)]
    rw [List.getD_eq_getElem?_getD]
  · rw [if_neg h1, List.getElem?_append]
    by_cases h2 : i - pos < data.length
    · rw [if_pos h2, if_pos (by omega), List.getD_eq_getElem?_getD]
    · rw [if_neg h2, if_neg (by omega), List.getElem?_drop,
        List.getD_eq_getElem?_getD]
      congr 2
      omega

theorem readAt_length (file : List Nat) (pos size : Nat) :
    (readAt file pos size).length = min size (file.length - pos) := by
  simp [readAt]

theorem readAt_getD_eq (file : List Nat) (pos size k : Nat) (hk : k < size) :
    (readAt file pos size).getD k 0 = file.getD (pos + k) 0 := by
  rw [readAt, List.getD_eq_getElem?_getD, List.getElem?_take, if_pos hk,
    List.getElem?_drop, List.getD_eq_getElem?_getD]

theorem copyGo_spec (src : List Nat) : ∀ (fuel : Nat) (dst : List Nat)
    (pos endPos : Nat), endPos ≤ src.length → src.length = dst.length →
    endPos ≤ pos + fuel →
    (copyGo src fuel dst pos endPos).length = dst.length ∧
    ∀ i, (copyGo src fuel dst pos endPos).getD i 0 =
      if pos ≤ i ∧ i < endPos then src.getD i 0 else dst.getD i 0 := by
  intro fuel
  induction fuel with
  | zero =>
    intro dst pos endPos hsrc hlen hfuel
    refine ⟨rfl, fun i => ?_⟩
    rw [if_neg (by omega)]
    rfl
  | succ fuel ih =>
    intro dst pos endPos hsrc hlen hfuel
    by_cases hlt : pos < endPos
    · have hstep : copyGo src (fuel + 1) dst pos endPos =
          copyGo src fuel
            (writeAllAt dst pos (readAt src pos (min (8 * 1024 * 1024) (endPos - pos))))
            (pos + (readAt src pos (min (8 * 1024 * 1024) (endPos - pos))).length)
            endPos := by
        rw [copyGo, if_pos hlt]
      have hdlen : (readAt src pos (min (8 * 1024 * 1024) (endPos - pos))).length
          = min (8 * 1024 * 1024) (endPos - pos) := by
        rw [readAt_length]
        omega
      have hwb : pos + (readAt src pos (min (8 * 1024 * 1024) (endPos - pos))).length
          ≤ dst.length := by
        rw [hdlen]
        omega
      have hwlen := writeAllAt_length dst
        (readAt src pos (min (8 * 1024 * 1024) (endPos - pos))) pos hwb
      obtain ⟨ihlen, ihget⟩ := ih
        (writeAllAt dst pos (readAt src pos (min (8 * 1024 * 1024) (endPos - pos))))
        (pos + (readAt src pos (min (8 * 1024 * 1024) (endPos - pos))).length)
        endPos hsrc (by omega) (by rw [hdlen]; omega)
      refine ⟨by rw [hstep, ihlen, hwlen], fun i => ?_⟩
      rw [hstep, ihget i, writeAllAt_getD dst _ pos i hwb]
      by_cases hc1 : pos + (readAt src pos (min (8 * 1024 * 1024) (endPos - pos))).length ≤ i
          ∧ i < endPos
      · rw [if_pos hc1, if_pos (by omega)]
      · rw [if_neg hc1]
        by_cases hc2 : pos ≤ i ∧ i < pos + (readAt src pos (min (8 * 1024 * 1024) (endPos - pos))).length
        · rw [if_pos hc2, if_pos (by rw [hdlen] at hc2; omega),
            readAt_getD_eq src pos _ (i - pos) (by rw [hdlen] at hc2; omega)]
          congr 1
          omega
        · rw [if_neg hc2, if_neg (by rw [hdlen] at hc1 hc2; omega)]
    · rw [copyGo, if_neg hlt]
      refine ⟨rfl, fun i => ?_⟩
      rw [if_neg (by omega)]

theorem applyRanges_spec (src : List Nat) (rs : List ByteRange) :
    ∀ (dst : List Nat), src.length = dst.length →
    (∀ r ∈ rs, r.2 ≤ src.length) →
    (rs.foldl (fun f r => copy src f r) dst).length = dst.length ∧
    ∀ i, (rs.foldl (fun f r => copy src f r) dst).getD i 0 =
      if inRanges rs i then src.getD i 0 else dst.getD i 0 := by
  induction rs with
  | nil =>
    intro dst _ _
    refine ⟨rfl, fun i => ?_⟩
    rw [if_neg (by simp)]
    rfl
  | cons r rs ih =>
    intro dst hlen hb
    have hr2 : r.2 ≤ src.length := hb r (List.mem_cons_self r rs)
    obtain ⟨hclen, hcget⟩ := copyGo_spec src (r.2 - r.1) dst r.1 r.2 hr2 hlen (by omega)
    obtain ⟨ihlen, ihget⟩ := ih (copyGo src (r.2 - r.1) dst r.1 r.2)
      (by rw [hclen]; exact hlen) (fun r' hr' => hb r' (List.mem_cons_of_mem r hr'))
    have hstep : (r :: rs).foldl (fun f rg => copy src f rg) dst
        = rs.foldl (fun f rg => copy src f rg) (copyGo src (r.2 - r.1) dst r.1 r.2) := rfl
    refine ⟨by rw [hstep, ihlen, hclen], fun i => ?_⟩
    rw [hstep, ihget i]
    by_cases h1 : inRanges rs i
    · rw [if_pos h1, if_pos (by rw [inRanges_cons]; exact Or.inr h1)]
    · rw [if_neg h1, hcget i]
      by_cases h2 : r.1 ≤ i ∧ i < r.2
      · rw [if_pos h2, if_pos (by rw [inRanges_cons]; exact Or.inl h2)]
      · rw [if_neg h2, if_neg (by
          rw [inRanges_cons]
          intro hor
          cases hor with
          | inl h => exact h2 h
          | inr h => exact h1 h)]

theorem apply_changes_spec (A B : List Nat) (m21 m12 : RangeTree)
    (hlen : A.length = B.length)
    (hb21 : ∀ r ∈ m21.ranges, r.2 ≤ A.length)
    (hb12 : ∀ r ∈ m12.ranges, r.2 ≤ A.length) :
    (apply_changes A B m21 m12).1.length = A.length ∧
    (apply_changes A B m21 m12).2.length = B.length ∧
    (∀ i, (apply_changes A B m21 m12).1.getD i 0 =
      if inRanges m21.ranges i then B.getD i 0 else A.getD i 0) ∧
    (∀ i, (apply_changes A B m21 m12).2.getD i 0 =
      if inRanges m12.ranges i then (apply_changes A B m21 m12).1.getD i 0
      else B.getD i 0) := by
  have h1 : (apply_changes A B m21 m12).1
      = m21.ranges.foldl (fun f r => copy B f r) A := rfl
  have h2 : (apply_changes A B m21 m12).2
      = m12.ranges.foldl
          (fun f r => copy (m21.ranges.foldl (fun f r => copy B f r) A) f r) B := rfl
  obtain ⟨hl1, hg1⟩ := applyRanges_spec B m21.ranges A hlen.symm
    (fun r hr => (hb21 r hr).trans hlen.le)
  obtain ⟨hl2, hg2⟩ := applyRanges_spec
    (m21.ranges.foldl (fun f r => copy B f r) A) m12.ranges B
    (by rw [hl1]; exact hlen)
    (fun r hr => by rw [hl1]; exact hb12 r hr)
  exact ⟨by rw [h1, hl1], by rw [h2, hl2],
    fun i => by rw [h1]; exact hg1 i,
    fun i => by rw [h2, h1]; exact hg2 i⟩

/-- A mask rebuilt from a chain of runs: falses up to each run's start, trues
across the run, and `L` total positions counted from `p` (proof device). -/

theorem runsMask_length : ∀ (rs : List ByteRange) (p L : Nat),
    ChainLB p rs → (∀ r ∈ rs, r.2 ≤ p + L) →
    (runsMask rs p L).length = L := by
  intro rs
  induction rs with
  | nil =>
    intro p L _ _
    rw [runsMask]
    exact List.length_replicate L false
  | cons r rs ih =>
    intro p L hchain hb
    obtain ⟨s, e⟩ := r
    obtain ⟨hps, hse, hrest⟩ := hchain
    have hps' : p ≤ s := hps
    have hse' : s < e := hse
    have hbnd : e ≤ p + L := hb (s, e) (List.mem_cons_self _ _)
    have hrec := ih e (L - (e - p)) (ChainLB.mono (by omega) hrest)
      (fun r' hr' => by have := hb r' (List.mem_cons_of_mem _ hr'); omega)
    rw [runsMask]
    rw [List.length_append, List.length_append, List.length_replicate,
      List.length_replicate, hrec]
    omega

theorem runsMask_getD : ∀ (rs : List ByteRange) (p L i : Nat),
    ChainLB p rs → (∀ r ∈ rs, r.2 ≤ p + L) →
    ((runsMask rs p L).getD i false = true ↔ inRanges rs (p + i)) := by
  intro rs
  induction rs with
  | nil =>
    intro p L i _ _
    rw [runsMask]
    constructor
    · intro h
      rw [List.getD_eq_getElem?_getD, List.getElem?_replicate] at h
      by_cases hi : i < L
      · rw [if_pos hi] at h
        cases h
      · rw [if_neg hi] at h
        cases h
    · rintro ⟨r, hr, -⟩
      cases hr
  | cons r rs ih =>
    intro p L i hchain hb
    obtain ⟨s, e⟩ := r
    obtain ⟨hps, hse, hrest⟩ := hchain
    have hps' : p ≤ s := hps
    have hse' : s < e := hse
    have hbnd : e ≤ p + L := hb (s, e) (List.mem_cons_self _ _)
    have hrest' : ChainLB e rs := ChainLB.mono (by omega) hrest
    have hb' : ∀ r' ∈ rs, r'.2 ≤ e + (L - (e - p)) := by
      intro r' hr'
      have := hb r' (List.mem_cons_of_mem _ hr')
      omega
    have hstart : ∀ r' ∈ rs, e + 1 ≤ r'.1 :=
      fun r' hr' => (ChainLB.mem_bound hrest r' hr').1
    rw [runsMask, List.getD_eq_getElem?_getD, List.getElem?_append,
      List.length_replicate]
    by_cases h1 : i < s - p
    · rw [if_pos h1, List.getElem?_replicate, if_pos h1]
      constructor
      · intro h
        cases h
      · rintro ⟨r', hr', hin⟩
        exfalso
        rcases List.mem_cons.mp hr' with h' | h'
        · subst h'
          have hx : s ≤ p + i := hin.1
          omega
        · have hx1 : e + 1 ≤ r'.1 := hstart r' h'
          have hx2 : r'.1 ≤ p + i := hin.1
          omega
    · rw [if_neg h1, List.getElem?_append, List.length_replicate]
      by_cases h2 : i - (s - p) < e - s
      · rw [if_pos h2, List.getElem?_replicate, if_pos h2]
        constructor
        · intro _
          exact ⟨(s, e), List.mem_cons_self _ _, by constructor <;> omega⟩
        · intro _
          rfl
      · rw [if_neg h2]
        have harith : i - (s - p) - (e - s) = i - (e - p) := by omega
        rw [harith]
        have hIH := ih e (L - (e - p)) (i - (e - p)) hrest' hb'
        rw [List.getD_eq_getElem?_getD] at hIH
        rw [hIH]
        have harith2 : e + (i - (e - p)) = p + i := by clear hIH; omega
        rw [harith2, inRanges_cons]
        constructor
        · exact Or.inr
        · rintro (hin | hin)
          · exfalso
            have hx : p + i < e := hin.2
            omega
          · exact hin

theorem runsAux_close (m : List Bool) (p s : Nat) (h : m.getD 0 false = false) :
    runsAux m p (some s) = (s, p) :: runsAux m p none := by
  cases m with
  | nil => rfl
  | cons b m =>
    have hb : b = false := by simpa using h
    subst hb
    rfl

theorem runsAux_append_replicate_false (g : Nat) (m : List Bool) (p : Nat) :
    runsAux (List.replicate g false ++ m) p none = runsAux m (p + g) none := by
  have hfalse : ∀ i, i < g →
      (List.replicate g false ++ m).getD i false = false := by
    intro i hi
    rw [List.getD_eq_getElem?_getD, List.getElem?_append,
      List.length_replicate, if_pos hi, List.getElem?_replicate, if_pos hi]
    rfl
  rw [runsAux_drop_false g _ p (by simp) hfalse]
  congr 1
  have hdl := List.drop_left (List.replicate g false) m
  rw [List.length_replicate] at hdl
  exact hdl

theorem runsAux_replicate_true_some (t : Nat) (m : List Bool) (p s : Nat) :
    runsAux (List.replicate t true ++ m) p (some s) = runsAux m (p + t) (some s) := by
  have htrue' : ∀ i, i < t →
      (List.replicate t true ++ m).getD i false = true := by
    intro i hi
    rw [List.getD_eq_getElem?_getD, List.getElem?_append,
      List.length_replicate, if_pos hi, List.getElem?_replicate, if_pos hi]
    rfl
  rw [runsAux_drop_true t _ p s (by simp) htrue']
  congr 1
  have hdl := List.drop_left (List.replicate t true) m
  rw [List.length_replicate] at hdl
  exact hdl

theorem runsAux_append_replicate_true (t : Nat) (m : List Bool) (p : Nat)
    (ht : 1 ≤ t) :
    runsAux (List.replicate t true ++ m) p none = runsAux m (p + t) (some p) := by
  cases t with
  | zero => omega
  | succ t' =>
    rw [List.replicate_succ, List.cons_append, runsAux_cons_true_none,
      runsAux_replicate_true_some]
    congr 1
    omega

theorem runsAux_runsMask : ∀ (rs : List ByteRange) (p L : Nat), ChainLB p rs →
    runsAux (runsMask rs p L) p none = rs := by
  intro rs
  induction rs with
  | nil =>
    intro p L _
    rw [runsMask]
    apply runsAux_all_false
    intro i hi
    rw [List.getD_eq_getElem?_getD, List.getElem?_replicate,
      if_pos (by simpa using hi)]
    rfl
  | cons r rs ih =>
    intro p L hchain
    obtain ⟨s, e⟩ := r
    obtain ⟨hps, hse, hrest⟩ := hchain
    have hps' : p ≤ s := hps
    have hse' : s < e := hse
    rw [runsMask, runsAux_append_replicate_false]
    have hs : p + (s - p) = s := by omega
    rw [hs, runsAux_append_replicate_true (e - s) _ s (by omega)]
    have he : s + (e - s) = e := by omega
    rw [he]
    have hhead : (runsMask rs e (L - (e - p))).getD 0 false = false := by
      cases rs with
      | nil =>
        rw [runsMask, List.getD_eq_getElem?_getD, List.getElem?_replicate]
        by_cases h0 : 0 < L - (e - p)
        · rw [if_pos h0]
          rfl
        · rw [if_neg h0]
          rfl
      | cons r' rs' =>
        obtain ⟨s', e'⟩ := r'
        have hgap : e + 1 ≤ s' :=
          (ChainLB.mem_bound hrest (s', e') (List.mem_cons_self _ _)).1
        rw [runsMask, List.getD_eq_getElem?_getD, List.getElem?_append,
          List.length_replicate, if_pos (by omega), List.getElem?_replicate,
          if_pos (by omega)]
        rfl
    rw [runsAux_close _ _ _ hhead,
      ih e (L - (e - p)) (ChainLB.mono (by omega) hrest)]

theorem ChainLB.filter (f : ByteRange → Bool) :
    ∀ (rs : List ByteRange) (lb : Nat), ChainLB lb rs →
      ChainLB lb (rs.filter f) := by
  intro rs
  induction rs with
  | nil =>
    intro lb _
    exact trivial
  | cons r rs ih =>
    intro lb h
    obtain ⟨h1, h2, h3⟩ := h
    rw [List.filter_cons]
    by_cases hf : f r = true
    · rw [if_pos hf]
      exact ⟨h1, h2, ih _ h3⟩
    · rw [if_neg hf]
      exact ChainLB.mono (by omega) (ih _ h3)

theorem pairwise_mem_unique : ∀ (rs : List ByteRange),
    rs.Pairwise (fun r1 r2 => r1.2 ≤ r2.1 ∧ r1.1 < r2.1) →
    ∀ (r r' : ByteRange) (i : Nat), r ∈ rs → r' ∈ rs →
      inRange r i → inRange r' i → r = r' := by
  intro rs
  induction rs with
  | nil =>
    intro _ r r' i hr
    cases hr
  | cons x rs ih =>
    intro hp r r' i hr hr' hir hir'
    obtain ⟨hx, hrest⟩ := List.pairwise_cons.mp hp
    rcases List.mem_cons.mp hr with h1 | h1 <;>
      rcases List.mem_cons.mp hr' with h2 | h2
    · rw [h1, h2]
    · exfalso
      subst h1
      have ha : i < r.2 := hir.2
      have hb : r.2 ≤ r'.1 := (hx r' h2).1
      have hc : r'.1 ≤ i := hir'.1
      omega
    · exfalso
      subst h2
      have ha : i < r'.2 := hir'.2
      have hb : r'.2 ≤ r.1 := (hx r h1).1
      have hc : r.1 ≤ i := hir.1
      omega
    · exact ih hrest r r' i h1 h2 hir hir'

theorem bool_list_ext (l1 l2 : List Bool) (hlen : l1.length = l2.length)
    (h : ∀ i, l1.getD i false = l2.getD i false) : l1 = l2 := by
  apply List.ext_getElem?
  intro i
  by_cases hi : i < l1.length
  · rw [List.getElem?_eq_getElem hi, List.getElem?_eq_getElem (hlen ▸ hi)]
    have hh := h i
    rw [List.getD_eq_getElem?_getD, List.getD_eq_getElem?_getD,
      List.getElem?_eq_getElem hi, List.getElem?_eq_getElem (hlen ▸ hi)] at hh
    simpa using hh
  · rw [List.getElem?_eq_none (by omega), List.getElem?_eq_none (by omega)]

/-- C6 (amended): for every decision set over the diffs of two equal-length
files, applying the merges and re-running the differ yields exactly the
original diff ranges minus those MERGED — the ones in `merges_2_into_1` or
`merges_1_into_2`.  Ranges classified `leave_unmerged` are never written by
apply and remain diffs, so "minus those classified" holds only for the two
merge directions. -/

theorem C6_apply_rediff (A B : List Nat) (m21 m12 : RangeTree)
    (hlen : A.length = B.length)
    (h21 : ∀ r ∈ m21.ranges, r ∈ bytesDiff A B)
    (h12 : ∀ r ∈ m12.ranges, r ∈ bytesDiff A B) :
    bytesDiff (apply_changes A B m21 m12).1 (apply_changes A B m21 m12).2 =
      (bytesDiff A B).filter
        (fun r => !(decide (r ∈ m21.ranges) || decide (r ∈ m12.ranges))) := by
  have hD : bytesDiff A B = runsAux (maskAt A B 0) 0 none :=
    bytesDiff_eq_runsAux_maskAt A B
  have hmask_len : (maskAt A B 0).length = A.length := by
    rw [maskAt_length]
    omega
  have hchainD : ChainLB 0 (runsAux (maskAt A B 0) 0 none) :=
    chainLB_runsAux (maskAt A B 0) 0 none (by intro s hs; cases hs)
  have hendsD : ∀ r ∈ runsAux (maskAt A B 0) 0 none, r.2 ≤ A.length := by
    intro r hr
    have h := runsAux_ends_le (maskAt A B 0) 0 r hr
    rw [hmask_len] at h
    omega
  have hpw := ChainLB.pairwise hchainD
  have hmaskD : ∀ i, inRanges (runsAux (maskAt A B 0) 0 none) i ↔
      (i < A.length ∧ (maskAt A B 0).getD i false = true) := by
    intro i
    rw [mem_runsAux (maskAt A B 0) 0 none i (by intro s hs; cases hs)]
    simp only [pendingSet_none, false_or]
    constructor
    · rintro ⟨j, hj, hij, hm⟩
      rw [hmask_len] at hj
      have hij' : i = j := by omega
      rw [hij']
      exact ⟨hj, hm⟩
    · rintro ⟨hi, hm⟩
      exact ⟨i, by rw [hmask_len]; omega, by omega, hm⟩
  have h21' : ∀ r ∈ m21.ranges, r ∈ runsAux (maskAt A B 0) 0 none := by
    intro r hr
    rw [← hD]
    exact h21 r hr
  have h12' : ∀ r ∈ m12.ranges, r ∈ runsAux (maskAt A B 0) 0 none := by
    intro r hr
    rw [← hD]
    exact h12 r hr
  have hb21 : ∀ r ∈ m21.ranges, r.2 ≤ A.length :=
    fun r hr => hendsD r (h21' r hr)
  have hb12 : ∀ r ∈ m12.ranges, r.2 ≤ A.length :=
    fun r hr => hendsD r (h12' r hr)
  obtain ⟨hl1, hl2, hg1, hg2⟩ := apply_changes_spec A B m21 m12 hlen hb21 hb12
  have hchainF : ChainLB 0 ((runsAux (maskAt A B 0) 0 none).filter
      (fun r => !(decide (r ∈ m21.ranges) || decide (r ∈ m12.ranges)))) :=
    ChainLB.filter _ _ 0 hchainD
  have hendsF : ∀ r ∈ (runsAux (maskAt A B 0) 0 none).filter
      (fun r => !(decide (r ∈ m21.ranges) || decide (r ∈ m12.ranges))),
      r.2 ≤ 0 + A.length := by
    intro r hr
    have := hendsD r (List.mem_of_mem_filter hr)
    omega
  have hnew : maskAt (apply_changes A B m21 m12).1 (apply_changes A B m21 m12).2 0
      = runsMask ((runsAux (maskAt A B 0) 0 none).filter
          (fun r => !(decide (r ∈ m21.ranges) || decide (r ∈ m12.ranges)))) 0
          A.length := by
    apply bool_list_ext
    · rw [maskAt_length, hl1, hl2,
        runsMask_length _ 0 A.length hchainF hendsF]
      omega
    · intro i
      by_cases hi : i < A.length
      · have hrm := runsMask_getD _ 0 A.length i hchainF hendsF
        rw [Nat.zero_add] at hrm
        rw [Bool.eq_iff_iff, hrm,
          maskAt_getD _ _ 0 i (by rw [hl1]; omega) (by rw [hl2]; omega),
          Nat.zero_add, decide_eq_true_iff]
        rw [hg1 i, hg2 i, hg1 i]
        by_cases k12 : inRanges m12.ranges i
        · rw [if_pos k12]
          constructor
          · intro h
            exact absurd rfl h
          · rintro ⟨r, hr, hir⟩
            exfalso
            obtain ⟨r', hr', hir'⟩ := k12
            have hrD := List.mem_of_mem_filter hr
            have hr'D := h12' r' hr'
            have heq : r = r' := pairwise_mem_unique _ hpw r r' i hrD hr'D hir hir'
            have hk := (List.mem_filter.mp hr).2
            rw [heq] at hk
            simp [hr'] at hk
        · rw [if_neg k12]
          by_cases k21 : inRanges m21.ranges i
          · rw [if_pos k21]
            constructor
            · intro h
              exact absurd rfl h
            · rintro ⟨r, hr, hir⟩
              exfalso
              obtain ⟨r', hr', hir'⟩ := k21
              have hrD := List.mem_of_mem_filter hr
              have hr'D := h21' r' hr'
              have heq : r = r' := pairwise_mem_unique _ hpw r r' i hrD hr'D hir hir'
              have hk := (List.mem_filter.mp hr).2
              rw [heq] at hk
              simp [hr'] at hk
          · rw [if_neg k21]
            constructor
            · intro hne
              have hm : (maskAt A B 0).getD i false = true := by
                rw [maskAt_getD A B 0 i (by omega) (by omega), Nat.zero_add]
                exact decide_eq_true hne
              obtain ⟨r, hrD, hir⟩ := (hmaskD i).mpr ⟨hi, hm⟩
              refine ⟨r, ?_, hir⟩
              rw [List.mem_filter]
              refine ⟨hrD, ?_⟩
              have hn21 : r ∉ m21.ranges := fun hc => k21 ⟨r, hc, hir⟩
              have hn12 : r ∉ m12.ranges := fun hc => k12 ⟨r, hc, hir⟩
              simp [hn21, hn12]
            · rintro ⟨r, hr, hir⟩
              have hrD := List.mem_of_mem_filter hr
              have hm := ((hmaskD i).mp ⟨r, hrD, hir⟩).2
              rw [maskAt_getD A B 0 i (by omega) (by omega), Nat.zero_add,
                decide_eq_true_iff] at hm
              exact hm
      · rw [List.getD_eq_default _ _ (by
            rw [maskAt_length, hl1, hl2]
            omega),
          List.getD_eq_default _ _ (by
            rw [runsMask_length _ 0 A.length hchainF hendsF]
            omega)]
  rw [bytesDiff_eq_runsAux_maskAt, hnew,
    runsAux_runsMask _ 0 A.length hchainF, hD]

/-- Witness for C6 (amended): files `[1,2,3,4,5,6]` and `[9,2,9,4,9,6]`
differ at `(0,1)`, `(2,3)` and `(4,5)`; merging `(0,1)` right-to-left and
`(2,3)` left-to-right and re-running the differ leaves exactly `(4,5)`. -/

theorem C6_apply_rediff_witness :
    bytesDiff
      (apply_changes [1, 2, 3, 4, 5, 6] [9, 2, 9, 4, 9, 6]
        { ranges := [(0, 1)] } { ranges := [(2, 3)] }).1
      (apply_changes [1, 2, 3, 4, 5, 6] [9, 2, 9, 4, 9, 6]
        { ranges := [(0, 1)] } { ranges := [(2, 3)] }).2 =
      (bytesDiff [1, 2, 3, 4, 5, 6] [9, 2, 9, 4, 9, 6]).filter
        (fun r => !(decide (r ∈ ({ ranges := [(0, 1)] } : RangeTree).ranges) ||
          decide (r ∈ ({ ranges := [(2, 3)] } : RangeTree).ranges))) :=
  C6_apply_rediff [1, 2, 3, 4, 5, 6] [9, 2, 9, 4, 9, 6]
    { ranges := [(0, 1)] } { ranges := [(2, 3)] }
    (by decide) (by decide) (by decide)

/-- Counterexample to C6 as stated: files `[0]` and `[1]` differ at `(0,1)`;
classifying that diff as `leave_unmerged` (both merge trees empty, so every
diff is classified) and applying leaves both files unchanged, and the re-run
differ still reports `(0,1)` — not the empty list the claim's "original
diffs minus those classified" demands. -/

theorem C6_apply_counterexample :
    bytesDiff [0] [1] = [(0, 1)] ∧
    (0, 1) ∈ ({ ranges := [(0, 1)] } : RangeTree).ranges ∧
    bytesDiff (apply_changes [0] [1] RangeTree.new RangeTree.new).1
        (apply_changes [0] [1] RangeTree.new RangeTree.new).2 = [(0, 1)] :=
  ⟨rfl, by decide, rfl⟩

/-- C9: the popup's Enter key does not behave as specified.  With YES
selected, Enter hits `todo!()` and panics instead of committing and invoking
the callback (the popup struct stores no callback at all); with NO selected
it does pop the layer, and Esc and `q` pop without any callback. -/

theorem C9_popup_enter :
    PopupYesNo.handle_key_event { yes_selected := true } PopupKey.enter = none ∧
    PopupYesNo.handle_key_event { yes_selected := false } PopupKey.enter =
      some ({ yes_selected := false }, true) ∧
    PopupYesNo.handle_key_event { yes_selected := true } PopupKey.esc =
      some ({ yes_selected := true }, true) ∧
    PopupYesNo.handle_key_event { yes_selected := true } PopupKey.q =
      some ({ yes_selected := true }, true) :=
  ⟨rfl, rfl, rfl, rfl⟩

end Binmerge

